import Mathlib

/-!
# Verification of the logamizer ingest pipeline

Shallow embedding of the worker-side core of the repository
(`apps/worker/parsers/base.py`, `apps/worker/utils/aggregator.py`,
`apps/worker/utils/security.py`, `apps/worker/utils/anomaly.py`,
`apps/worker/parsers/error_parser.py`, `apps/worker/tasks/scheduler.py`,
`apps/api/routers/log_sources.py`) together with proofs of the spec's
claims about it.

Modelling conventions:
* `datetime` values are modelled as `Nat` seconds since the UTC epoch.
  Python `datetime` arithmetic (no leap seconds, proleptic Gregorian
  calendar) makes `replace(minute=0, second=0, microsecond=0)` equal to
  flooring to a multiple of 3600, and `timedelta` comparison equal to
  integer comparison of second counts, so this embedding is exact.
* Python `dict`s (insertion ordered) are modelled as association lists in
  insertion order; Python `set`s as duplicate-free lists in insertion
  order (Python set iteration order is unspecified, but no theorem below
  depends on the iteration order of a set with more than one element).
* `collections.Counter` is modelled as an association list in
  first-insertion order; `Counter.most_common(n)` sorts by count
  descending, stably ("elements with equal counts are ordered in the
  order first encountered"), and takes `n`.
* Python `sorted` is a stable sort; it is modelled by a stable insertion
  sort, which computes the same list.
* Exact rational arithmetic stands in for Python float arithmetic.
-/

namespace Logamizer

/-- `apps/worker/parsers/base.py` `LogEvent` (dataclass). `timestamp` is
seconds since the UTC epoch. -/
structure LogEvent where
  timestamp : Nat
  ip : String
  method : String
  path : String
  status : Int
  bytes_sent : Int
  referer : Option String := none
  user_agent : Option String := none
  user : Option String := none
  protocol : Option String := none
  raw_line : String := ""
  line_number : Nat := 0
  deriving Repr, DecidableEq

/-- `LogEvent.status_class` from `apps/worker/parsers/base.py`. -/
def LogEvent.status_class (e : LogEvent) : String :=
  if 200 ≤ e.status ∧ e.status < 300 then "2xx"
  else if 300 ≤ e.status ∧ e.status < 400 then "3xx"
  else if 400 ≤ e.status ∧ e.status < 500 then "4xx"
  else if 500 ≤ e.status ∧ e.status < 600 then "5xx"
  else "other"

/-! ## Counters and sets (Python `Counter` / `set` modelling) -/

/-- `counter[k] += 1`: bump the count of `k`, appending `(k, 1)` when `k`
is new (Python `Counter` keeps first-insertion order). -/
def bumpCounter {α : Type} [DecidableEq α] (c : List (α × Nat)) (k : α) :
    List (α × Nat) :=
  if c.any (fun p => p.1 = k) then
    c.map (fun p => if p.1 = k then (p.1, p.2 + 1) else p)
  else
    c ++ [(k, 1)]

/-- `s.add(x)` on a Python set, modelled in insertion order. -/
def addToSet {α : Type} [DecidableEq α] (s : List α) (x : α) : List α :=
  if x ∈ s then s else s ++ [x]

/-- One stable descending-by-count insertion step: the new pair goes after
every pair with a count ≥ its own. -/
def insertByCountDesc {α : Type} (p : α × Nat) :
    List (α × Nat) → List (α × Nat)
  | [] => [p]
  | q :: rest =>
      if p.2 ≤ q.2 then q :: insertByCountDesc p rest else p :: q :: rest

/-- `Counter.most_common(n)`: stable sort by count descending, take `n`. -/
def mostCommon {α : Type} (c : List (α × Nat)) (n : Nat) : List (α × Nat) :=
  (c.foldl (fun acc p => insertByCountDesc p acc) []).take n

/-! ## Aggregator (`apps/worker/utils/aggregator.py`) -/

/-- `HourlyBucket` dataclass. -/
structure HourlyBucket where
  hour : Nat
  requests_count : Nat := 0
  status_2xx : Nat := 0
  status_3xx : Nat := 0
  status_4xx : Nat := 0
  status_5xx : Nat := 0
  total_bytes : Int := 0
  ips : List String := []
  paths : List (String × Nat) := []
  user_agents : List (String × Nat) := []
  status_codes : List (Int × Nat) := []
  deriving Repr, DecidableEq

/-- The stored form produced by `HourlyBucket.to_dict(top_n)` (only typed
fields instead of a JSON dict). -/
structure HourlyBucketDict where
  hour_bucket : Nat
  requests_count : Nat
  status_2xx : Nat
  status_3xx : Nat
  status_4xx : Nat
  status_5xx : Nat
  total_bytes : Int
  unique_ips : Nat
  unique_paths : Nat
  top_paths : List (String × Nat)
  top_ips : List (String × Nat)
  top_user_agents : List (String × Nat)
  top_status_codes : List (Int × Nat)
  deriving Repr, DecidableEq

/-- `HourlyBucket.to_dict(top_n)`.  Note the source builds `top_ips` as
`Counter(self.ips).most_common(top_n)`: the counter is constructed from
the *set* of IPs, so every IP gets count 1. -/
def HourlyBucket.to_dict (b : HourlyBucket) (top_n : Nat) : HourlyBucketDict :=
  { hour_bucket := b.hour
    requests_count := b.requests_count
    status_2xx := b.status_2xx
    status_3xx := b.status_3xx
    status_4xx := b.status_4xx
    status_5xx := b.status_5xx
    total_bytes := b.total_bytes
    unique_ips := b.ips.length
    unique_paths := b.paths.length
    top_paths := mostCommon b.paths top_n
    top_ips := mostCommon (b.ips.map (fun ip => (ip, 1))) top_n
    top_user_agents := mostCommon b.user_agents top_n
    top_status_codes := mostCommon b.status_codes top_n }

/-- `AggregationResult` dataclass (global counters part). -/
structure AggregationResult where
  hourly_buckets : List HourlyBucket := []
  total_requests : Nat := 0
  total_bytes : Int := 0
  unique_ips : List String := []
  unique_paths : List String := []
  status_breakdown : List (String × Nat) := []
  top_paths : List (String × Nat) := []
  top_ips : List (String × Nat) := []
  top_user_agents : List (String × Nat) := []
  top_referers : List (String × Nat) := []
  methods : List (String × Nat) := []
  first_timestamp : Option Nat := none
  last_timestamp : Option Nat := none
  deriving Repr, DecidableEq

/-- `Aggregator` state: `_hourly` is a dict keyed by hour (association
list in insertion order; the `defaultdict` default is never consulted
because `add_event` inserts explicitly before indexing). -/
structure AggregatorState where
  hourly : List (Nat × HourlyBucket) := []
  result : AggregationResult := {}
  deriving Repr, DecidableEq

/-- `Aggregator._get_hour_key`: `timestamp.replace(minute=0, second=0,
microsecond=0)`, i.e. flooring to the hour. -/
def getHourKey (timestamp : Nat) : Nat := timestamp - timestamp % 3600

/-- The per-bucket mutations done by `Aggregator.add_event`. -/
def updateBucket (b : HourlyBucket) (e : LogEvent) : HourlyBucket :=
  let b :=
    { b with
      requests_count := b.requests_count + 1
      total_bytes := b.total_bytes + e.bytes_sent
      ips := addToSet b.ips e.ip
      paths := bumpCounter b.paths e.path
      status_codes := bumpCounter b.status_codes e.status }
  let b :=
    match e.user_agent with
    | some ua => { b with user_agents := bumpCounter b.user_agents ua }
    | none => b
  if e.status_class = "2xx" then { b with status_2xx := b.status_2xx + 1 }
  else if e.status_class = "3xx" then { b with status_3xx := b.status_3xx + 1 }
  else if e.status_class = "4xx" then { b with status_4xx := b.status_4xx + 1 }
  else if e.status_class = "5xx" then { b with status_5xx := b.status_5xx + 1 }
  else b

/-- Update of the `_hourly` dict in `Aggregator.add_event`: get-or-create
the bucket keyed by the hour, then mutate it in place. -/
def updateHourly (hourly : List (Nat × HourlyBucket)) (key : Nat)
    (e : LogEvent) : List (Nat × HourlyBucket) :=
  if hourly.any (fun p => p.1 = key) then
    hourly.map (fun p => if p.1 = key then (p.1, updateBucket p.2 e) else p)
  else
    hourly ++ [(key, updateBucket { hour := key } e)]

/-- The global-stat mutations done by `Aggregator.add_event`. -/
def updateResult (r : AggregationResult) (e : LogEvent) : AggregationResult :=
  let r :=
    { r with
      total_requests := r.total_requests + 1
      total_bytes := r.total_bytes + e.bytes_sent
      unique_ips := addToSet r.unique_ips e.ip
      unique_paths := addToSet r.unique_paths e.path
      status_breakdown := bumpCounter r.status_breakdown e.status_class
      top_paths := bumpCounter r.top_paths e.path
      top_ips := bumpCounter r.top_ips e.ip
      methods := bumpCounter r.methods e.method }
  let r :=
    match e.user_agent with
    | some ua => { r with top_user_agents := bumpCounter r.top_user_agents ua }
    | none => r
  let r :=
    match e.referer with
    | some ref => { r with top_referers := bumpCounter r.top_referers ref }
    | none => r
  let r :=
    match r.first_timestamp with
    | none => { r with first_timestamp := some e.timestamp }
    | some t =>
        if e.timestamp < t then { r with first_timestamp := some e.timestamp }
        else r
  match r.last_timestamp with
  | none => { r with last_timestamp := some e.timestamp }
  | some t =>
      if t < e.timestamp then { r with last_timestamp := some e.timestamp }
      else r

/-- `Aggregator.add_event`. -/
def addEvent (st : AggregatorState) (e : LogEvent) : AggregatorState :=
  { hourly := updateHourly st.hourly (getHourKey e.timestamp) e
    result := updateResult st.result e }

/-- `Aggregator.aggregate_events` up to the point where `get_result`
sorts the buckets: the fold of `add_event` over the event list. -/
def aggregateEvents (events : List LogEvent) : AggregatorState :=
  events.foldl addEvent {}

/-- Requests counted in the bucket keyed `h` (0 when the key is absent). -/
def hourlyRequests (hourly : List (Nat × HourlyBucket)) (h : Nat) : Nat :=
  match hourly.find? (fun p => p.1 = h) with
  | some p => p.2.requests_count
  | none => 0

/-! ### Aggregator facts -/

theorem updateBucket_hour (b : HourlyBucket) (e : LogEvent) :
    (updateBucket b e).hour = b.hour := by
  simp only [updateBucket]
  cases e.user_agent <;> split_ifs <;> rfl

theorem updateBucket_requests (b : HourlyBucket) (e : LogEvent) :
    (updateBucket b e).requests_count = b.requests_count + 1 := by
  simp only [updateBucket]
  cases e.user_agent <;> split_ifs <;> rfl

theorem updateBucket_status_le (b : HourlyBucket) (e : LogEvent)
    (h : b.status_2xx + b.status_3xx + b.status_4xx + b.status_5xx ≤
      b.requests_count) :
    (updateBucket b e).status_2xx + (updateBucket b e).status_3xx +
        (updateBucket b e).status_4xx + (updateBucket b e).status_5xx ≤
      (updateBucket b e).requests_count := by
  simp only [updateBucket]
  cases e.user_agent <;> split_ifs <;> simp <;> omega

theorem updateHourly_cons_of_ne (p : Nat × HourlyBucket)
    (rest : List (Nat × HourlyBucket)) (key : Nat) (e : LogEvent)
    (hne : ¬ p.1 = key) :
    updateHourly (p :: rest) key e = p :: updateHourly rest key e := by
  by_cases hany : rest.any (fun q => q.1 = key)
  · simp [updateHourly, hany, hne]
  · simp [updateHourly, hany, hne]

theorem hourlyRequests_update_self (hourly : List (Nat × HourlyBucket))
    (key : Nat) (e : LogEvent) :
    hourlyRequests (updateHourly hourly key e) key =
      hourlyRequests hourly key + 1 := by
  induction hourly with
  | nil => simp [updateHourly, hourlyRequests, updateBucket_requests]
  | cons p rest ih =>
      by_cases hp : p.1 = key
      · have hany : (p :: rest).any (fun q => q.1 = key) = true := by
          simp [List.any_cons, hp]
        simp only [updateHourly, hany, if_true, List.map_cons, hp, if_pos rfl]
        simp [hourlyRequests, List.find?_cons, hp, updateBucket_requests]
      · rw [updateHourly_cons_of_ne p rest key e hp]
        simp only [hourlyRequests, List.find?_cons] at *
        have : (decide (p.1 = key)) = false := by simp [hp]
        simp only [this]
        exact ih

theorem hourlyRequests_map_other (hourly : List (Nat × HourlyBucket))
    (key h : Nat) (e : LogEvent) (hne : h ≠ key) :
    hourlyRequests
        (hourly.map (fun p => if p.1 = key then (p.1, updateBucket p.2 e) else p))
        h = hourlyRequests hourly h := by
  induction hourly with
  | nil => rfl
  | cons p rest ih =>
      by_cases hp : p.1 = key
      · simp only [List.map_cons, if_pos hp, hourlyRequests, List.find?_cons]
        have : (decide (p.1 = h)) = false := by
          simp [hp]; exact fun hh => (hne hh.symm).elim
        simp only [this]
        exact ih
      · simp only [List.map_cons, if_neg hp, hourlyRequests, List.find?_cons]
        by_cases hh : p.1 = h
        · simp [hh]
        · have : (decide (p.1 = h)) = false := by simp [hh]
          simp only [this]
          exact ih

theorem hourlyRequests_append_of_ne (hourly : List (Nat × HourlyBucket))
    (key h : Nat) (b : HourlyBucket) (hne : h ≠ key) :
    hourlyRequests (hourly ++ [(key, b)]) h = hourlyRequests hourly h := by
  induction hourly with
  | nil =>
      have : (decide (key = h)) = false := by simp [Ne.symm hne]
      simp [hourlyRequests, List.find?_cons, this]
  | cons p rest ih =>
      simp only [List.cons_append, hourlyRequests, List.find?_cons]
      by_cases hh : p.1 = h
      · simp [hh]
      · have : (decide (p.1 = h)) = false := by simp [hh]
        simp only [this]
        exact ih

theorem hourlyRequests_update_of_ne (hourly : List (Nat × HourlyBucket))
    (key h : Nat) (e : LogEvent) (hne : h ≠ key) :
    hourlyRequests (updateHourly hourly key e) h = hourlyRequests hourly h := by
  by_cases hany : hourly.any (fun q => q.1 = key)
  · simp only [updateHourly, hany, if_true]
    exact hourlyRequests_map_other hourly key h e hne
  · simp only [updateHourly, hany, if_false]
    exact hourlyRequests_append_of_ne hourly key h _ hne

theorem updateHourly_map_fst (hourly : List (Nat × HourlyBucket))
    (key : Nat) (e : LogEvent) :
    (updateHourly hourly key e).map Prod.fst =
      if hourly.any (fun q => q.1 = key) then hourly.map Prod.fst
      else hourly.map Prod.fst ++ [key] := by
  by_cases hany : hourly.any (fun q => q.1 = key)
  · simp only [updateHourly, hany, if_true, List.map_map]
    congr 1
    funext p
    by_cases hp : p.1 = key <;> simp [hp]
  · simp [updateHourly, hany]

theorem mem_updateHourly (hourly : List (Nat × HourlyBucket)) (key : Nat)
    (e : LogEvent) (q : Nat × HourlyBucket)
    (hq : q ∈ updateHourly hourly key e) :
    (∃ p ∈ hourly, q = p) ∨
      (∃ p ∈ hourly, q = (p.1, updateBucket p.2 e)) ∨
      q = (key, updateBucket { hour := key } e) := by
  by_cases hany : hourly.any (fun p => p.1 = key)
  · simp only [updateHourly, hany, if_true, List.mem_map] at hq
    obtain ⟨p, hp, hpq⟩ := hq
    by_cases hk : p.1 = key
    · rw [if_pos hk] at hpq
      exact Or.inr (Or.inl ⟨p, hp, hpq.symm⟩)
    · rw [if_neg hk] at hpq
      exact Or.inl ⟨p, hp, hpq.symm⟩
  · unfold updateHourly at hq
    rw [if_neg hany] at hq
    rcases List.mem_append.mp hq with hq | hq
    · exact Or.inl ⟨q, hq, rfl⟩
    · exact Or.inr (Or.inr (List.mem_singleton.mp hq))

theorem sum_requests_updateHourly (hourly : List (Nat × HourlyBucket))
    (key : Nat) (e : LogEvent)
    (hnd : (hourly.map Prod.fst).Nodup) :
    ((updateHourly hourly key e).map (fun p => p.2.requests_count)).sum =
      (hourly.map (fun p => p.2.requests_count)).sum + 1 := by
  induction hourly with
  | nil => simp [updateHourly, updateBucket_requests]
  | cons p rest ih =>
      simp only [List.map_cons, List.nodup_cons] at hnd
      by_cases hp : p.1 = key
      · have hany : (p :: rest).any (fun q => q.1 = key) = true := by
          simp [List.any_cons, hp]
        have hrest : rest.map (fun q => if q.1 = key then (q.1, updateBucket q.2 e) else q)
            = rest := by
          conv_rhs => rw [← List.map_id rest]
          apply List.map_congr_left
          intro q hqmem
          have hq1 : q.1 ≠ key := by
            intro hk
            apply hnd.1
            have hmem := List.mem_map_of_mem Prod.fst hqmem
            rwa [hk, ← hp] at hmem
          simp [hq1]
        simp only [updateHourly, hany, if_true, List.map_cons, if_pos hp, hrest,
          List.map_cons, List.sum_cons, updateBucket_requests]
        omega
      · rw [updateHourly_cons_of_ne p rest key e hp]
        simp only [List.map_cons, List.sum_cons, ih hnd.2]
        omega

theorem hourlyRequests_of_mem (hourly : List (Nat × HourlyBucket))
    (hnd : (hourly.map Prod.fst).Nodup) (p : Nat × HourlyBucket)
    (hp : p ∈ hourly) : hourlyRequests hourly p.1 = p.2.requests_count := by
  induction hourly with
  | nil => cases hp
  | cons q rest ih =>
      simp only [List.map_cons, List.nodup_cons] at hnd
      by_cases hq1 : q.1 = p.1
      · have hqp : q = p := by
          rcases List.mem_cons.mp hp with h | h
          · exact h.symm
          · exact absurd (hq1 ▸ List.mem_map_of_mem Prod.fst h) hnd.1
        simp [hourlyRequests, List.find?_cons, hq1, hqp]
      · have : (decide (q.1 = p.1)) = false := by simp [hq1]
        have hp' : p ∈ rest := by
          rcases List.mem_cons.mp hp with h | h
          · exact absurd (congrArg Prod.fst h.symm) hq1
          · exact h
        simpa [hourlyRequests, List.find?_cons, this] using ih hnd.2 hp'

/-- The invariant carried through the `add_event` fold: distinct bucket
keys, each bucket's `hour` equal to its key, the per-class sums bounded
by the request count, the per-key request count equal to the number of
processed events whose hour truncation is that key, and the total. -/
def AggInv (st : AggregatorState) (l : List LogEvent) : Prop :=
  ((st.hourly.map Prod.fst).Nodup) ∧
  (∀ p ∈ st.hourly, p.2.hour = p.1 ∧
     p.2.status_2xx + p.2.status_3xx + p.2.status_4xx + p.2.status_5xx ≤
       p.2.requests_count) ∧
  (∀ h : Nat, hourlyRequests st.hourly h =
     l.countP (fun e => getHourKey e.timestamp = h)) ∧
  ((st.hourly.map (fun p => p.2.requests_count)).sum = l.length)

theorem aggInv_step (st : AggregatorState) (l : List LogEvent) (e : LogEvent)
    (h : AggInv st l) : AggInv (addEvent st e) (l ++ [e]) := by
  obtain ⟨hnd, hmem, hcount, hsum⟩ := h
  refine ⟨?_, ?_, ?_, ?_⟩
  · show ((updateHourly st.hourly (getHourKey e.timestamp) e).map Prod.fst).Nodup
    rw [updateHourly_map_fst]
    split_ifs with hany
    · exact hnd
    · rw [List.nodup_append]
      refine ⟨hnd, List.nodup_singleton _, ?_⟩
      intro a ha hb
      rw [List.mem_singleton] at hb
      subst hb
      rcases List.mem_map.mp ha with ⟨p, hp, hp1⟩
      exact hany (List.any_eq_true.mpr ⟨p, hp, by simp [hp1]⟩)
  · intro p hp
    rcases mem_updateHourly _ _ _ _ hp with ⟨q, hq, hqe⟩ | ⟨q, hq, hqe⟩ | hqe
    · rw [hqe]; exact hmem q hq
    · rw [hqe]
      exact ⟨(updateBucket_hour q.2 e).trans (hmem q hq).1,
        updateBucket_status_le q.2 e (hmem q hq).2⟩
    · rw [hqe]
      refine ⟨(updateBucket_hour _ e).trans rfl, ?_⟩
      exact updateBucket_status_le _ e (by simp)
  · intro h
    show hourlyRequests (updateHourly st.hourly (getHourKey e.timestamp) e) h = _
    rw [List.countP_append]
    by_cases hk : h = getHourKey e.timestamp
    · subst hk
      rw [hourlyRequests_update_self, hcount]
      simp
    · rw [hourlyRequests_update_of_ne _ _ _ _ hk, hcount]
      have hne : getHourKey e.timestamp ≠ h := fun hc => hk hc.symm
      have h0 : List.countP (fun ev => decide (getHourKey ev.timestamp = h)) [e] = 0 := by
        simp only [List.countP_cons, List.countP_nil, Nat.zero_add]
        simp [hne]
      omega
  · show ((updateHourly st.hourly (getHourKey e.timestamp) e).map
        (fun p => p.2.requests_count)).sum = (l ++ [e]).length
    rw [sum_requests_updateHourly _ _ _ hnd, hsum]
    simp

theorem aggInv_fold (events : List LogEvent) :
    ∀ (st : AggregatorState) (l : List LogEvent), AggInv st l →
      AggInv (events.foldl addEvent st) (l ++ events) := by
  induction events with
  | nil => intro st l h; simpa using h
  | cons e rest ih =>
      intro st l h
      have step := aggInv_step st l e h
      have := ih (addEvent st e) (l ++ [e]) step
      simpa [List.append_assoc] using this

theorem aggInv_aggregate (events : List LogEvent) :
    AggInv (aggregateEvents events) events := by
  have base : AggInv ({} : AggregatorState) [] := by
    refine ⟨by simp, by simp, ?_, by simp⟩
    intro h
    simp [hourlyRequests]
  simpa using aggInv_fold events {} [] base

/-- C3: every event is aggregated into exactly one hourly bucket — the
bucket keys are pairwise distinct, each bucket's `hour` equals the hour
truncation key, and each bucket's `requests_count` equals the number of
events whose timestamp truncates to that hour; the request counts over
all buckets sum to the number of events; and in every bucket the four
status-class counters sum to at most `requests_count` (the remainder
being the non-negative "other" class). -/
theorem aggregator_bucket_partition (events : List LogEvent) :
    (((aggregateEvents events).hourly.map Prod.fst).Nodup) ∧
    (∀ p ∈ (aggregateEvents events).hourly,
       p.2.hour = p.1 ∧
       p.2.requests_count =
         events.countP (fun e => getHourKey e.timestamp = p.1) ∧
       p.2.status_2xx + p.2.status_3xx + p.2.status_4xx + p.2.status_5xx ≤
         p.2.requests_count) ∧
    (((aggregateEvents events).hourly.map
        (fun p => p.2.requests_count)).sum = events.length) := by
  obtain ⟨hnd, hmem, hcount, hsum⟩ := aggInv_aggregate events
  refine ⟨hnd, ?_, hsum⟩
  intro p hp
  obtain ⟨hhour, hstat⟩ := hmem p hp
  refine ⟨hhour, ?_, hstat⟩
  rw [← hcount p.1, hourlyRequests_of_mem _ hnd p hp]

/-- Two events from the same IP, in the same hour (10:01:40 and 10:03:20
UTC on day one of the epoch). -/
def sameIpEvents : List LogEvent :=
  [ { timestamp := 36100, ip := "1.2.3.4", method := "GET", path := "/a",
      status := 200, bytes_sent := 10 },
    { timestamp := 36200, ip := "1.2.3.4", method := "GET", path := "/a",
      status := 404, bytes_sent := 5 } ]

/-- The single bucket produced by aggregating `sameIpEvents`. -/
def sameIpBucket : Nat × HourlyBucket :=
  (36000,
    { hour := 36000, requests_count := 2, status_2xx := 1, status_3xx := 0,
      status_4xx := 1, status_5xx := 0, total_bytes := 15,
      ips := ["1.2.3.4"], paths := [("/a", 2)], user_agents := [],
      status_codes := [(200, 1), (404, 1)] })

/-- C1: the code behaviour at the failing input.  `to_dict` builds
`top_ips` as `Counter(self.ips).most_common(top_n)` from the IP *set*,
so every listed IP carries count 1: aggregating two events from
`1.2.3.4` in one hour yields one bucket whose only `top_ips` entry has
count 1, although 2 events from that IP were aggregated into the
bucket. -/
theorem to_dict_top_ips_loses_counts :
    ((aggregateEvents sameIpEvents).hourly.map
        (fun p => ( p.2.to_dict 10).top_ips)) = [[("1.2.3.4", 1)]] ∧
    sameIpEvents.countP (fun e => e.ip = "1.2.3.4") = 2 := by decide

/-- Witness for C3: the partition theorem instantiated at the concrete
two-event stream and its single bucket. -/
theorem aggregator_bucket_partition_witness :
    sameIpBucket.2.hour = sameIpBucket.1 ∧
    sameIpBucket.2.requests_count =
      sameIpEvents.countP (fun e => getHourKey e.timestamp = sameIpBucket.1) ∧
    sameIpBucket.2.status_2xx + sameIpBucket.2.status_3xx +
        sameIpBucket.2.status_4xx + sameIpBucket.2.status_5xx ≤
      sameIpBucket.2.requests_count :=
  (aggregator_bucket_partition sameIpEvents).2.1 sameIpBucket (by decide)

/-! ## Parser stream loop (`apps/worker/parsers/base.py`) -/

/-- `ParseError` dataclass. -/
structure ParseError where
  line_number : Nat
  raw_line : String
  error : String
  deriving Repr, DecidableEq

/-- `ParseResult` dataclass. -/
structure ParseResult where
  total_lines : Nat := 0
  parsed_lines : Nat := 0
  failed_lines : Nat := 0
  empty_lines : Nat := 0
  events : List LogEvent := []
  errors : List ParseError := []
  first_timestamp : Option Nat := none
  last_timestamp : Option Nat := none
  deriving Repr, DecidableEq

/-- `ParseResult.success_rate`: `parsed_lines / (total_lines -
empty_lines)`, returning `0.0` when the denominator is zero.  Exact
rational arithmetic models the Python float division. -/
def ParseResult.success_rate (r : ParseResult) : ℚ :=
  let parseable : Int := (r.total_lines : Int) - (r.empty_lines : Int)
  if parseable = 0 then 0 else (r.parsed_lines : ℚ) / (parseable : ℚ)

/-- `ParseResult.add_event`. -/
def ParseResult.add_event (r : ParseResult) (e : LogEvent) : ParseResult :=
  let r :=
    { r with events := r.events ++ [e], parsed_lines := r.parsed_lines + 1 }
  let r :=
    match r.first_timestamp with
    | none => { r with first_timestamp := some e.timestamp }
    | some t =>
        if e.timestamp < t then { r with first_timestamp := some e.timestamp }
        else r
  match r.last_timestamp with
  | none => { r with last_timestamp := some e.timestamp }
  | some t =>
      if t < e.timestamp then { r with last_timestamp := some e.timestamp }
      else r

/-- `ParseResult.add_error`: count the failure, keep only the first 10
error samples. -/
def ParseResult.add_error (r : ParseResult) (err : ParseError) : ParseResult :=
  let r := { r with failed_lines := r.failed_lines + 1 }
  if r.errors.length < 10 then { r with errors := r.errors ++ [err] } else r

/-- Python `str.strip()` whitespace (ASCII part; parsed log lines are
decoded with `errors="replace"` so the ASCII set is what matters). -/
def isPySpace (c : Char) : Bool :=
  c = ' ' || c = '\t' || c = '\n' || c = '\x0d' || c.toNat = 11 || c.toNat = 12

/-- Python `line.strip()`. -/
def pyStrip (s : String) : String :=
  ⟨((s.toList.dropWhile isPySpace).reverse.dropWhile isPySpace).reverse⟩

/-- The trimmed line is empty or a comment (`not line or
line.startswith("#")` after `line = line.strip()`). -/
def isBlankLine (line : String) : Bool :=
  pyStrip line = "" || (pyStrip line).startsWith "#"

/-- An abstract `parse_line` as declared on the `Parser` base class:
returns an event, `None` for an empty/comment line, or raises
`ValueError` (modelled with `Except`). -/
def ParseLineFn : Type := String → Nat → Except String (Option LogEvent)

/-- One iteration of the `Parser.parse_stream` loop on line number `n`. -/
def parseStreamStep (pl : ParseLineFn) (r : ParseResult) (n : Nat)
    (line : String) : ParseResult :=
  let r := { r with total_lines := r.total_lines + 1 }
  let stripped := pyStrip line
  if stripped = "" || stripped.startsWith "#" then
    { r with empty_lines := r.empty_lines + 1 }
  else
    match pl stripped n with
    | .ok (some e) => r.add_event e
    | .ok none => { r with empty_lines := r.empty_lines + 1 }
    | .error msg =>
        r.add_error { line_number := n, raw_line := stripped, error := msg }

/-- `Parser.parse_stream`: fold of the loop body over the 1-indexed
enumeration of the raw lines. -/
def parseStream (pl : ParseLineFn) (lines : List String) : ParseResult :=
  lines.enum.foldl (fun r p => parseStreamStep pl r (p.1 + 1) p.2) {}

/-- How one line is disposed of by the stream loop. -/
inductive LineOutcome where
  | blank
  | event (e : LogEvent)
  | failed (err : ParseError)
  deriving Repr, DecidableEq

/-- Classification of line `n` mirroring the branch structure of the
loop body. -/
def classifyLine (pl : ParseLineFn) (n : Nat) (line : String) : LineOutcome :=
  let stripped := pyStrip line
  if stripped = "" || stripped.startsWith "#" then .blank
  else
    match pl stripped n with
    | .ok (some e) => .event e
    | .ok none => .blank
    | .error msg => .failed { line_number := n, raw_line := stripped, error := msg }

def LineOutcome.isBlank : LineOutcome → Bool
  | .blank => true
  | _ => false

def LineOutcome.eventOf : LineOutcome → Option LogEvent
  | .event e => some e
  | _ => none

def LineOutcome.failedOf : LineOutcome → Option ParseError
  | .failed err => some err
  | _ => none

/-- The outcome of every line of the stream, in order. -/
def lineOutcomes (pl : ParseLineFn) (lines : List String) : List LineOutcome :=
  lines.enum.map (fun p => classifyLine pl (p.1 + 1) p.2)

/-- `r` is the `ParseResult` determined by the outcome sequence `os`. -/
def ResultMatches (r : ParseResult) (total : Nat) (os : List LineOutcome) :
    Prop :=
  r.total_lines = total ∧
  r.empty_lines = os.countP LineOutcome.isBlank ∧
  r.events = os.filterMap LineOutcome.eventOf ∧
  r.parsed_lines = (os.filterMap LineOutcome.eventOf).length ∧
  r.errors = (os.filterMap LineOutcome.failedOf).take 10 ∧
  r.failed_lines = (os.filterMap LineOutcome.failedOf).length

theorem take_append_one {α : Type} (l : List α) (a : α) (n : Nat) :
    (l ++ [a]).take n =
      if l.length < n then l.take n ++ [a] else l.take n := by
  rw [List.take_append_eq_append_take]
  by_cases h : l.length < n
  · have h1 : 1 ≤ n - l.length := by omega
    simp only [if_pos h]
    congr 1
    cases hk : n - l.length with
    | zero => omega
    | succ k => simp [List.take_cons]
  · have h0 : n - l.length = 0 := by omega
    simp [if_neg h, h0]

theorem add_event_spec (r : ParseResult) (e : LogEvent) :
    (r.add_event e).total_lines = r.total_lines ∧
    (r.add_event e).empty_lines = r.empty_lines ∧
    (r.add_event e).events = r.events ++ [e] ∧
    (r.add_event e).parsed_lines = r.parsed_lines + 1 ∧
    (r.add_event e).errors = r.errors ∧
    (r.add_event e).failed_lines = r.failed_lines := by
  rcases r with ⟨t, p, f, emp, ev, er, ft, lt⟩
  unfold ParseResult.add_event
  refine ⟨?_, ?_, ?_, ?_, ?_, ?_⟩ <;>
    · dsimp only
      repeat' split
      all_goals rfl

theorem add_error_spec (r : ParseResult) (err : ParseError) :
    (r.add_error err).total_lines = r.total_lines ∧
    (r.add_error err).empty_lines = r.empty_lines ∧
    (r.add_error err).events = r.events ∧
    (r.add_error err).parsed_lines = r.parsed_lines ∧
    (r.add_error err).errors =
      (if r.errors.length < 10 then r.errors ++ [err] else r.errors) ∧
    (r.add_error err).failed_lines = r.failed_lines + 1 := by
  rcases r with ⟨t, p, f, emp, ev, er, ft, lt⟩
  unfold ParseResult.add_error
  dsimp
  split_ifs <;> simp

theorem parseStreamStep_matches (pl : ParseLineFn) (r : ParseResult)
    (t n : Nat) (line : String) (os : List LineOutcome)
    (h : ResultMatches r t os) :
    ResultMatches (parseStreamStep pl r n line) (t + 1)
      (os ++ [classifyLine pl n line]) := by
  obtain ⟨ht, hemp, hev, hpar, herr, hfail⟩ := h
  unfold parseStreamStep classifyLine
  dsimp only
  by_cases hb :
      (decide (pyStrip line = "") || (pyStrip line).startsWith "#") = true
  · rw [if_pos hb, if_pos hb]
    refine ⟨by simp [ht], ?_, ?_, ?_, ?_, ?_⟩ <;>
      simp [hemp, hev, hpar, herr, hfail, List.countP_append,
        List.filterMap_append, LineOutcome.isBlank, LineOutcome.eventOf,
        LineOutcome.failedOf]
  · rw [if_neg hb, if_neg hb]
    cases hpl : pl (pyStrip line) n with
    | ok oe =>
        cases oe with
        | some e =>
            obtain ⟨h1, h2, h3, h4, h5, h6⟩ :=
              add_event_spec { r with total_lines := r.total_lines + 1 } e
            refine ⟨?_, ?_, ?_, ?_, ?_, ?_⟩
            · rw [h1]; simp [ht]
            · rw [h2]
              simp [hemp, List.countP_append, LineOutcome.isBlank]
            · rw [h3]
              simp [hev, List.filterMap_append, LineOutcome.eventOf]
            · rw [h4]
              simp [hpar, List.filterMap_append, LineOutcome.eventOf]
            · rw [h5]
              simp [herr, List.filterMap_append, LineOutcome.failedOf]
            · rw [h6]
              simp [hfail, List.filterMap_append, LineOutcome.failedOf]
        | none =>
            refine ⟨by simp [ht], ?_, ?_, ?_, ?_, ?_⟩ <;>
              simp [hemp, hev, hpar, herr, hfail, List.countP_append,
                List.filterMap_append, LineOutcome.isBlank,
                LineOutcome.eventOf, LineOutcome.failedOf]
    | error msg =>
        obtain ⟨h1, h2, h3, h4, h5, h6⟩ :=
          add_error_spec { r with total_lines := r.total_lines + 1 }
            { line_number := n, raw_line := pyStrip line, error := msg }
        have hfails :
            (os ++ [LineOutcome.failed
                { line_number := n, raw_line := pyStrip line, error := msg }]).filterMap
                LineOutcome.failedOf =
              os.filterMap LineOutcome.failedOf ++
                [{ line_number := n, raw_line := pyStrip line, error := msg }] := by
          simp [List.filterMap_append, LineOutcome.failedOf]
        refine ⟨?_, ?_, ?_, ?_, ?_, ?_⟩
        · rw [h1]; simp [ht]
        · rw [h2]; simp [hemp, List.countP_append, LineOutcome.isBlank]
        · rw [h3]; simp [hev, List.filterMap_append, LineOutcome.eventOf]
        · rw [h4]; simp [hpar, List.filterMap_append, LineOutcome.eventOf]
        · rw [h5]
          simp only [herr]
          rw [hfails, take_append_one]
          have hlen :
              (List.take 10 (os.filterMap LineOutcome.failedOf)).length < 10 ↔
                (os.filterMap LineOutcome.failedOf).length < 10 := by
            simp only [List.length_take]
            omega
          by_cases hc : (os.filterMap LineOutcome.failedOf).length < 10
          · rw [if_pos (hlen.mpr hc), if_pos hc, List.take_of_length_le (by omega)]
          · rw [if_neg (fun hx => hc (hlen.mp hx)), if_neg hc]
        · rw [h6]; simp [hfail, hfails]

theorem parseStream_matches (pl : ParseLineFn) (lines : List String) :
    ResultMatches (parseStream pl lines) lines.length
      (lineOutcomes pl lines) := by
  induction lines using List.reverseRecOn with
  | nil => exact ⟨rfl, rfl, rfl, rfl, rfl, rfl⟩
  | append_singleton l a ih =>
      have henum : (l ++ [a]).enum = l.enum ++ [(l.length, a)] := by
        rw [List.enum_append]
        simp [List.enumFrom]
      have h1 : parseStream pl (l ++ [a]) =
          parseStreamStep pl (parseStream pl l) (l.length + 1) a := by
        unfold parseStream
        rw [henum, List.foldl_append]
        rfl
      have h2 : lineOutcomes pl (l ++ [a]) =
          lineOutcomes pl l ++ [classifyLine pl (l.length + 1) a] := by
        unfold lineOutcomes
        rw [henum, List.map_append]
        rfl
      rw [h1, h2]
      have := parseStreamStep_matches pl (parseStream pl l) l.length
        (l.length + 1) a (lineOutcomes pl l) ih
      simpa using this

/-- C7: in `Parser.parse_stream`, lines that trim to empty or start with
`#` become `empty_lines` and contribute no event and no error sample;
non-empty unparseable lines are each counted in `failed_lines` with only
the first 10 kept as `(line_number, raw, error)` samples; and — provided
`parse_line` tags events with the line number it is handed, as the
concrete parsers do — every emitted event's `line_number` is its
1-indexed position in the raw stream. -/
theorem parse_stream_line_accounting (pl : ParseLineFn) (lines : List String)
    (hpl : ∀ (s : String) (n : Nat) (e : LogEvent),
      pl s n = .ok (some e) → e.line_number = n) :
    (parseStream pl lines).total_lines = lines.length ∧
    (parseStream pl lines).empty_lines =
      (lineOutcomes pl lines).countP LineOutcome.isBlank ∧
    (parseStream pl lines).events =
      (lineOutcomes pl lines).filterMap LineOutcome.eventOf ∧
    (parseStream pl lines).errors =
      ((lineOutcomes pl lines).filterMap LineOutcome.failedOf).take 10 ∧
    (parseStream pl lines).failed_lines =
      ((lineOutcomes pl lines).filterMap LineOutcome.failedOf).length ∧
    (∀ e ∈ (parseStream pl lines).events, ∃ i, ∃ hi : i < lines.length,
      e.line_number = i + 1 ∧
      isBlankLine (lines.get ⟨i, hi⟩) = false ∧
      pl (pyStrip (lines.get ⟨i, hi⟩)) (i + 1) = .ok (some e)) := by
  obtain ⟨ht, hemp, hev, hpar, herr, hfail⟩ := parseStream_matches pl lines
  refine ⟨ht, hemp, hev, herr, hfail, ?_⟩
  intro e he
  rw [hev] at he
  obtain ⟨o, ho, hoe⟩ := List.mem_filterMap.mp he
  obtain ⟨⟨i, line⟩, hmem, hclass⟩ := List.mem_map.mp ho
  obtain ⟨hi, hline⟩ := List.mem_enum hmem
  refine ⟨i, hi, ?_⟩
  have hoev : o = LineOutcome.event e := by
    cases o with
    | event e' => cases hoe; rfl
    | blank => cases hoe
    | failed err => cases hoe
  rw [hoev] at hclass
  unfold classifyLine at hclass
  by_cases hb :
      (decide (pyStrip line = "") || (pyStrip line).startsWith "#") = true
  · rw [if_pos hb] at hclass
    cases hclass
  · rw [if_neg hb] at hclass
    have hblank : isBlankLine line = false := by
      unfold isBlankLine
      simpa using hb
    cases hplv : pl (pyStrip line) (i + 1) with
    | ok oe =>
        cases oe with
        | some e' =>
            rw [hplv] at hclass
            have hee : e' = e := by cases hclass; rfl
            subst hee
            have hn := hpl _ _ _ hplv
            refine ⟨hn, ?_, ?_⟩
            · have : lines.get ⟨i, hi⟩ = line := by
                simp [hline]
              rw [this, hblank]
            · have : lines.get ⟨i, hi⟩ = line := by
                simp [hline]
              rw [this, hplv]
        | none => rw [hplv] at hclass; cases hclass
    | error msg => rw [hplv] at hclass; cases hclass

/-- Every line outcome is exactly one of blank / event / failure. -/
theorem outcome_counts (os : List LineOutcome) :
    os.countP LineOutcome.isBlank + (os.filterMap LineOutcome.eventOf).length +
      (os.filterMap LineOutcome.failedOf).length = os.length := by
  induction os with
  | nil => simp
  | cons o rest ih =>
      cases o <;>
        simp [List.countP_cons, LineOutcome.isBlank, LineOutcome.eventOf,
          LineOutcome.failedOf] <;>
        omega

/-- C10: `success_rate` is total — it returns 0 whenever `total_lines`
equals `empty_lines` (no division by zero) — and on every result of
`parse_stream` the parsed lines never exceed `total_lines - empty_lines`
so the rate lies in `[0, 1]`. -/
theorem success_rate_total_and_bounded :
    (∀ r : ParseResult, r.total_lines = r.empty_lines →
      r.success_rate = 0) ∧
    (∀ (pl : ParseLineFn) (lines : List String),
      (parseStream pl lines).parsed_lines + (parseStream pl lines).empty_lines ≤
        (parseStream pl lines).total_lines ∧
      0 ≤ (parseStream pl lines).success_rate ∧
      (parseStream pl lines).success_rate ≤ 1) := by
  constructor
  · intro r hre
    unfold ParseResult.success_rate
    rw [hre]
    simp
  · intro pl lines
    obtain ⟨ht, hemp, hev, hpar, herr, hfail⟩ := parseStream_matches pl lines
    have hcnt := outcome_counts (lineOutcomes pl lines)
    have hoslen : (lineOutcomes pl lines).length = lines.length := by
      unfold lineOutcomes
      rw [List.length_map, List.enum_length]
    have hle : (parseStream pl lines).parsed_lines +
        (parseStream pl lines).empty_lines ≤
        (parseStream pl lines).total_lines := by
      rw [ht, hpar, hemp]
      omega
    refine ⟨hle, ?_, ?_⟩ <;>
      · unfold ParseResult.success_rate
        set T := (parseStream pl lines).total_lines with hT
        set E := (parseStream pl lines).empty_lines with hE
        set P := (parseStream pl lines).parsed_lines with hP
        by_cases hz : ((T : Int) - (E : Int)) = 0
        · simp [hz]
        · rw [if_neg hz]
          have hET : E ≤ T := by omega
          have hpos : (0 : ℚ) < ((T : Int) - (E : Int) : Int) := by
            have : 0 < (T : Int) - (E : Int) := by omega
            exact_mod_cast this
          first
          | exact div_nonneg (by positivity) (le_of_lt hpos)
          | · rw [div_le_one hpos]
              have hPle : (P : Int) ≤ (T : Int) - (E : Int) := by omega
              exact_mod_cast hPle

/-- A concrete `parse_line` in the shape of the format parsers: parses
`"ok"`, treats `"skip"` as an empty/comment line, raises on the rest,
and tags events with the line number it was handed. -/
def plDemo : ParseLineFn := fun s n =>
  if s = "ok" then
    .ok (some { timestamp := 0, ip := "1.1.1.1", method := "GET", path := "/",
                status := 200, bytes_sent := 0, raw_line := s,
                line_number := n })
  else if s = "skip" then .ok none
  else .error "unparseable"

/-- Concrete raw stream: a parseable line, a blank line, a comment and a
garbage line. -/
def demoLines : List String := ["ok", "", "  # comment", "zzz"]

theorem plDemo_tags : ∀ (s : String) (n : Nat) (e : LogEvent),
    plDemo s n = .ok (some e) → e.line_number = n := by
  intro s n e h
  unfold plDemo at h
  by_cases h1 : s = "ok"
  · rw [if_pos h1] at h
    simp only [Except.ok.injEq, Option.some.injEq] at h
    rw [← h]
  · rw [if_neg h1] at h
    by_cases h2 : s = "skip"
    · rw [if_pos h2] at h
      simp at h
    · rw [if_neg h2] at h
      simp at h

/-- Witness for C7: the accounting theorem applied to the concrete
stream `demoLines` with the concrete parser `plDemo`. -/
theorem parse_stream_line_accounting_witness :
    (parseStream plDemo demoLines).total_lines = demoLines.length ∧
    (parseStream plDemo demoLines).empty_lines =
      (lineOutcomes plDemo demoLines).countP LineOutcome.isBlank ∧
    (parseStream plDemo demoLines).events =
      (lineOutcomes plDemo demoLines).filterMap LineOutcome.eventOf ∧
    (parseStream plDemo demoLines).errors =
      ((lineOutcomes plDemo demoLines).filterMap LineOutcome.failedOf).take 10 ∧
    (parseStream plDemo demoLines).failed_lines =
      ((lineOutcomes plDemo demoLines).filterMap LineOutcome.failedOf).length ∧
    (∀ e ∈ (parseStream plDemo demoLines).events, ∃ i,
      ∃ hi : i < demoLines.length,
      e.line_number = i + 1 ∧
      isBlankLine (demoLines.get ⟨i, hi⟩) = false ∧
      plDemo (pyStrip (demoLines.get ⟨i, hi⟩)) (i + 1) = .ok (some e)) :=
  parse_stream_line_accounting plDemo demoLines plDemo_tags

/-- Witness for C10: a result with `total_lines = empty_lines` divides to
0, and the bounds hold on the concrete parsed stream. -/
theorem success_rate_witness :
    ({ total_lines := 2, empty_lines := 2 } : ParseResult).success_rate = 0 ∧
    (0 ≤ (parseStream plDemo demoLines).success_rate ∧
      (parseStream plDemo demoLines).success_rate ≤ 1) :=
  ⟨success_rate_total_and_bounded.1 _ rfl,
   (success_rate_total_and_bounded.2 plDemo demoLines).2⟩

/-! ## Connection-config redaction (`apps/api/routers/log_sources.py`) -/

/-- `redacted[k] = v` on a Python dict: replace the value stored under
`k`, keeping insertion order (callers guard with `if k in redacted`). -/
def dictSet (d : List (String × String)) (k v : String) :
    List (String × String) :=
  d.map (fun p => if p.1 = k then (k, v) else p)

/-- `redact_sensitive_fields(config, source_type)`: branch on the source
type and overwrite the present sensitive fields with the literal
`***REDACTED***`. -/
def redactSensitiveFields (config : List (String × String))
    (source_type : String) : List (String × String) :=
  let redacted := config
  if source_type = "ssh" ∨ source_type = "sftp" then
    let redacted :=
      if redacted.any (fun p => p.1 = "password") then
        dictSet redacted "password" "***REDACTED***"
      else redacted
    if redacted.any (fun p => p.1 = "private_key") then
      dictSet redacted "private_key" "***REDACTED***"
    else redacted
  else if source_type = "s3" ∨ source_type = "gcs" then
    let redacted :=
      if redacted.any (fun p => p.1 = "access_key_id") then
        dictSet redacted "access_key_id" "***REDACTED***"
      else redacted
    if redacted.any (fun p => p.1 = "secret_access_key") then
      dictSet redacted "secret_access_key" "***REDACTED***"
    else redacted
  else redacted

/-- The fields the router actually redacts for a given source type. -/
def sensitiveFieldsFor (source_type : String) : List String :=
  if source_type = "ssh" ∨ source_type = "sftp" then
    ["password", "private_key"]
  else if source_type = "s3" ∨ source_type = "gcs" then
    ["access_key_id", "secret_access_key"]
  else []

theorem dictSet_guarded (d : List (String × String)) (k v : String) :
    (if d.any (fun p => p.1 = k) then dictSet d k v else d) = dictSet d k v := by
  split_ifs with h
  · rfl
  · unfold dictSet
    conv_lhs => rw [← List.map_id d]
    apply List.map_congr_left
    intro p hp
    have hk : ¬ p.1 = k := by
      intro hc
      exact h (List.any_eq_true.mpr ⟨p, hp, by simp [hc]⟩)
    simp [hk]

/-- C9 counterexample: with `source_type = "s3"` a `password` entry is
not redacted, so the sensitive value survives on egress verbatim. -/
theorem redact_sensitive_fields_counterexample :
    redactSensitiveFields [("password", "hunter2")] "s3" =
        [("password", "hunter2")] ∧
    ("hunter2" : String) ≠ "***REDACTED***" := by
  constructor
  · rfl
  · decide

/-- C9 (amended): redaction is per source type — `ssh`/`sftp` configs get
`password` and `private_key` replaced by `***REDACTED***`, `s3`/`gcs`
configs get `access_key_id` and `secret_access_key` replaced, every
other entry (and every entry of a config for any other source type) is
unchanged. -/
theorem redact_sensitive_fields_by_type (config : List (String × String))
    (source_type : String) :
    redactSensitiveFields config source_type =
      config.map (fun p =>
        if p.1 ∈ sensitiveFieldsFor source_type then
          (p.1, "***REDACTED***")
        else p) := by
  unfold redactSensitiveFields sensitiveFieldsFor
  split_ifs with h1 h2
  · rw [dictSet_guarded, dictSet_guarded]
    unfold dictSet
    rw [List.map_map]
    apply List.map_congr_left
    intro p _
    by_cases hp1 : p.1 = "password"
    · simp [hp1, Function.comp]
    · by_cases hp2 : p.1 = "private_key"
      · simp [hp1, hp2, Function.comp]
      · simp [hp1, hp2, Function.comp]
  · rw [dictSet_guarded, dictSet_guarded]
    unfold dictSet
    rw [List.map_map]
    apply List.map_congr_left
    intro p _
    by_cases hp1 : p.1 = "access_key_id"
    · simp [hp1, Function.comp]
    · by_cases hp2 : p.1 = "secret_access_key"
      · simp [hp1, hp2, Function.comp]
      · simp [hp1, hp2, Function.comp]
  · conv_lhs => rw [← List.map_id config]
    apply List.map_congr_left
    intro p _
    simp

/-! ## Scheduler due-time evaluation (`apps/worker/tasks/scheduler.py`) -/

/-- The fields of a `LogSource` row read by `_is_fetch_due`.
`last_fetch_at` is seconds since the UTC epoch (the code normalises the
stored datetime to aware-UTC before subtracting, which the integer model
already is); `interval_minutes` is `schedule_config.get("interval_minutes")`
with `none` when the key is missing. -/
structure LogSourceSchedule where
  last_fetch_at : Option Int
  schedule_type : String
  interval_minutes : Option Int
  deriving Repr, DecidableEq

/-- `_is_fetch_due`: never-fetched sources are due; interval schedules
are due when the elapsed minutes reach `interval_minutes` (default 60);
the cron branch is a placeholder that is due after one hour; any other
schedule type is never due. -/
def isFetchDue (src : LogSourceSchedule) (now : Int) : Bool :=
  match src.last_fetch_at with
  | none => true
  | some last =>
      if src.schedule_type = "interval" then
        let interval_minutes := src.interval_minutes.getD 60
        let minutes_since_last : ℚ := ((now - last : Int) : ℚ) / 60
        decide ((interval_minutes : ℚ) ≤ minutes_since_last)
      else if src.schedule_type = "cron" then
        decide (3600 ≤ now - last)
      else false

/-- `IntervalSchedule` from `apps/api/schemas/log_source.py` declares
`interval_minutes: int = Field(ge=5, le=10080)` — minimum 5 minutes,
maximum 7·24·60 minutes. -/
def IntervalScheduleValid (m : Int) : Prop := 5 ≤ m ∧ m ≤ 10080

/-- C8: a source with `last_fetch_at = None` is due under any schedule;
an interval-schedule source whose `interval_minutes` lies in the
schema-declared bounds (5 to 10080) is due iff the minutes elapsed since
`last_fetch_at` are at least `interval_minutes`; a cron-schedule source
is due iff at least one hour elapsed. -/
theorem is_fetch_due_spec (now : Int) :
    (∀ (st : String) (im : Option Int),
      isFetchDue ⟨none, st, im⟩ now = true) ∧
    (∀ (last m : Int), IntervalScheduleValid m →
      (isFetchDue ⟨some last, "interval", some m⟩ now = true ↔
        (m : ℚ) ≤ ((now - last : Int) : ℚ) / 60)) ∧
    (∀ (last : Int) (im : Option Int),
      isFetchDue ⟨some last, "cron", im⟩ now = true ↔ 3600 ≤ now - last) := by
  refine ⟨?_, ?_, ?_⟩
  · intro st im
    rfl
  · intro last m _
    simp [isFetchDue]
  · intro last im
    simp [isFetchDue]

/-- Witness for C8 (spec scenario S6): with a 60-minute interval a source
last fetched 61 minutes ago is due. -/
theorem is_fetch_due_spec_witness :
    isFetchDue ⟨some (356400 - 3660), "interval", some 60⟩ 356400 = true ↔
      ((60 : Int) : ℚ) ≤ (((356400 - (356400 - 3660) : Int)) : ℚ) / 60 :=
  (is_fetch_due_spec 356400).2.1 (356400 - 3660) 60 (by constructor <;> decide)

/-! ## Anomaly detection (`apps/worker/utils/anomaly.py`) -/

/-- `AggregateSnapshot` dataclass.  A `top_paths` entry is a JSON dict
read with `item.get("path")` / `item.get("count", 0)`, modelled as an
optional path string (missing key → `none`) paired with the count. -/
structure AggregateSnapshot where
  hour_bucket : Nat
  requests_count : Int
  status_5xx : Int
  unique_ips : Int
  top_paths : Option (List (Option String × Int))
  deriving Repr, DecidableEq

/-- `_safe_error_rate`. -/
def safeErrorRate (status_5xx requests : Int) : ℚ :=
  if requests ≤ 0 then 0 else (status_5xx : ℚ) / (requests : ℚ)

/-- `statistics.mean`. -/
def listMean (l : List ℚ) : ℚ := l.sum / (l.length : ℚ)

/-- The population variance, i.e. `statistics.pstdev(l) ** 2`. -/
def listPVariance (l : List ℚ) : ℚ :=
  ((l.map (fun x => (x - listMean l) ^ 2)).sum) / (l.length : ℚ)

/-- `_zscore` returns a number (rather than `None`) iff the baseline has
at least two values and its standard deviation — equivalently its
variance — is non-zero. -/
def zscoreDefined (l : List ℚ) : Prop := 2 ≤ l.length ∧ listPVariance l ≠ 0

instance (l : List ℚ) : Decidable (zscoreDefined l) := by
  unfold zscoreDefined
  infer_instance

/-- `(value - mean) / pstdev ≥ τ`, stated without the irrational square
root: for `σ = √var > 0`, `(value-mean)/σ ≥ τ` iff (for `τ ≥ 0`)
`value-mean ≥ 0` and `(value-mean)² ≥ τ²·var`, and (for `τ < 0`)
`value-mean ≥ 0` or `(value-mean)² ≤ τ²·var`. -/
def zAtLeast (value : ℚ) (l : List ℚ) (τ : ℚ) : Prop :=
  if 0 ≤ τ then
    0 ≤ value - listMean l ∧
      τ ^ 2 * listPVariance l ≤ (value - listMean l) ^ 2
  else
    0 ≤ value - listMean l ∨ (value - listMean l) ^ 2 ≤ τ ^ 2 * listPVariance l

instance (value : ℚ) (l : List ℚ) (τ : ℚ) : Decidable (zAtLeast value l τ) := by
  unfold zAtLeast
  infer_instance

/-- The findings `detect_anomalies` can emit, carrying the metadata
fields that are exactly representable (the float `z_score` metadata
entry, an irrational number, is not carried; emission itself is modelled
exactly through `zAtLeast`). -/
inductive AnomalyFinding where
  | trafficSpike (hour_bucket : Nat) (requests_count : Int) (unique_ips : Int)
  | errorSpike (hour_bucket : Nat) (error_rate : ℚ) (status_5xx : Int)
  | newEndpointBurst (hour_bucket : Nat) (path : String) (count : Int)
  deriving Repr, DecidableEq

/-- The `hour_bucket` recorded in a finding's metadata. -/
def AnomalyFinding.hour : AnomalyFinding → Nat
  | .trafficSpike h _ _ => h
  | .errorSpike h _ _ => h
  | .newEndpointBurst h _ _ => h

/-- The baseline set for a target hour: site aggregates with
`current.hour_bucket - baseline_days ≤ hour_bucket < current.hour_bucket`. -/
def baselineFor (site_aggregates : List AggregateSnapshot)
    (current_hour : Nat) (baseline_days : Nat) : List AggregateSnapshot :=
  site_aggregates.filter (fun agg =>
    decide ((current_hour : Int) - (baseline_days : Int) * 86400 ≤
        (agg.hour_bucket : Int)) &&
      decide (agg.hour_bucket < current_hour))

/-- The union of truthy `top_paths[*]["path"]` over the baseline. -/
def baselinePaths (baseline : List AggregateSnapshot) : List String :=
  baseline.foldl
    (fun s agg =>
      match agg.top_paths with
      | some items =>
          items.foldl
            (fun s it =>
              match it.1 with
              | some p => if p ≠ "" then addToSet s p else s
              | none => s) s
      | none => s) []

/-- `detect_anomalies`. -/
def detectAnomalies (site_aggregates target_aggregates : List AggregateSnapshot)
    (baseline_days : Nat := 7) (min_baseline_hours : Nat := 24)
    (z_threshold : ℚ := 3) (new_path_min_count : Int := 20) :
    List AnomalyFinding :=
  target_aggregates.flatMap (fun current =>
    let baseline := baselineFor site_aggregates current.hour_bucket baseline_days
    if baseline.length < min_baseline_hours then []
    else
      let baseline_requests := baseline.map (fun a => (a.requests_count : ℚ))
      let baseline_error_rates :=
        baseline.map (fun a => safeErrorRate a.status_5xx a.requests_count)
      let current_error_rate :=
        safeErrorRate current.status_5xx current.requests_count
      let t1 : List AnomalyFinding :=
        if zscoreDefined baseline_requests ∧
            zAtLeast (current.requests_count : ℚ) baseline_requests z_threshold
        then
          [.trafficSpike current.hour_bucket current.requests_count
            current.unique_ips]
        else []
      let t2 : List AnomalyFinding :=
        if zscoreDefined baseline_error_rates ∧
            zAtLeast current_error_rate baseline_error_rates z_threshold
        then
          [.errorSpike current.hour_bucket current_error_rate current.status_5xx]
        else []
      let t3 : List AnomalyFinding :=
        match current.top_paths with
        | some items =>
            items.filterMap (fun it =>
              match it.1 with
              | some p =>
                  if p ≠ "" ∧ p ∉ baselinePaths baseline ∧
                      new_path_min_count ≤ it.2 then
                    some (.newEndpointBurst current.hour_bucket p it.2)
                  else none
              | none => none)
        | none => []
      t1 ++ t2 ++ t3)

/-- C4: a finding is only emitted for a target hour whose baseline set
has at least `min_baseline_hours` members, and the two z-score findings
additionally require a defined z-score: at least two baseline values and
a non-zero standard deviation (variance) of the corresponding series. -/
theorem detect_anomalies_preconditions
    (site targets : List AggregateSnapshot) (bd mbh : Nat) (zt : ℚ)
    (npmc : Int) (f : AnomalyFinding)
    (hf : f ∈ detectAnomalies site targets bd mbh zt npmc) :
    mbh ≤ (baselineFor site f.hour bd).length ∧
    (∀ h r u, f = .trafficSpike h r u →
      2 ≤ (baselineFor site h bd).length ∧
      listPVariance
        ((baselineFor site h bd).map (fun a => (a.requests_count : ℚ))) ≠ 0) ∧
    (∀ h er s, f = .errorSpike h er s →
      2 ≤ (baselineFor site h bd).length ∧
      listPVariance
        ((baselineFor site h bd).map
          (fun a => safeErrorRate a.status_5xx a.requests_count)) ≠ 0) := by
  obtain ⟨current, hcur, hin⟩ := List.mem_flatMap.mp hf
  dsimp only at hin
  by_cases hlen :
      (baselineFor site current.hour_bucket bd).length < mbh
  · rw [if_pos hlen] at hin
    cases hin
  · rw [if_neg hlen] at hin
    have hmbh : mbh ≤ (baselineFor site current.hour_bucket bd).length := by
      omega
    have hhour : f.hour = current.hour_bucket ∧
        (∀ h r u, f = .trafficSpike h r u →
          zscoreDefined ((baselineFor site current.hour_bucket bd).map
            (fun a => (a.requests_count : ℚ)))) ∧
        (∀ h er s, f = .errorSpike h er s →
          zscoreDefined ((baselineFor site current.hour_bucket bd).map
            (fun a => safeErrorRate a.status_5xx a.requests_count))) := by
      rcases List.mem_append.mp hin with hin12 | hin3
      · rcases List.mem_append.mp hin12 with hin1 | hin2
        · by_cases hc1 : zscoreDefined
              ((baselineFor site current.hour_bucket bd).map
                (fun a => (a.requests_count : ℚ))) ∧
              zAtLeast (current.requests_count : ℚ)
                ((baselineFor site current.hour_bucket bd).map
                  (fun a => (a.requests_count : ℚ))) zt
          · rw [if_pos hc1] at hin1
            rcases List.mem_singleton.mp hin1 with rfl
            refine ⟨rfl, ?_, ?_⟩
            · intro h r u heq
              cases heq
              exact hc1.1
            · intro h er s heq
              cases heq
          · rw [if_neg hc1] at hin1
            cases hin1
        · by_cases hc2 : zscoreDefined
              ((baselineFor site current.hour_bucket bd).map
                (fun a => safeErrorRate a.status_5xx a.requests_count)) ∧
              zAtLeast (safeErrorRate current.status_5xx current.requests_count)
                ((baselineFor site current.hour_bucket bd).map
                  (fun a => safeErrorRate a.status_5xx a.requests_count)) zt
          · rw [if_pos hc2] at hin2
            rcases List.mem_singleton.mp hin2 with rfl
            refine ⟨rfl, ?_, ?_⟩
            · intro h r u heq
              cases heq
            · intro h er s heq
              cases heq
              exact hc2.1
          · rw [if_neg hc2] at hin2
            cases hin2
      · cases htp : current.top_paths with
          | none =>
              rw [htp] at hin3
              cases hin3
          | some items =>
              rw [htp] at hin3
              obtain ⟨it, _hit, hsome⟩ := List.mem_filterMap.mp hin3
              cases hit1 : it.1 with
              | none => rw [hit1] at hsome; cases hsome
              | some p =>
                  rw [hit1] at hsome
                  have hsome' :
                      (if p ≠ "" ∧
                          p ∉ baselinePaths
                            (baselineFor site current.hour_bucket bd) ∧
                          npmc ≤ it.2 then
                        some (AnomalyFinding.newEndpointBurst
                          current.hour_bucket p it.2)
                      else none) = some f := hsome
                  by_cases hcond : p ≠ "" ∧
                      p ∉ baselinePaths
                        (baselineFor site current.hour_bucket bd) ∧
                      npmc ≤ it.2
                  · rw [if_pos hcond] at hsome'
                    rcases Option.some.inj hsome' with rfl
                    refine ⟨rfl, ?_, ?_⟩
                    · intro h r u heq
                      cases heq
                    · intro h er s heq
                      cases heq
                  · rw [if_neg hcond] at hsome'
                    cases hsome'
    obtain ⟨hh, htr, her⟩ := hhour
    rw [hh]
    refine ⟨hmbh, ?_, ?_⟩
    · intro h r u heq
      have hz := htr h r u heq
      have : h = current.hour_bucket := by
        rw [heq] at hh
        exact hh
      rw [this]
      exact ⟨by simpa using hz.1, hz.2⟩
    · intro h er s heq
      have hz := her h er s heq
      have : h = current.hour_bucket := by
        rw [heq] at hh
        exact hh
      rw [this]
      exact ⟨by simpa using hz.1, hz.2⟩

/-- A two-hour baseline with requests 0 and 2 (variance 1). -/
def anomalySite : List AggregateSnapshot :=
  [ { hour_bucket := 0, requests_count := 0, status_5xx := 0, unique_ips := 1,
      top_paths := none },
    { hour_bucket := 3600, requests_count := 2, status_5xx := 0,
      unique_ips := 1, top_paths := none } ]

/-- A target hour carrying a previously-unseen path with count 25. -/
def anomalyTarget0 : AggregateSnapshot :=
  { hour_bucket := 7200, requests_count := 100, status_5xx := 0,
    unique_ips := 5, top_paths := some [(some "/new", 25)] }

def anomalyTargets : List AggregateSnapshot := [anomalyTarget0]

/-- Witness for C4: the precondition theorem applied to a concrete
emitted `new_endpoint_burst` finding. -/
theorem detect_anomalies_preconditions_witness :
    2 ≤ (baselineFor anomalySite
        (AnomalyFinding.newEndpointBurst 7200 "/new" 25).hour 7).length ∧
    (∀ h r u, AnomalyFinding.newEndpointBurst 7200 "/new" 25 =
        AnomalyFinding.trafficSpike h r u →
      2 ≤ (baselineFor anomalySite h 7).length ∧
      listPVariance
        ((baselineFor anomalySite h 7).map
          (fun a => (a.requests_count : ℚ))) ≠ 0) ∧
    (∀ h er s, AnomalyFinding.newEndpointBurst 7200 "/new" 25 =
        AnomalyFinding.errorSpike h er s →
      2 ≤ (baselineFor anomalySite h 7).length ∧
      listPVariance
        ((baselineFor anomalySite h 7).map
          (fun a => safeErrorRate a.status_5xx a.requests_count)) ≠ 0) :=
  detect_anomalies_preconditions anomalySite anomalyTargets 7 2 3 20
    (AnomalyFinding.newEndpointBurst 7200 "/new" 25) (by
      apply List.mem_flatMap.mpr
      refine ⟨anomalyTarget0, by decide, ?_⟩
      simp only [anomalyTarget0]
      rw [if_neg (by decide :
        ¬ (baselineFor anomalySite 7200 7).length < 2)]
      apply List.mem_append.mpr
      right
      decide)

/-! ## Security detection (`apps/worker/utils/security.py`) -/

/-- `event.ip or "unknown"`. -/
def ipKey (e : LogEvent) : String := if e.ip = "" then "unknown" else e.ip

/-- `dict.setdefault(key, []).append(event)` (also the explicit
`if key not in matches: matches[key] = []` / `append` form), on a dict
modelled as an insertion-ordered association list. -/
def addMatch {κ : Type} [DecidableEq κ] (acc : List (κ × List LogEvent))
    (key : κ) (e : LogEvent) : List (κ × List LogEvent) :=
  if acc.any (fun p => p.1 = key) then
    acc.map (fun p => if p.1 = key then (p.1, p.2 ++ [e]) else p)
  else acc ++ [(key, [e])]

/-- Value stored under `k` in a grouping dict. -/
def lookupGroup {κ : Type} [DecidableEq κ] (acc : List (κ × List LogEvent))
    (k : κ) : Option (List LogEvent) :=
  (acc.find? (fun p => p.1 = k)).map (fun p => p.2)

theorem addMatch_cons_of_ne {κ : Type} [DecidableEq κ]
    (p : κ × List LogEvent) (rest : List (κ × List LogEvent)) (key : κ)
    (e : LogEvent) (hne : ¬ p.1 = key) :
    addMatch (p :: rest) key e = p :: addMatch rest key e := by
  by_cases hany : rest.any (fun q => q.1 = key)
  · simp [addMatch, hany, hne]
  · simp [addMatch, hany, hne]

theorem lookupGroup_addMatch_self {κ : Type} [DecidableEq κ]
    (acc : List (κ × List LogEvent)) (key : κ) (e : LogEvent) :
    lookupGroup (addMatch acc key e) key =
      some ((lookupGroup acc key).getD [] ++ [e]) := by
  induction acc with
  | nil =>
      simp [addMatch, lookupGroup]
  | cons p rest ih =>
      by_cases hp : p.1 = key
      · have hany : (p :: rest).any (fun q => q.1 = key) = true := by
          simp [List.any_cons, hp]
        simp only [addMatch, hany, if_true, List.map_cons, if_pos hp]
        simp [lookupGroup, List.find?_cons, hp]
      · rw [addMatch_cons_of_ne p rest key e hp]
        have hd : (decide (p.1 = key)) = false := by simp [hp]
        simp only [lookupGroup, List.find?_cons, hd] at *
        exact ih

theorem find?_snd_map_bump {κ : Type} [DecidableEq κ]
    (rest : List (κ × List LogEvent)) (key k : κ) (e : LogEvent)
    (hne : k ≠ key) :
    ((rest.map (fun p => if p.1 = key then (p.1, p.2 ++ [e]) else p)).find?
        (fun p => p.1 = k)).map (fun p => p.2) =
      (rest.find? (fun p => p.1 = k)).map (fun p => p.2) := by
  induction rest with
  | nil => rfl
  | cons q qrest ih =>
      by_cases hq : q.1 = key
      · have hqd : (decide (q.1 = k)) = false := by
          simp [hq]
          exact fun hc => (hne hc.symm).elim
        simp only [List.map_cons, if_pos hq, List.find?_cons]
        dsimp only
        rw [hqd]
        exact ih
      · by_cases hqk : q.1 = k
        · have hd : (decide (q.1 = k)) = true := by simp [hqk]
          simp only [List.map_cons, if_neg hq, List.find?_cons, hd]
        · have hqd : (decide (q.1 = k)) = false := by simp [hqk]
          simp only [List.map_cons, if_neg hq, List.find?_cons]
          rw [hqd]
          exact ih

theorem lookupGroup_addMatch_of_ne {κ : Type} [DecidableEq κ]
    (acc : List (κ × List LogEvent)) (key k : κ) (e : LogEvent)
    (hne : k ≠ key) :
    lookupGroup (addMatch acc key e) k = lookupGroup acc k := by
  by_cases hany : acc.any (fun p => p.1 = key)
  · unfold addMatch
    rw [if_pos hany]
    exact find?_snd_map_bump acc key k e hne
  · unfold addMatch
    rw [if_neg hany]
    unfold lookupGroup
    rw [List.find?_append]
    have : ([(key, [e])].find? (fun p => p.1 = k)) = none := by
      have : (decide (key = k)) = false := by simp [Ne.symm hne]
      simp [List.find?_cons, this]
    rw [this]
    cases acc.find? (fun p => p.1 = k) <;> rfl

theorem addMatch_map_fst {κ : Type} [DecidableEq κ]
    (acc : List (κ × List LogEvent)) (key : κ) (e : LogEvent) :
    (addMatch acc key e).map Prod.fst =
      if acc.any (fun q => q.1 = key) then acc.map Prod.fst
      else acc.map Prod.fst ++ [key] := by
  by_cases hany : acc.any (fun q => q.1 = key)
  · simp only [addMatch, hany, if_true, List.map_map]
    congr 1
    funext p
    by_cases hp : p.1 = key <;> simp [hp]
  · simp [addMatch, hany]

theorem addMatch_keys_nodup {κ : Type} [DecidableEq κ]
    (acc : List (κ × List LogEvent)) (key : κ) (e : LogEvent)
    (hnd : (acc.map Prod.fst).Nodup) :
    ((addMatch acc key e).map Prod.fst).Nodup := by
  rw [addMatch_map_fst]
  split_ifs with hany
  · exact hnd
  · rw [List.nodup_append]
    refine ⟨hnd, List.nodup_singleton _, ?_⟩
    intro a ha hb
    rw [List.mem_singleton] at hb
    subst hb
    rcases List.mem_map.mp ha with ⟨p, hp, hp1⟩
    exact hany (List.any_eq_true.mpr ⟨p, hp, by simp [hp1]⟩)

/-! ### A stable sort by timestamp (Python `sorted(key=timestamp)`) -/

/-- Insert an event after every already-placed event with an earlier or
equal timestamp (the insertion step of a stable sort). -/
def insertByTs (e : LogEvent) : List LogEvent → List LogEvent
  | [] => [e]
  | f :: rest =>
      if f.timestamp ≤ e.timestamp then f :: insertByTs e rest
      else e :: f :: rest

/-- `sorted(events, key=lambda e: e.timestamp)`: a stable sort computes
this list. -/
def sortByTs (l : List LogEvent) : List LogEvent :=
  l.foldl (fun acc e => insertByTs e acc) []

/-- Sortedness by timestamp. -/
def TsSorted (l : List LogEvent) : Prop :=
  l.Pairwise (fun a b => a.timestamp ≤ b.timestamp)

theorem insertByTs_perm (e : LogEvent) (l : List LogEvent) :
    (insertByTs e l).Perm (e :: l) := by
  induction l with
  | nil => exact List.Perm.refl _
  | cons f rest ih =>
      unfold insertByTs
      split_ifs with hf
      · exact ((ih.cons f).trans (List.Perm.swap e f rest)).symm.symm
      · exact List.Perm.refl _

theorem insertByTs_sorted (e : LogEvent) (l : List LogEvent)
    (hl : TsSorted l) : TsSorted (insertByTs e l) := by
  unfold TsSorted at *
  induction l with
  | nil => exact List.pairwise_singleton _ _
  | cons f rest ih =>
      rw [List.pairwise_cons] at hl
      unfold insertByTs
      split_ifs with hf
      · rw [List.pairwise_cons]
        refine ⟨?_, ih hl.2⟩
        intro b hb
        rcases List.mem_cons.mp ((insertByTs_perm e rest).mem_iff.mp hb) with
          hb | hb
        · subst hb
          exact hf
        · exact hl.1 b hb
      · rw [List.pairwise_cons]
        refine ⟨?_, List.pairwise_cons.mpr hl⟩
        intro b hb
        rcases List.mem_cons.mp hb with hb | hb
        · subst hb
          omega
        · exact le_trans (by omega) (hl.1 b hb)

theorem sortByTs_go (l : List LogEvent) :
    ∀ acc : List LogEvent, TsSorted acc →
      (l.foldl (fun acc e => insertByTs e acc) acc).Perm (acc ++ l) ∧
      TsSorted (l.foldl (fun acc e => insertByTs e acc) acc) := by
  induction l with
  | nil =>
      intro acc h
      exact ⟨by simp, h⟩
  | cons e rest ih =>
      intro acc h
      have hs := insertByTs_sorted e acc h
      obtain ⟨hperm, hsorted⟩ := ih (insertByTs e acc) hs
      refine ⟨hperm.trans ?_, hsorted⟩
      have h1 : (insertByTs e acc ++ rest).Perm ((e :: acc) ++ rest) :=
        (insertByTs_perm e acc).append_right rest
      exact h1.trans List.perm_middle.symm

theorem sortByTs_perm (l : List LogEvent) : (sortByTs l).Perm l := by
  have := (sortByTs_go l [] (by exact List.Pairwise.nil)).1
  simpa [sortByTs] using this

theorem sortByTs_sorted (l : List LogEvent) : TsSorted (sortByTs l) :=
  (sortByTs_go l [] (by exact List.Pairwise.nil)).2

theorem tsSorted_head_le (x : LogEvent) (xs : List LogEvent)
    (h : TsSorted (x :: xs)) :
    ∀ y ∈ x :: xs, x.timestamp ≤ y.timestamp := by
  unfold TsSorted at h
  rw [List.pairwise_cons] at h
  intro y hy
  rcases List.mem_cons.mp hy with hy | hy
  · subst hy; exact le_refl _
  · exact h.1 y hy

theorem getLast?_mem {α : Type} (l : List α) (z : α)
    (h : l.getLast? = some z) : z ∈ l := by
  induction l with
  | nil => cases h
  | cons x xs ih =>
      cases xs with
      | nil =>
          rw [List.getLast?_singleton] at h
          rcases Option.some.inj h with rfl
          exact List.mem_singleton.mpr rfl
      | cons w ws =>
          rw [List.getLast?_cons_cons] at h
          exact List.mem_cons.mpr (Or.inr (ih h))

theorem tsSorted_le_getLast? (l : List LogEvent) (h : TsSorted l) :
    ∀ y ∈ l, ∀ z, l.getLast? = some z → y.timestamp ≤ z.timestamp := by
  unfold TsSorted at h
  induction l with
  | nil => intro y hy; cases hy
  | cons x xs ih =>
      rw [List.pairwise_cons] at h
      intro y hy z hz
      cases xs with
      | nil =>
          rw [List.getLast?_singleton] at hz
          rcases Option.some.inj hz with rfl
          rcases List.mem_singleton.mp hy with rfl
          exact le_refl _
      | cons w ws =>
          rw [List.getLast?_cons_cons] at hz
          rcases List.mem_cons.mp hy with hy | hy
          · subst hy
            exact h.1 z (getLast?_mem _ _ hz)
          · exact ih h.2 y hy z hz

/-! ### Per-event rules (`Rule`, `_detect_event_rules`) -/

/-- `Rule` dataclass.  `is_match` stands for the pattern/predicate test:
a case-insensitive regex search on `event.path` when `pattern` is set,
else the predicate, else `False`. -/
structure Rule where
  name : String
  is_match : LogEvent → Bool
  severity : String := "low"
  title : String := ""
  description_template : String := ""
  suggested_action : Option String := none

/-- The metadata dict built by `_build_metadata`: exactly the keys
`source_ip`, `count`, `first_seen`, `last_seen`. -/
structure EventRuleMetadata where
  source_ip : String
  count : Nat
  first_seen : Nat
  last_seen : Nat
  deriving Repr, DecidableEq

/-- `FindingCandidate` for the event/burst detectors (evidence entries
are the `{"line": …, "raw": …}` pairs). -/
structure FindingCandidate where
  finding_type : String
  severity : String
  title : String
  description : String
  evidence : List (Nat × String)
  suggested_action : Option String
  metadata : EventRuleMetadata
  deriving Repr, DecidableEq

/-- `_build_evidence`: the 5 earliest events, as `(line, raw)` pairs. -/
def buildEvidence (events : List LogEvent) : List (Nat × String) :=
  ((sortByTs events).take 5).map (fun e => (e.line_number, e.raw_line))

/-- `_build_metadata`.  On the (never-reached) empty list the Python
would raise `IndexError`; the model defaults to 0. -/
def buildMetadata (events : List LogEvent) (ip : String) : EventRuleMetadata :=
  let ordered := sortByTs events
  { source_ip := ip
    count := events.length
    first_seen := ((ordered.head?).map (fun e => e.timestamp)).getD 0
    last_seen := ((ordered.getLast?).map (fun e => e.timestamp)).getD 0 }

/-- `_format_description` / the `suggested_action.format(ip=ip)` calls:
`str.format` with the single placeholder `{ip}` used by the built-in
templates. -/
def formatIp (template ip : String) : String :=
  template.replace "{ip}" ip

/-- The `matches` dict built by the first loop of `_detect_event_rules`:
for each event, each matching rule files the event under
`(rule.name, ip or "unknown")`. -/
def collectMatches (events : List LogEvent) (rules : List Rule) :
    List ((String × String) × List LogEvent) :=
  events.foldl
    (fun acc e =>
      rules.foldl
        (fun acc rule =>
          if rule.is_match e then addMatch acc (rule.name, ipKey e) e
          else acc)
        acc)
    []

/-- The finding built for one `(rule_name, ip)` group. -/
def mkEventFinding (rule : Rule) (ip : String) (matched : List LogEvent) :
    FindingCandidate :=
  { finding_type := rule.name
    severity := rule.severity
    title := rule.title
    description := formatIp rule.description_template ip
    evidence := buildEvidence matched
    suggested_action := rule.suggested_action.map (fun s => formatIp s ip)
    metadata := buildMetadata matched ip }

/-- `_detect_event_rules`: one finding per group, looking the rule back
up by name (`next(r for r in rules if r.name == rule_name)`; the keys
come from `rules`, so the generator never raises — modelled with
`find?`). -/
def detectEventRules (events : List LogEvent) (rules : List Rule) :
    List FindingCandidate :=
  (collectMatches events rules).filterMap
    (fun p =>
      ((rules.find? (fun r => r.name = p.1.1)).map
        (fun rule => mkEventFinding rule p.1.2 p.2)))

/-- Whether an event is filed under group `(nm, ip)`: the (unique, by
name) rule called `nm` matches it and its IP keys to `ip`. -/
def groupPred (rules : List Rule) (nm ip : String) (e : LogEvent) : Bool :=
  match rules.find? (fun r => r.name = nm) with
  | some r => r.is_match e && decide (ipKey e = ip)
  | none => false

/-- Generic lookup-of-member for grouping dicts with distinct keys. -/
theorem lookupGroup_of_mem {κ : Type} [DecidableEq κ]
    (acc : List (κ × List LogEvent)) (hnd : (acc.map Prod.fst).Nodup)
    (p : κ × List LogEvent) (hp : p ∈ acc) :
    lookupGroup acc p.1 = some p.2 := by
  induction acc with
  | nil => cases hp
  | cons q rest ih =>
      simp only [List.map_cons, List.nodup_cons] at hnd
      by_cases hq1 : q.1 = p.1
      · have hqp : q = p := by
          rcases List.mem_cons.mp hp with h | h
          · exact h.symm
          · exact absurd (hq1 ▸ List.mem_map_of_mem Prod.fst h) hnd.1
        simp [lookupGroup, List.find?_cons, hq1, hqp]
      · have hd : (decide (q.1 = p.1)) = false := by simp [hq1]
        have hp' : p ∈ rest := by
          rcases List.mem_cons.mp hp with h | h
          · exact absurd (congrArg Prod.fst h.symm) hq1
          · exact h
        simpa [lookupGroup, List.find?_cons, hd] using ih hnd.2 hp'

/-- Rules whose names all differ from `nm` never touch group `(nm, ip)`. -/
theorem foldl_rules_untouched (e : LogEvent) (nm ip : String) :
    ∀ (rest : List Rule) (acc' : List ((String × String) × List LogEvent)),
      (∀ r' ∈ rest, r'.name ≠ nm) →
      lookupGroup
        (rest.foldl
          (fun acc rule =>
            if rule.is_match e then addMatch acc (rule.name, ipKey e) e
            else acc) acc')
        (nm, ip) = lookupGroup acc' (nm, ip) := by
  intro rest
  induction rest with
  | nil => intro acc' _; rfl
  | cons r' rest' ih' =>
      intro acc' hno
      simp only [List.foldl_cons]
      have h1 : lookupGroup
          (if r'.is_match e then addMatch acc' (r'.name, ipKey e) e
           else acc') (nm, ip) = lookupGroup acc' (nm, ip) := by
        split_ifs with hm
        · exact lookupGroup_addMatch_of_ne acc' (r'.name, ipKey e)
            (nm, ip) e (by
              intro hc
              exact hno r' (List.mem_cons_self r' rest')
                (congrArg Prod.fst hc.symm))
        · rfl
      rw [ih' _ (fun q hq => hno q (List.mem_cons_of_mem r' hq)), h1]

/-- The inner loop of `_detect_event_rules` (over rules), seen from a
single group key: with pairwise-distinct rule names, it appends the
event to group `(nm, ip)` exactly when `groupPred` holds. -/
theorem innerFold_lookup (e : LogEvent) (nm ip : String) :
    ∀ (rules : List Rule) (acc : List ((String × String) × List LogEvent)),
      (rules.map Rule.name).Nodup →
      lookupGroup
        (rules.foldl
          (fun acc rule =>
            if rule.is_match e then addMatch acc (rule.name, ipKey e) e
            else acc) acc)
        (nm, ip) =
      if groupPred rules nm ip e then
        some ((lookupGroup acc (nm, ip)).getD [] ++ [e])
      else lookupGroup acc (nm, ip) := by
  intro rules
  induction rules with
  | nil =>
      intro acc _
      simp [groupPred]
  | cons r rest ih =>
      intro acc hnd
      simp only [List.map_cons, List.nodup_cons] at hnd
      have hrestno : r.name = nm → ∀ r' ∈ rest, r'.name ≠ nm := by
        intro hr r' hr' hc
        apply hnd.1
        have hrr : r.name = r'.name := by rw [hr, hc]
        rw [hrr]
        exact List.mem_map_of_mem Rule.name hr'
      by_cases hr : r.name = nm
      · have hfind : (r :: rest).find? (fun r' => r'.name = nm) = some r := by
          simp [List.find?_cons, hr]
        by_cases hm : r.is_match e
        · by_cases hip : ipKey e = ip
          · have hkey : (r.name, ipKey e) = ((nm, ip) : String × String) := by
              rw [hr, hip]
            have hpred : groupPred (r :: rest) nm ip e = true := by
              simp [groupPred, hfind, hm, hip]
            rw [hpred, if_pos rfl]
            simp only [List.foldl_cons, if_pos hm, hkey]
            rw [foldl_rules_untouched e nm ip rest _ (hrestno hr)]
            exact lookupGroup_addMatch_self acc (nm, ip) e
          · have hpred : groupPred (r :: rest) nm ip e = false := by
              simp [groupPred, hfind, hip]
            rw [hpred, if_neg (by simp)]
            simp only [List.foldl_cons, if_pos hm]
            rw [foldl_rules_untouched e nm ip rest _ (hrestno hr)]
            exact lookupGroup_addMatch_of_ne acc (r.name, ipKey e) (nm, ip) e
              (by
                intro hc
                exact hip (congrArg Prod.snd hc).symm)
        · have hpred : groupPred (r :: rest) nm ip e = false := by
            simp [groupPred, hfind, hm]
          rw [hpred, if_neg (by simp)]
          simp only [List.foldl_cons, if_neg hm]
          rw [foldl_rules_untouched e nm ip rest _ (hrestno hr)]
      · have hfind : (r :: rest).find? (fun r' => r'.name = nm) =
            rest.find? (fun r' => r'.name = nm) := by
          have : (decide (r.name = nm)) = false := by simp [hr]
          simp [List.find?_cons, this]
        have hpred : groupPred (r :: rest) nm ip e =
            groupPred rest nm ip e := by
          simp [groupPred, hfind]
        simp only [List.foldl_cons]
        by_cases hm : r.is_match e
        · rw [if_pos hm]
          have hacc : lookupGroup (addMatch acc (r.name, ipKey e) e) (nm, ip) =
              lookupGroup acc (nm, ip) :=
            lookupGroup_addMatch_of_ne acc (r.name, ipKey e) (nm, ip) e
              (by
                intro hc
                exact hr (congrArg Prod.fst hc).symm)
          rw [ih _ hnd.2, hacc, hpred]
        · rw [if_neg hm, ih _ hnd.2, hpred]

/-- How a group's contents combine with the events a fold still has to
file under it. -/
def combineGroup : Option (List LogEvent) → List LogEvent →
    Option (List LogEvent)
  | some g, l => some (g ++ l)
  | none, l => if l = [] then none else some l

theorem outerFold_lookup (nm ip : String) (rules : List Rule)
    (hnd : (rules.map Rule.name).Nodup) :
    ∀ (events : List LogEvent)
      (acc : List ((String × String) × List LogEvent)),
      lookupGroup
        (events.foldl
          (fun acc e =>
            rules.foldl
              (fun acc rule =>
                if rule.is_match e then addMatch acc (rule.name, ipKey e) e
                else acc) acc) acc)
        (nm, ip) =
      combineGroup (lookupGroup acc (nm, ip))
        (events.filter (groupPred rules nm ip)) := by
  intro events
  induction events with
  | nil =>
      intro acc
      cases h : lookupGroup acc (nm, ip) <;> simp [combineGroup, h]
  | cons e rest ih =>
      intro acc
      simp only [List.foldl_cons]
      rw [ih]
      have hinner := innerFold_lookup e nm ip rules acc hnd
      by_cases hp : groupPred rules nm ip e = true
      · rw [if_pos hp] at hinner
        rw [hinner]
        have hfil : (e :: rest).filter (groupPred rules nm ip) =
            e :: rest.filter (groupPred rules nm ip) := by
          simp [List.filter_cons, hp]
        rw [hfil]
        cases h : lookupGroup acc (nm, ip) <;>
          simp [combineGroup, h]
      · rw [if_neg hp] at hinner
        rw [hinner]
        have hfalse : groupPred rules nm ip e = false := by
          cases hgp : groupPred rules nm ip e
          · rfl
          · exact absurd hgp hp
        have hfil : (e :: rest).filter (groupPred rules nm ip) =
            rest.filter (groupPred rules nm ip) := by
          simp [List.filter_cons, hfalse]
        rw [hfil]

/-- The contents of group `(nm, ip)` in the `matches` dict are exactly
the events satisfying `groupPred`, in stream order. -/
theorem collectMatches_lookup (events : List LogEvent) (rules : List Rule)
    (nm ip : String) (hnd : (rules.map Rule.name).Nodup) :
    lookupGroup (collectMatches events rules) (nm, ip) =
      if events.filter (groupPred rules nm ip) = [] then none
      else some (events.filter (groupPred rules nm ip)) := by
  have h := outerFold_lookup nm ip rules hnd events []
  unfold collectMatches
  rw [h]
  have hnone : lookupGroup ([] : List ((String × String) × List LogEvent))
      (nm, ip) = none := rfl
  rw [hnone]
  rfl

theorem collectMatches_keys_nodup (events : List LogEvent)
    (rules : List Rule) :
    ((collectMatches events rules).map Prod.fst).Nodup := by
  have hinner : ∀ (rs : List Rule) (e : LogEvent)
      (acc : List ((String × String) × List LogEvent)),
      (acc.map Prod.fst).Nodup →
      ((rs.foldl
        (fun acc rule =>
          if rule.is_match e then addMatch acc (rule.name, ipKey e) e
          else acc) acc).map Prod.fst).Nodup := by
    intro rs e
    induction rs with
    | nil => intro acc h; exact h
    | cons r rest ih =>
        intro acc h
        simp only [List.foldl_cons]
        apply ih
        split_ifs with hm
        · exact addMatch_keys_nodup acc _ e h
        · exact h
  have houter : ∀ (evs : List LogEvent)
      (acc : List ((String × String) × List LogEvent)),
      (acc.map Prod.fst).Nodup →
      ((evs.foldl
        (fun acc e =>
          rules.foldl
            (fun acc rule =>
              if rule.is_match e then addMatch acc (rule.name, ipKey e) e
              else acc) acc) acc).map Prod.fst).Nodup := by
    intro evs
    induction evs with
    | nil => intro acc h; exact h
    | cons e rest ih =>
        intro acc h
        simp only [List.foldl_cons]
        exact ih _ (hinner rules e acc h)
  exact houter events [] (by simp)

/-- A finding built from a group carries the group key as its
`finding_type` and `metadata.source_ip`. -/
theorem finding_key (rules : List Rule) (p : (String × String) × List LogEvent)
    (f : FindingCandidate)
    (hg : ((rules.find? (fun r => r.name = p.1.1)).map
      (fun rule => mkEventFinding rule p.1.2 p.2)) = some f) :
    f.finding_type = p.1.1 ∧ f.metadata.source_ip = p.1.2 := by
  obtain ⟨rule, hfind, hmk⟩ := Option.map_eq_some'.mp hg
  have hname : rule.name = p.1.1 := by
    have := List.find?_some hfind
    exact of_decide_eq_true this
  constructor
  · rw [← hmk]
    exact hname
  · rw [← hmk]
    rfl

theorem findings_of_groups_le_one (rules : List Rule) (nm ip : String) :
    ∀ (gs : List ((String × String) × List LogEvent)),
      (gs.map Prod.fst).Nodup →
      ((gs.filterMap (fun p => ((rules.find? (fun r => r.name = p.1.1)).map
          (fun rule => mkEventFinding rule p.1.2 p.2)))).filter
        (fun f => decide (f.finding_type = nm) &&
          decide (f.metadata.source_ip = ip))).length ≤ 1 := by
  intro gs
  have hnone : ∀ (gs' : List ((String × String) × List LogEvent)),
      (∀ p ∈ gs', p.1 ≠ (nm, ip)) →
      ((gs'.filterMap (fun p => ((rules.find? (fun r => r.name = p.1.1)).map
          (fun rule => mkEventFinding rule p.1.2 p.2)))).filter
        (fun f => decide (f.finding_type = nm) &&
          decide (f.metadata.source_ip = ip))) = [] := by
    intro gs'
    induction gs' with
    | nil => intro _; rfl
    | cons p rest ihr =>
        intro hno
        rw [List.filterMap_cons]
        cases hg : ((rules.find? (fun r => r.name = p.1.1)).map
            (fun rule => mkEventFinding rule p.1.2 p.2)) with
        | none => exact ihr (fun q hq => hno q (List.mem_cons_of_mem p hq))
        | some f =>
            obtain ⟨ht, hs⟩ := finding_key rules p f hg
            have hq : (decide (f.finding_type = nm) &&
                decide (f.metadata.source_ip = ip)) = false := by
              by_cases h1 : f.finding_type = nm
              · have h2 : ¬ f.metadata.source_ip = ip := by
                  intro h2
                  apply hno p (List.mem_cons_self p rest)
                  have : p.1 = (p.1.1, p.1.2) := rfl
                  rw [this, ← ht, ← hs, h1, h2]
                simp [h2]
              · simp [h1]
            rw [List.filter_cons, if_neg (by rw [hq]; simp)]
            exact ihr (fun q hq => hno q (List.mem_cons_of_mem p hq))
  induction gs with
  | nil => intro _; simp
  | cons p rest ih =>
      intro hnd
      simp only [List.map_cons, List.nodup_cons] at hnd
      rw [List.filterMap_cons]
      cases hg : ((rules.find? (fun r => r.name = p.1.1)).map
          (fun rule => mkEventFinding rule p.1.2 p.2)) with
      | none => exact ih hnd.2
      | some f =>
          rw [List.filter_cons]
          split_ifs with hq
          · obtain ⟨ht, hs⟩ := finding_key rules p f hg
            simp only [Bool.and_eq_true, decide_eq_true_eq] at hq
            have hrest : ∀ q ∈ rest, q.1 ≠ (nm, ip) := by
              intro q hqmem hc
              apply hnd.1
              have hp1 : p.1 = (nm, ip) := by
                have : p.1 = (p.1.1, p.1.2) := rfl
                rw [this, ← ht, ← hs, hq.1, hq.2]
              rw [hp1, ← hc]
              exact List.mem_map_of_mem Prod.fst hqmem
            rw [hnone rest hrest]
            simp
          · exact ih hnd.2

/-- C6: with pairwise-distinct rule names, `_detect_event_rules` emits at
most one finding per `(rule_name, source_ip)` pair; each finding's
evidence is the (line, raw) projection of the first 5 entries of a
stable timestamp sort of the matching events, and its metadata holds the
source IP, the number of matching events, and the earliest and latest
matching timestamps. -/
theorem detect_event_rules_grouping (events : List LogEvent)
    (rules : List Rule) (hnd : (rules.map Rule.name).Nodup) :
    (∀ nm ip : String,
      ((detectEventRules events rules).filter
        (fun f => decide (f.finding_type = nm) &&
          decide (f.metadata.source_ip = ip))).length ≤ 1) ∧
    (∀ f ∈ detectEventRules events rules, ∃ rule ∈ rules,
      f.finding_type = rule.name ∧
      events.filter (groupPred rules rule.name f.metadata.source_ip) ≠ [] ∧
      f.metadata.count =
        (events.filter (groupPred rules rule.name f.metadata.source_ip)).length ∧
      f.evidence =
        ((sortByTs (events.filter
          (groupPred rules rule.name f.metadata.source_ip))).take 5).map
          (fun e => (e.line_number, e.raw_line)) ∧
      TsSorted (sortByTs (events.filter
        (groupPred rules rule.name f.metadata.source_ip))) ∧
      (sortByTs (events.filter
        (groupPred rules rule.name f.metadata.source_ip))).Perm
        (events.filter (groupPred rules rule.name f.metadata.source_ip)) ∧
      (∃ e ∈ events.filter (groupPred rules rule.name f.metadata.source_ip),
        f.metadata.first_seen = e.timestamp) ∧
      (∀ e ∈ events.filter (groupPred rules rule.name f.metadata.source_ip),
        f.metadata.first_seen ≤ e.timestamp) ∧
      (∃ e ∈ events.filter (groupPred rules rule.name f.metadata.source_ip),
        f.metadata.last_seen = e.timestamp) ∧
      (∀ e ∈ events.filter (groupPred rules rule.name f.metadata.source_ip),
        e.timestamp ≤ f.metadata.last_seen)) := by
  constructor
  · intro nm ip
    exact findings_of_groups_le_one rules nm ip (collectMatches events rules)
      (collectMatches_keys_nodup events rules)
  · intro f hf
    obtain ⟨p, hp, hg⟩ := List.mem_filterMap.mp hf
    obtain ⟨rule, hfind, hmk⟩ := Option.map_eq_some'.mp hg
    have hrule_mem := List.mem_of_find?_eq_some hfind
    have hname : rule.name = p.1.1 := by
      have h := List.find?_some hfind
      simpa using h
    have hsrc : f.metadata.source_ip = p.1.2 := by rw [← hmk]; rfl
    have htype : f.finding_type = rule.name := by rw [← hmk]; rfl
    have hlook := lookupGroup_of_mem (collectMatches events rules)
      (collectMatches_keys_nodup events rules) p hp
    have hchar := collectMatches_lookup events rules p.1.1 p.1.2 hnd
    have hcombine : some p.2 =
        (if events.filter (groupPred rules p.1.1 p.1.2) = [] then none
         else some (events.filter (groupPred rules p.1.1 p.1.2))) := by
      rw [← hchar]
      exact hlook.symm
    by_cases hemp : events.filter (groupPred rules p.1.1 p.1.2) = []
    · rw [if_pos hemp] at hcombine
      cases hcombine
    · rw [if_neg hemp] at hcombine
      have hp2 : p.2 = events.filter (groupPred rules p.1.1 p.1.2) :=
        Option.some.inj hcombine
      have hfilter : events.filter
          (groupPred rules rule.name f.metadata.source_ip) =
          events.filter (groupPred rules p.1.1 p.1.2) := by
        rw [hname, hsrc]
      refine ⟨rule, hrule_mem, htype, ?_, ?_, ?_, ?_, ?_, ?_, ?_, ?_, ?_⟩
      · rw [hfilter]
        exact hemp
      · rw [hfilter, ← hp2, ← hmk]
        rfl
      · rw [hfilter, ← hp2, ← hmk]
        rfl
      · rw [hfilter, ← hp2]
        exact sortByTs_sorted p.2
      · rw [hfilter, ← hp2]
        exact sortByTs_perm p.2
      · rw [hfilter, ← hp2]
        have hne : sortByTs p.2 ≠ [] := by
          intro hc
          have := (sortByTs_perm p.2).length_eq
          rw [hc] at this
          rw [hp2] at this
          exact hemp (List.eq_nil_of_length_eq_zero this.symm)
        cases hs : sortByTs p.2 with
        | nil => exact absurd hs hne
        | cons h t =>
            refine ⟨h, ?_, ?_⟩
            · exact (sortByTs_perm p.2).subset (hs ▸ List.mem_cons_self h t)
            · rw [← hmk]
              show ((((sortByTs p.2).head?).map
                (fun e => e.timestamp)).getD 0) = h.timestamp
              rw [hs]
              rfl
      · rw [hfilter, ← hp2]
        intro e he
        have hes : e ∈ sortByTs p.2 :=
          (sortByTs_perm p.2).symm.subset he
        cases hs : sortByTs p.2 with
        | nil => rw [hs] at hes; cases hes
        | cons h t =>
            have hfs : f.metadata.first_seen = h.timestamp := by
              rw [← hmk]
              show ((((sortByTs p.2).head?).map
                (fun e => e.timestamp)).getD 0) = h.timestamp
              rw [hs]
              rfl
            rw [hfs]
            have hsort := sortByTs_sorted p.2
            rw [hs] at hsort hes
            exact tsSorted_head_le h t hsort e hes
      · rw [hfilter, ← hp2]
        have hne : sortByTs p.2 ≠ [] := by
          intro hc
          have := (sortByTs_perm p.2).length_eq
          rw [hc] at this
          rw [hp2] at this
          exact hemp (List.eq_nil_of_length_eq_zero this.symm)
        obtain ⟨z, hz⟩ := Option.isSome_iff_exists.mp
          (List.getLast?_isSome.mpr hne)
        refine ⟨z, ?_, ?_⟩
        · exact (sortByTs_perm p.2).subset (getLast?_mem _ z hz)
        · rw [← hmk]
          show ((((sortByTs p.2).getLast?).map
            (fun e => e.timestamp)).getD 0) = z.timestamp
          rw [hz]
          rfl
      · rw [hfilter, ← hp2]
        intro e he
        have hne : sortByTs p.2 ≠ [] := by
          intro hc
          have := (sortByTs_perm p.2).length_eq
          rw [hc] at this
          rw [hp2] at this
          exact hemp (List.eq_nil_of_length_eq_zero this.symm)
        obtain ⟨z, hz⟩ := Option.isSome_iff_exists.mp
          (List.getLast?_isSome.mpr hne)
        have hls : f.metadata.last_seen = z.timestamp := by
          rw [← hmk]
          show ((((sortByTs p.2).getLast?).map
            (fun e => e.timestamp)).getD 0) = z.timestamp
          rw [hz]
          rfl
        rw [hls]
        exact tsSorted_le_getLast? (sortByTs p.2) (sortByTs_sorted p.2) e
          ((sortByTs_perm p.2).symm.subset he) z hz

/-- Two rules in the shape of the built-ins, with distinct names. -/
def demoRules : List Rule :=
  [ { name := "env_file_access", is_match := fun e => decide (e.path = "/.env"),
      severity := "critical" },
    { name := "empty_user_agent",
      is_match := fun e =>
        match e.user_agent with
        | none => true
        | some s => decide (s = ""),
      severity := "low" } ]

/-- Three `/.env` probes from one IP (out of timestamp order) and one
from another. -/
def demoSecEvents : List LogEvent :=
  [ { timestamp := 5, ip := "10.0.0.5", method := "GET", path := "/.env",
      status := 404, bytes_sent := 0, user_agent := some "curl",
      raw_line := "l1", line_number := 1 },
    { timestamp := 3, ip := "10.0.0.5", method := "GET", path := "/.env",
      status := 404, bytes_sent := 0, user_agent := some "curl",
      raw_line := "l2", line_number := 2 },
    { timestamp := 7, ip := "10.0.0.5", method := "GET", path := "/.env",
      status := 404, bytes_sent := 0, user_agent := some "curl",
      raw_line := "l3", line_number := 3 },
    { timestamp := 4, ip := "8.8.8.8", method := "GET", path := "/ok",
      status := 200, bytes_sent := 1, user_agent := some "curl",
      raw_line := "l4", line_number := 4 } ]

/-- Witness for C6: the grouping theorem applied to the concrete rule set
and events. -/
theorem detect_event_rules_grouping_witness :
    ((detectEventRules demoSecEvents demoRules).filter
      (fun f => decide (f.finding_type = "env_file_access") &&
        decide (f.metadata.source_ip = "10.0.0.5"))).length ≤ 1 :=
  (detect_event_rules_grouping demoSecEvents demoRules (by decide)).1
    "env_file_access" "10.0.0.5"

/-! ### Burst rules (`AggregateRule`, `_detect_burst_rule`) -/

/-- `AggregateRule` dataclass. -/
structure AggregateRule where
  name : String
  status_predicate : LogEvent → Bool
  threshold : Nat
  window_minutes : Nat
  severity : String
  title : String
  description_template : String
  suggested_action : Option String := none

/-- The `events_by_ip` dict of `_detect_burst_rule`: events passing the
status predicate, filed under their IP key in stream order. -/
def groupByIp (events : List LogEvent) (pred : LogEvent → Bool) :
    List (String × List LogEvent) :=
  events.foldl
    (fun acc e => if pred e then addMatch acc (ipKey e) e else acc) []

/-- The timestamp at index `i` of a list (0 out of range; only used in
range). -/
def tsAt (l : List LogEvent) (i : Nat) : Nat :=
  ((l.get? i).map (fun e => e.timestamp)).getD 0

/-- The `while ordered[end].timestamp - ordered[start].timestamp >
window: start += 1` loop, with fuel (the loop always stops at
`start = end` because the window is non-negative). -/
def shrinkStart (l : List LogEvent) (tEnd window : Nat) :
    Nat → Nat → Nat
  | start, 0 => start
  | start, fuel + 1 =>
      if window < tEnd - tsAt l start then
        shrinkStart l tEnd window (start + 1) fuel
      else start

/-- The two-pointer sweep of `_detect_burst_rule` over the
timestamp-sorted per-IP events: for each `end` index shrink `start`,
take `ordered[start : end + 1]`, and keep it when it reaches the
threshold and beats the best so far. -/
def burstScan (l : List LogEvent) (window threshold : Nat) :
    Nat × List LogEvent :=
  (List.range l.length).foldl
    (fun st endIdx =>
      let start := shrinkStart l (tsAt l endIdx) window st.1 l.length
      let current := (l.drop start).take (endIdx + 1 - start)
      if threshold ≤ current.length ∧ st.2.length < current.length then
        (start, current)
      else (start, st.2))
    (0, [])

/-- `_detect_burst_rule`: per IP, sort, sweep, and emit a finding when a
non-empty best window was found.  `timedelta(minutes=w)` compared to
timestamp differences is `60 * w` seconds. -/
def detectBurstRule (events : List LogEvent) (rule : AggregateRule) :
    List FindingCandidate :=
  (groupByIp events rule.status_predicate).filterMap
    (fun p =>
      let ordered := sortByTs p.2
      let best := (burstScan ordered (60 * rule.window_minutes)
        rule.threshold).2
      if best = [] then none
      else
        some
          { finding_type := rule.name
            severity := rule.severity
            title := rule.title
            description := formatIp rule.description_template p.1
            evidence := buildEvidence best
            suggested_action :=
              rule.suggested_action.map (fun s => formatIp s p.1)
            metadata := buildMetadata best p.1 })

/-- Number of the list's events inside the closed window `[a, a + W]`. -/
def winCount (l : List LogEvent) (W a : Nat) : Nat :=
  (l.filter (fun e =>
    decide (a ≤ e.timestamp) && decide (e.timestamp ≤ a + W))).length

theorem groupByIp_fold_lookup (pred : LogEvent → Bool) (ip : String) :
    ∀ (events : List LogEvent) (acc : List (String × List LogEvent)),
      lookupGroup
        (events.foldl
          (fun acc e => if pred e then addMatch acc (ipKey e) e else acc)
          acc) ip =
      combineGroup (lookupGroup acc ip)
        (events.filter (fun e => pred e && decide (ipKey e = ip))) := by
  intro events
  induction events with
  | nil =>
      intro acc
      cases h : lookupGroup acc ip <;> simp [combineGroup, h]
  | cons e rest ih =>
      intro acc
      simp only [List.foldl_cons]
      rw [ih]
      by_cases hm : pred e
      · by_cases hip : ipKey e = ip
        · have hfil : (e :: rest).filter
              (fun e => pred e && decide (ipKey e = ip)) =
              e :: rest.filter (fun e => pred e && decide (ipKey e = ip)) := by
            simp [List.filter_cons, hm, hip]
          rw [hfil, if_pos hm]
          have hself : lookupGroup (addMatch acc (ipKey e) e) ip =
              some ((lookupGroup acc ip).getD [] ++ [e]) := by
            rw [← hip]
            exact lookupGroup_addMatch_self acc (ipKey e) e
          rw [hself]
          cases h : lookupGroup acc ip <;> simp [combineGroup, h]
        · have hfil : (e :: rest).filter
              (fun e => pred e && decide (ipKey e = ip)) =
              rest.filter (fun e => pred e && decide (ipKey e = ip)) := by
            simp [List.filter_cons, hip]
          rw [hfil, if_pos hm,
            lookupGroup_addMatch_of_ne acc (ipKey e) ip e
              (fun hc => hip hc.symm)]
      · have hmf : pred e = false := by
          cases hpe : pred e
          · rfl
          · exact absurd hpe hm
        have hfil : (e :: rest).filter
            (fun e => pred e && decide (ipKey e = ip)) =
            rest.filter (fun e => pred e && decide (ipKey e = ip)) := by
          simp [List.filter_cons, hmf]
        rw [hfil, if_neg hm]

/-- The contents of the per-IP group are exactly the predicate-matching
events with that IP key, in stream order. -/
theorem groupByIp_lookup (events : List LogEvent) (pred : LogEvent → Bool)
    (ip : String) :
    lookupGroup (groupByIp events pred) ip =
      if events.filter (fun e => pred e && decide (ipKey e = ip)) = [] then
        none
      else some (events.filter (fun e => pred e && decide (ipKey e = ip))) := by
  unfold groupByIp
  rw [groupByIp_fold_lookup]
  rfl

theorem groupByIp_keys_nodup (events : List LogEvent)
    (pred : LogEvent → Bool) :
    ((groupByIp events pred).map Prod.fst).Nodup := by
  have h : ∀ (evs : List LogEvent) (acc : List (String × List LogEvent)),
      (acc.map Prod.fst).Nodup →
      ((evs.foldl
        (fun acc e => if pred e then addMatch acc (ipKey e) e else acc)
        acc).map Prod.fst).Nodup := by
    intro evs
    induction evs with
    | nil => intro acc hacc; exact hacc
    | cons e rest ih =>
        intro acc hacc
        simp only [List.foldl_cons]
        apply ih
        split_ifs with hm
        · exact addMatch_keys_nodup acc _ e hacc
        · exact hacc
  exact h events [] (by simp)

/-- Sortedness seen through indices. -/
def IdxSorted (l : List LogEvent) : Prop :=
  ∀ i j : Nat, i ≤ j → j < l.length → tsAt l i ≤ tsAt l j

theorem tsSorted_idxSorted (l : List LogEvent) (h : TsSorted l) :
    IdxSorted l := by
  unfold TsSorted at h
  intro i j hij hj
  rcases Nat.eq_or_lt_of_le hij with rfl | hlt
  · exact le_refl _
  · have hi : i < l.length := lt_trans hlt hj
    have hp := (List.pairwise_iff_getElem.mp h) i j hi hj hlt
    have hti : tsAt l i = l[i].timestamp := by
      simp [tsAt, List.get?_eq_getElem?, List.getElem?_eq_getElem hi]
    have htj : tsAt l j = l[j].timestamp := by
      simp [tsAt, List.get?_eq_getElem?, List.getElem?_eq_getElem hj]
    rw [hti, htj]
    exact hp

/-- `r` is the minimal start index whose event still fits in the window
ending at index `j`. -/
def IsMinStart (l : List LogEvent) (W j r : Nat) : Prop :=
  tsAt l j - tsAt l r ≤ W ∧ r ≤ j ∧
    ∀ i < r, W < tsAt l j - tsAt l i

theorem isMinStart_unique (l : List LogEvent) (W j r r' : Nat)
    (h : IsMinStart l W j r) (h' : IsMinStart l W j r') : r = r' := by
  by_contra hne
  rcases Nat.lt_or_ge r r' with hlt | hge
  · exact absurd h.1 (not_le_of_lt (h'.2.2 r hlt))
  · rcases Nat.eq_or_lt_of_le hge with heq | hlt
    · exact hne heq.symm
    · exact absurd h'.1 (not_le_of_lt (h.2.2 r' hlt))

theorem shrinkStart_correct (l : List LogEvent) (W j : Nat) :
    ∀ (fuel start : Nat), start ≤ j →
      (∀ i < start, W < tsAt l j - tsAt l i) →
      j ≤ start + fuel →
      IsMinStart l W j (shrinkStart l (tsAt l j) W start fuel) := by
  intro fuel
  induction fuel with
  | zero =>
      intro start h1 h2 h3
      have hsj : start = j := le_antisymm h1 (by omega)
      subst hsj
      have hred : shrinkStart l (tsAt l start) W start 0 = start := rfl
      rw [hred]
      exact ⟨by simp, le_refl _, h2⟩
  | succ fuel ih =>
      intro start h1 h2 h3
      unfold shrinkStart
      split_ifs with hc
      · have hne : start ≠ j := by
          intro hc'
          subst hc'
          simp at hc
        have hlt : start < j := lt_of_le_of_ne h1 hne
        apply ih (start + 1) hlt
        · intro i hi
          rcases Nat.lt_or_ge i start with h | h
          · exact h2 i h
          · have : i = start := by omega
            subst this
            exact hc
        · omega
      · exact ⟨le_of_not_lt hc, h1, h2⟩

/-- The candidate window at end index `j`, given its minimal start. -/
theorem slice_length (l : List LogEvent) (r j : Nat) (hrj : r ≤ j)
    (hj : j < l.length) :
    ((l.drop r).take (j + 1 - r)).length = j + 1 - r := by
  rw [List.length_take, List.length_drop]
  omega

/-- The invariant carried by the two-pointer sweep after the end indices
below `k` have been processed. -/
def ScanInv (l : List LogEvent) (W N k : Nat) (st : Nat × List LogEvent) :
    Prop :=
  st.1 ≤ k ∧
  (∀ i < st.1, ∀ j, k ≤ j → j < l.length → W < tsAt l j - tsAt l i) ∧
  (st.2 = [] ∨ ∃ j < k, ∃ r, IsMinStart l W j r ∧
    st.2 = (l.drop r).take (j + 1 - r) ∧ N ≤ j + 1 - r) ∧
  (∀ j < k, ∀ r, IsMinStart l W j r → N ≤ j + 1 - r →
    j + 1 - r ≤ st.2.length) ∧
  (st.2 ≠ [] → N ≤ st.2.length)

theorem scanInv_step (l : List LogEvent) (W N k : Nat)
    (hsort : IdxSorted l) (hk : k < l.length)
    (st : Nat × List LogEvent) (hinv : ScanInv l W N k st) :
    ScanInv l W N (k + 1)
      (let start := shrinkStart l (tsAt l k) W st.1 l.length
       let current := (l.drop start).take (k + 1 - start)
       if N ≤ current.length ∧ st.2.length < current.length then
         (start, current)
       else (start, st.2)) := by
  obtain ⟨hle, hdisc, hb0, hb1, hb2⟩ := hinv
  have hr : IsMinStart l W k
      (shrinkStart l (tsAt l k) W st.1 l.length) := by
    apply shrinkStart_correct l W k l.length st.1 hle
    · intro i hi
      exact hdisc i hi k (le_refl k) hk
    · omega
  set r := shrinkStart l (tsAt l k) W st.1 l.length with hrdef
  have hclen : ((l.drop r).take (k + 1 - r)).length = k + 1 - r :=
    slice_length l r k hr.2.1 hk
  have hnewdisc : ∀ i < r, ∀ j, k + 1 ≤ j → j < l.length →
      W < tsAt l j - tsAt l i := by
    intro i hi j hj hjn
    have h1 := hr.2.2 i hi
    have h2 : tsAt l k ≤ tsAt l j := hsort k j (by omega) hjn
    omega
  have hrk1 : r ≤ k + 1 := by
    have := hr.2.1
    omega
  dsimp only
  split_ifs with hcond
  · refine ⟨hrk1, hnewdisc, ?_, ?_, ?_⟩
    · right
      exact ⟨k, by omega, r, hr, rfl, by rw [← hclen]; exact hcond.1⟩
    · intro j hj r' hr' hN
      rcases Nat.lt_or_ge j k with hjk | hjk
      · have h1 := hb1 j hjk r' hr' hN
        have h2 : st.2.length ≤ ((l.drop r).take (k + 1 - r)).length := by
          omega
        exact le_trans h1 h2
      · have : j = k := by omega
        subst this
        have : r' = r := isMinStart_unique l W j r' r hr' hr
        subst this
        rw [hclen]
    · intro _
      exact hcond.1
  · refine ⟨hrk1, hnewdisc, ?_, ?_, hb2⟩
    · rcases hb0 with hb0 | ⟨j, hj, r', hr', heq, hN⟩
      · left; exact hb0
      · right; exact ⟨j, by omega, r', hr', heq, hN⟩
    · intro j hj r' hr' hN
      rcases Nat.lt_or_ge j k with hjk | hjk
      · exact hb1 j hjk r' hr' hN
      · have : j = k := by omega
        subst this
        have : r' = r := isMinStart_unique l W j r' r hr' hr
        subst this
        dsimp only
        rw [not_and_or] at hcond
        rcases hcond with hcond | hcond
        · rw [hclen] at hcond
          omega
        · rw [hclen] at hcond
          omega

theorem burstScan_inv (l : List LogEvent) (W N : Nat)
    (hsort : IdxSorted l) :
    ∀ k ≤ l.length,
      ScanInv l W N k
        ((List.range k).foldl
          (fun st endIdx =>
            let start := shrinkStart l (tsAt l endIdx) W st.1 l.length
            let current := (l.drop start).take (endIdx + 1 - start)
            if N ≤ current.length ∧ st.2.length < current.length then
              (start, current)
            else (start, st.2))
          (0, [])) := by
  intro k
  induction k with
  | zero =>
      intro _
      simp only [List.range_zero, List.foldl_nil]
      refine ⟨le_refl 0, ?_, Or.inl rfl, ?_, ?_⟩
      · intro i hi
        exact absurd hi (Nat.not_lt_zero i)
      · intro j hj
        exact absurd hj (Nat.not_lt_zero j)
      · intro h
        exact absurd rfl h
  | succ k ih =>
      intro hk1
      rw [List.range_succ, List.foldl_append]
      simp only [List.foldl_cons, List.foldl_nil]
      exact scanInv_step l W N k hsort (by omega) _ (ih (by omega))

theorem burstScan_spec (l : List LogEvent) (W N : Nat)
    (hsort : IdxSorted l) :
    ScanInv l W N l.length (burstScan l W N) :=
  burstScan_inv l W N hsort l.length (le_refl _)

/-- Window membership at index `i`. -/
def idxWinPred (l : List LogEvent) (W a : Nat) (i : Nat) : Bool :=
  decide (a ≤ tsAt l i) && decide (tsAt l i ≤ a + W)

theorem winCount_eq_idx (l : List LogEvent) (W a : Nat) :
    winCount l W a =
      ((List.range l.length).filter (idxWinPred l W a)).length := by
  induction l with
  | nil => rfl
  | cons x xs ih =>
      have hlen : (x :: xs).length = xs.length + 1 := rfl
      rw [winCount, List.filter_cons, hlen, List.range_succ_eq_map,
        List.filter_cons]
      have hhead : idxWinPred (x :: xs) W a 0 =
          (decide (a ≤ x.timestamp) && decide (x.timestamp ≤ a + W)) := rfl
      rw [hhead]
      have htail : (List.map Nat.succ (List.range xs.length)).filter
          (idxWinPred (x :: xs) W a) =
          List.map Nat.succ ((List.range xs.length).filter
            (idxWinPred (x :: xs) W a ∘ Nat.succ)) :=
        List.filter_map Nat.succ (List.range xs.length)
      have hcomp : (idxWinPred (x :: xs) W a ∘ Nat.succ) =
          idxWinPred xs W a := by
        funext i
        rfl
      rw [winCount] at ih
      split_ifs with hx
      · simp only [List.length_cons, htail, hcomp, List.length_map]
        rw [ih]
      · simp only [htail, hcomp, List.length_map]
        rw [ih]

theorem range_filter_ge_length (n s : Nat) :
    ((List.range n).filter (fun i => decide (s ≤ i))).length = n - s := by
  induction n with
  | zero => simp
  | succ n ih =>
      rw [List.range_succ, List.filter_append]
      simp only [List.length_append, ih, List.filter_cons, List.filter_nil]
      split_ifs with h
      · have hs : s ≤ n := of_decide_eq_true h
        simp
        omega
      · have hs : ¬ s ≤ n := fun hc => h (decide_eq_true hc)
        simp
        omega

theorem range_filter_interval_length (n s j : Nat) (h1 : s ≤ j)
    (h2 : j < n) :
    ((List.range n).filter
      (fun i => decide (s ≤ i) && decide (i ≤ j))).length = j + 1 - s := by
  induction n with
  | zero => omega
  | succ n ih =>
      rw [List.range_succ, List.filter_append]
      simp only [List.length_append, List.filter_cons, List.filter_nil]
      rcases Nat.lt_or_ge j n with hj | hj
      · have hnj : (decide (s ≤ n) && decide (n ≤ j)) = false := by
          have : ¬ n ≤ j := by omega
          simp [this]
        rw [hnj]
        simp [ih hj]
      · have hjn : j = n := by omega
        subst hjn
        have hyes : (decide (s ≤ j) && decide (j ≤ j)) = true := by
          simp [h1]
        rw [hyes]
        have hcong : (List.range j).filter
            (fun i => decide (s ≤ i) && decide (i ≤ j)) =
            (List.range j).filter (fun i => decide (s ≤ i)) := by
          apply List.filter_congr
          intro i hi
          have : i ≤ j := by
            have := List.mem_range.mp hi
            omega
          simp [this]
        rw [hcong, range_filter_ge_length]
        simp
        omega

theorem filter_sublist_filter_of_mem {α : Type} (l : List α)
    (p q : α → Bool) (h : ∀ x ∈ l, p x = true → q x = true) :
    (l.filter p).Sublist (l.filter q) := by
  induction l with
  | nil => exact List.Sublist.refl _
  | cons x xs ih =>
      rw [List.filter_cons, List.filter_cons]
      have ih' := ih (fun y hy => h y (List.mem_cons_of_mem x hy))
      cases hp : p x with
      | true =>
          rw [h x (List.mem_cons_self x xs) hp]
          simp only [if_pos rfl]
          exact ih'.cons₂ x
      | false =>
          simp only [Bool.false_eq_true, if_false]
          cases hq : q x with
          | true =>
              simp only [if_pos rfl]
              exact ih'.cons x
          | false =>
              simp only [Bool.false_eq_true, if_false]
              exact ih'

theorem pairwiseLt_le_getLast? (l : List Nat)
    (h : l.Pairwise (fun a b => a < b)) :
    ∀ x ∈ l, ∀ z, l.getLast? = some z → x ≤ z := by
  induction l with
  | nil => intro x hx; cases hx
  | cons a as ih =>
      rw [List.pairwise_cons] at h
      intro x hx z hz
      cases as with
      | nil =>
          rw [List.getLast?_singleton] at hz
          rcases Option.some.inj hz with rfl
          rcases List.mem_singleton.mp hx with rfl
          exact le_refl _
      | cons b bs =>
          rw [List.getLast?_cons_cons] at hz
          rcases List.mem_cons.mp hx with hx | hx
          · subst hx
            exact le_of_lt (h.1 z (getLast?_mem _ _ hz))
          · exact ih h.2 x hx z hz

/-- Every candidate window of the sweep fits inside a real window of
width `W` (anchored at `tsAt l j - W`). -/
theorem slice_le_winCount (l : List LogEvent) (W : Nat)
    (hsort : IdxSorted l) (j r : Nat) (hj : j < l.length)
    (hr : IsMinStart l W j r) :
    j + 1 - r ≤ winCount l W (tsAt l j - W) := by
  rw [winCount_eq_idx]
  have hsub : ((List.range l.length).filter
      (fun i => decide (r ≤ i) && decide (i ≤ j))).Sublist
      ((List.range l.length).filter (idxWinPred l W (tsAt l j - W))) := by
    apply filter_sublist_filter_of_mem
    intro i _ hp
    have hri : r ≤ i := of_decide_eq_true (Bool.and_elim_left hp)
    have hij : i ≤ j := of_decide_eq_true (Bool.and_elim_right hp)
    have h1 : tsAt l r ≤ tsAt l i := hsort r i hri (by omega)
    have h2 : tsAt l i ≤ tsAt l j := hsort i j hij hj
    have h3 : tsAt l j - tsAt l r ≤ W := hr.1
    unfold idxWinPred
    have ha1 : tsAt l j - W ≤ tsAt l i := by omega
    have ha2 : tsAt l i ≤ tsAt l j - W + W := by omega
    simp [ha1, ha2]
  have hlen := hsub.length_le
  rw [range_filter_interval_length l.length r j hr.2.1 hj] at hlen
  exact hlen

/-- Every real window of width `W` is dominated by a candidate window of
the sweep. -/
theorem winCount_le_slice (l : List LogEvent) (W : Nat)
    (_hsort : IdxSorted l) (a : Nat) (hpos : 1 ≤ winCount l W a) :
    ∃ j, j < l.length ∧ ∃ r, IsMinStart l W j r ∧
      winCount l W a ≤ j + 1 - r := by
  rw [winCount_eq_idx] at hpos ⊢
  have hne : (List.range l.length).filter (idxWinPred l W a) ≠ [] := by
    intro hc
    rw [hc] at hpos
    simp at hpos
  obtain ⟨j, hj⟩ := Option.isSome_iff_exists.mp
    (List.getLast?_isSome.mpr hne)
  have hjmem : j ∈ (List.range l.length).filter (idxWinPred l W a) :=
    getLast?_mem _ j hj
  have hjn : j < l.length := List.mem_range.mp (List.mem_filter.mp hjmem).1
  have hjwin : idxWinPred l W a j = true := (List.mem_filter.mp hjmem).2
  have hrex : IsMinStart l W j (shrinkStart l (tsAt l j) W 0 l.length) := by
    apply shrinkStart_correct l W j l.length 0 (by omega)
    · intro i hi
      omega
    · omega
  refine ⟨j, hjn, shrinkStart l (tsAt l j) W 0 l.length, hrex, ?_⟩
  set r := shrinkStart l (tsAt l j) W 0 l.length with hrdef
  have hsub : ((List.range l.length).filter (idxWinPred l W a)).Sublist
      ((List.range l.length).filter
        (fun i => decide (r ≤ i) && decide (i ≤ j))) := by
    apply filter_sublist_filter_of_mem
    intro i hi hp
    have himem : i ∈ (List.range l.length).filter (idxWinPred l W a) :=
      List.mem_filter.mpr ⟨hi, hp⟩
    have hij : i ≤ j := by
      apply pairwiseLt_le_getLast? _ _ i himem j hj
      exact (List.pairwise_lt_range l.length).filter _
    have hri : r ≤ i := by
      by_contra hlt
      have hnc := hrex.2.2 i (by omega)
      unfold idxWinPred at hp hjwin
      have hpa := of_decide_eq_true (Bool.and_elim_left hp)
      have hpb := of_decide_eq_true (Bool.and_elim_right hp)
      have hja := of_decide_eq_true (Bool.and_elim_left hjwin)
      have hjb := of_decide_eq_true (Bool.and_elim_right hjwin)
      omega
    simp [hri, hij]
  have hlen := hsub.length_le
  rw [range_filter_interval_length l.length r j hrex.2.1 hjn] at hlen
  exact hlen

theorem winCount_perm (l₁ l₂ : List LogEvent) (h : l₁.Perm l₂) (W a : Nat) :
    winCount l₁ W a = winCount l₂ W a :=
  (h.filter _).length_eq

theorem winCount_le_length (l : List LogEvent) (W a : Nat) :
    winCount l W a ≤ l.length :=
  (List.filter_sublist l).length_le

/-- C2: for every burst rule with a positive threshold and every IP key,
`_detect_burst_rule` emits a finding for that IP iff some window of
width `window_minutes` contains at least `threshold` of the IP's
matching events, and the emitted metadata `count` is the maximum number
of matching events over all such windows. -/
theorem detect_burst_rule_spec (events : List LogEvent)
    (rule : AggregateRule) (ip : String) (hthr : 1 ≤ rule.threshold) :
    ((∃ f ∈ detectBurstRule events rule, f.metadata.source_ip = ip) ↔
      ∃ a : Nat, rule.threshold ≤
        winCount (events.filter (fun e =>
            rule.status_predicate e && decide (ipKey e = ip)))
          (60 * rule.window_minutes) a) ∧
    (∀ f ∈ detectBurstRule events rule, f.metadata.source_ip = ip →
      (∃ a : Nat, winCount (events.filter (fun e =>
          rule.status_predicate e && decide (ipKey e = ip)))
          (60 * rule.window_minutes) a = f.metadata.count) ∧
      (∀ a : Nat, winCount (events.filter (fun e =>
          rule.status_predicate e && decide (ipKey e = ip)))
          (60 * rule.window_minutes) a ≤ f.metadata.count)) := by
  set W := 60 * rule.window_minutes with hWdef
  set N := rule.threshold with hNdef
  set matching := events.filter (fun e =>
    rule.status_predicate e && decide (ipKey e = ip)) with hmatchdef
  set l := sortByTs matching with hldef
  have hperm : l.Perm matching := sortByTs_perm matching
  have hsort : IdxSorted l := tsSorted_idxSorted l (sortByTs_sorted matching)
  have hwin : ∀ a, winCount l W a = winCount matching W a :=
    fun a => winCount_perm l matching hperm W a
  -- findings for `ip` correspond to a group with key `ip` whose sorted
  -- contents are `l` and whose best window is non-empty
  have hmem_iff : ∀ f, (f ∈ detectBurstRule events rule ∧
      f.metadata.source_ip = ip) ↔
      (matching ≠ [] ∧ (burstScan l W N).2 ≠ [] ∧
        f = { finding_type := rule.name
              severity := rule.severity
              title := rule.title
              description := formatIp rule.description_template ip
              evidence := buildEvidence (burstScan l W N).2
              suggested_action :=
                rule.suggested_action.map (fun s => formatIp s ip)
              metadata := buildMetadata (burstScan l W N).2 ip }) := by
    intro f
    constructor
    · rintro ⟨hf, hip⟩
      obtain ⟨p, hp, hg⟩ := List.mem_filterMap.mp hf
      dsimp only at hg
      by_cases hbest : (burstScan (sortByTs p.2) (60 * rule.window_minutes)
          rule.threshold).2 = []
      · rw [if_pos hbest] at hg
        cases hg
      · rw [if_neg hbest] at hg
        have hfip : p.1 = ip := by
          rw [← hip, ← Option.some.inj hg]
          rfl
        have hlook := lookupGroup_of_mem (groupByIp events
          rule.status_predicate) (groupByIp_keys_nodup events
          rule.status_predicate) p hp
        rw [hfip] at hlook
        rw [groupByIp_lookup] at hlook
        split_ifs at hlook with hempty
        have hp2 : p.2 = matching := (Option.some.inj hlook).symm
        refine ⟨hempty, ?_, ?_⟩
        · rw [hldef, ← hp2]
          exact hbest
        · rw [← Option.some.inj hg, hfip, hp2, ← hldef, ← hWdef, ← hNdef]
    · rintro ⟨hne, hbest, rfl⟩
      constructor
      · apply List.mem_filterMap.mpr
        have hlook := groupByIp_lookup events rule.status_predicate ip
        rw [if_neg hne] at hlook
        obtain ⟨pr, hfind⟩ : ∃ pr, (groupByIp events
            rule.status_predicate).find? (fun p => p.1 = ip) = some pr := by
          unfold lookupGroup at hlook
          cases hfq : (groupByIp events rule.status_predicate).find?
              (fun p => p.1 = ip) with
          | none => rw [hfq] at hlook; cases hlook
          | some pr => exact ⟨pr, rfl⟩
        have hprmem := List.mem_of_find?_eq_some hfind
        have hpr1 : pr.1 = ip := by
          have := List.find?_some hfind
          simpa using this
        have hpr2 : pr.2 = matching := by
          unfold lookupGroup at hlook
          rw [hfind] at hlook
          exact Option.some.inj hlook
        refine ⟨pr, hprmem, ?_⟩
        dsimp only
        rw [hpr2, ← hldef, ← hWdef, ← hNdef, if_neg hbest, hpr1]
      · rfl
  constructor
  · constructor
    · rintro ⟨f, hf, hip⟩
      obtain ⟨hne, hbest, hfeq⟩ := (hmem_iff f).mp ⟨hf, hip⟩
      obtain ⟨_, _, hb0, _, _⟩ := burstScan_spec l W N hsort
      rcases hb0 with hb0 | ⟨j, hj, r, hr, _, hN⟩
      · exact absurd hb0 hbest
      · refine ⟨tsAt l j - W, ?_⟩
        rw [← hwin]
        exact le_trans hN (slice_le_winCount l W hsort j r hj hr)
    · rintro ⟨a, ha⟩
      have hpos : 1 ≤ winCount l W a := by
        rw [hwin]
        omega
      have hne : matching ≠ [] := by
        intro hc
        rw [hc] at ha
        have h0 : winCount [] W a = 0 := rfl
        rw [h0] at ha
        omega
      obtain ⟨j, hj, r, hr, hle⟩ := winCount_le_slice l W hsort a hpos
      obtain ⟨_, _, _, hb1, _⟩ := burstScan_spec l W N hsort
      have hcle : N ≤ j + 1 - r := by
        rw [hwin] at hle
        omega
      have hblen := hb1 j hj r hr hcle
      have hbest : (burstScan l W N).2 ≠ [] := by
        intro hc
        rw [hc] at hblen
        simp at hblen
        omega
      refine ⟨_, ((hmem_iff _).mpr ⟨hne, hbest, rfl⟩).1,
        ((hmem_iff _).mpr ⟨hne, hbest, rfl⟩).2⟩
  · intro f hf hip
    obtain ⟨hne, hbest, hfeq⟩ := (hmem_iff f).mp ⟨hf, hip⟩
    have hcount : f.metadata.count = (burstScan l W N).2.length := by
      rw [hfeq]
      rfl
    obtain ⟨_, _, hb0, hb1, hb2⟩ := burstScan_spec l W N hsort
    have hforall : ∀ a : Nat, winCount matching W a ≤ f.metadata.count := by
      intro a
      rw [hcount]
      rcases Nat.lt_or_ge (winCount l W a) 1 with hz | hpos
      · rw [← hwin]
        omega
      · obtain ⟨j, hj, r, hr, hle⟩ := winCount_le_slice l W hsort a hpos
        rcases Nat.lt_or_ge (j + 1 - r) N with hlo | hhi
        · have hN := hb2 hbest
          rw [← hwin]
          omega
        · have := hb1 j hj r hr hhi
          rw [← hwin]
          omega
    refine ⟨?_, hforall⟩
    rcases hb0 with hb0 | ⟨j, hj, r, hr, heq, hN⟩
    · exact absurd hb0 hbest
    · refine ⟨tsAt l j - W, ?_⟩
      have hlen : (burstScan l W N).2.length = j + 1 - r := by
        rw [heq]
        exact slice_length l r j hr.2.1 hj
      have h1 : j + 1 - r ≤ winCount l W (tsAt l j - W) :=
        slice_le_winCount l W hsort j r hj hr
      have h2 := hforall (tsAt l j - W)
      rw [hcount, hlen] at h2
      rw [← hwin] at h2
      rw [hcount, hlen]
      rw [← hwin]
      omega

/-- A `burst_404`-shaped rule with a small threshold. -/
def burstRule : AggregateRule :=
  { name := "burst_404"
    status_predicate := fun e => decide (e.status = 404)
    threshold := 3
    window_minutes := 10
    severity := "medium"
    title := "Burst of 404 Responses"
    description_template := "High rate of 404 responses detected from IP {ip}" }

/-- Four 404s from one IP within eight minutes. -/
def burstEvents : List LogEvent :=
  [ { timestamp := 0, ip := "1.2.3.4", method := "GET", path := "/a",
      status := 404, bytes_sent := 0, raw_line := "b1", line_number := 1 },
    { timestamp := 60, ip := "1.2.3.4", method := "GET", path := "/b",
      status := 404, bytes_sent := 0, raw_line := "b2", line_number := 2 },
    { timestamp := 120, ip := "1.2.3.4", method := "GET", path := "/c",
      status := 404, bytes_sent := 0, raw_line := "b3", line_number := 3 },
    { timestamp := 480, ip := "1.2.3.4", method := "GET", path := "/d",
      status := 404, bytes_sent := 0, raw_line := "b4", line_number := 4 } ]

/-- Witness for C2: the burst theorem applied to the concrete rule and
events, with the emission criterion exercised at window anchor 0. -/
theorem detect_burst_rule_spec_witness :
    (∃ f ∈ detectBurstRule burstEvents burstRule,
      f.metadata.source_ip = "1.2.3.4") ∧
    (∃ a : Nat, burstRule.threshold ≤
      winCount (burstEvents.filter (fun e =>
          burstRule.status_predicate e && decide (ipKey e = "1.2.3.4")))
        (60 * burstRule.window_minutes) a) :=
  have h := (detect_burst_rule_spec burstEvents burstRule "1.2.3.4"
    (by decide)).1
  ⟨h.mpr ⟨0, by decide⟩, ⟨0, by decide⟩⟩

/-! ## Error fingerprinting (`apps/worker/parsers/error_parser.py`)

`_normalize_message` applies six `re.sub` calls in order.  Each is a
simple enough pattern that `re.sub`'s leftmost, non-overlapping,
greedy-with-backtracking semantics reduces to a deterministic scan,
implemented below character by character (`\w`, `\d`, `\s` restricted to
ASCII, which log messages are after `errors="replace"` decoding). -/

/-- `\d`. -/
def isDigitC (c : Char) : Bool := decide ('0' ≤ c) && decide (c ≤ '9')

/-- `\w` (ASCII). -/
def isWordC (c : Char) : Bool :=
  (decide ('a' ≤ c) && decide (c ≤ 'z')) ||
  (decide ('A' ≤ c) && decide (c ≤ 'Z')) || isDigitC c || decide (c = '_')

/-- `[0-9a-fA-F]`. -/
def isHexC (c : Char) : Bool :=
  isDigitC c || (decide ('a' ≤ c) && decide (c ≤ 'f')) ||
    (decide ('A' ≤ c) && decide (c ≤ 'F'))

/-- `[\w/.-]`. -/
def isPathC (c : Char) : Bool :=
  isWordC c || decide (c = '/') || decide (c = '.') || decide (c = '-')

/-- A word boundary holds before the scan position given the previous
character (none at the string start). -/
def prevBoundary : Option Char → Bool
  | none => true
  | some p => ! isWordC p

/-- A word boundary holds after a digit run given the remaining text. -/
def nextBoundary : List Char → Bool
  | [] => true
  | d :: _ => ! isWordC d

theorem dropWhile_length_le {α : Type} (p : α → Bool) (l : List α) :
    (l.dropWhile p).length ≤ l.length := by
  induction l with
  | nil => simp
  | cons x xs ih =>
      cases hp : p x <;> simp [List.dropWhile_cons, hp]
      omega

theorem scan_dec_aux {α : Type} (p : α → Bool) (d : α) (t : List α) :
    (List.dropWhile p (d :: t)).length < t.length + 1 + 1 := by
  have h := dropWhile_length_le p (d :: t)
  simp only [List.length_cons] at h
  omega

theorem scan_dec_aux3 {α : Type} (p : α → Bool) (d : α) (t : List α) :
    (List.dropWhile p (d :: t)).length < t.length + 1 + 1 + 1 := by
  have h := dropWhile_length_le p (d :: t)
  simp only [List.length_cons] at h
  omega

theorem quote_dec_aux (q : Char) (t : List Char) :
    ((t.dropWhile (fun d => ! decide (d = q))).length - 1) < t.length + 1 := by
  have h := dropWhile_length_le (fun d => ! decide (d = q)) t
  omega

/-- `re.sub(r"\b\d+\b", "N", _)`: a maximal digit run flanked by word
boundaries is replaced; a run failing its trailing boundary is skipped
whole (every retry inside the run fails its leading boundary). -/
def subNumsGo : Option Char → List Char → List Char
  | _, [] => []
  | prev, c :: rest =>
      if isDigitC c && prevBoundary prev then
        let run := (c :: rest).takeWhile isDigitC
        let rest' := (c :: rest).dropWhile isDigitC
        if nextBoundary rest' then 'N' :: subNumsGo (some c) rest'
        else run ++ subNumsGo (some c) rest'
      else c :: subNumsGo (some c) rest
  termination_by _ l => l.length
  decreasing_by
    all_goals simp_wf
    all_goals
      have h2 : (List.dropWhile isDigitC (c :: rest)).length ≤ rest.length := by
        have hc : isDigitC c = true := by
          rename_i hcp _
          simp only [Bool.and_eq_true] at hcp
          exact hcp.1
        simp [List.dropWhile_cons, hc]
        exact dropWhile_length_le isDigitC rest
      omega

/-- `re.sub(r"0x[0-9a-fA-F]+", "0xHEX", _)`. -/
def subHexGo : List Char → List Char
  | [] => []
  | '0' :: 'x' :: rest =>
      match rest with
      | [] => ['0', 'x']
      | d :: rest2 =>
          if isHexC d then
            '0' :: 'x' :: 'H' :: 'E' :: 'X' ::
              subHexGo ((d :: rest2).dropWhile isHexC)
          else '0' :: subHexGo ('x' :: d :: rest2)
  | c :: rest => c :: subHexGo rest
  termination_by l => l.length
  decreasing_by
    all_goals simp_wf
    all_goals exact scan_dec_aux3 isHexC _ _

/-- `re.sub(r"(q)[^q]*(q)", repl, _)` for a quote character `q`: the
leftmost quote pairs with the next one; an unpaired final quote never
matches. -/
def subQuoteGo (q : Char) (repl : List Char) : List Char → List Char
  | [] => []
  | c :: rest =>
      if c = q then
        if rest.any (fun d => d = q) then
          repl ++ subQuoteGo q repl ((rest.dropWhile (fun d => ¬ d = q)).tail)
        else c :: rest
      else c :: subQuoteGo q repl rest
  termination_by l => l.length
  decreasing_by
    all_goals simp_wf
    all_goals exact quote_dec_aux q _

/-- `re.sub(r"/[\w/.-]+", "/PATH", _)`. -/
def subPathGo : List Char → List Char
  | [] => []
  | c :: rest =>
      if c = '/' then
        match rest with
        | [] => ['/']
        | d :: rest2 =>
            if isPathC d then
              '/' :: 'P' :: 'A' :: 'T' :: 'H' ::
                subPathGo ((d :: rest2).dropWhile isPathC)
            else '/' :: subPathGo (d :: rest2)
      else c :: subPathGo rest
  termination_by l => l.length
  decreasing_by
    all_goals simp_wf
    all_goals exact scan_dec_aux isPathC _ _

/-! The scanners above recurse on `dropWhile` results, so they are
well-founded rather than structural and do not reduce inside the kernel.
Each gets a fuel-indexed structural twin (fuel bounds the input length)
used in the executable normalizer, proved equal to the reference scanner. -/

def subNumsF : Nat → Option Char → List Char → List Char
  | _, _, [] => []
  | 0, _, l => l
  | fuel + 1, prev, c :: rest =>
      if isDigitC c && prevBoundary prev then
        let run := (c :: rest).takeWhile isDigitC
        let rest' := (c :: rest).dropWhile isDigitC
        if nextBoundary rest' then 'N' :: subNumsF fuel (some c) rest'
        else run ++ subNumsF fuel (some c) rest'
      else c :: subNumsF fuel (some c) rest

def subHexF : Nat → List Char → List Char
  | _, [] => []
  | 0, l => l
  | fuel + 1, '0' :: 'x' :: rest =>
      match rest with
      | [] => ['0', 'x']
      | d :: rest2 =>
          if isHexC d then
            '0' :: 'x' :: 'H' :: 'E' :: 'X' ::
              subHexF fuel ((d :: rest2).dropWhile isHexC)
          else '0' :: subHexF fuel ('x' :: d :: rest2)
  | fuel + 1, c :: rest => c :: subHexF fuel rest

def subQuoteF (q : Char) (repl : List Char) : Nat → List Char → List Char
  | _, [] => []
  | 0, l => l
  | fuel + 1, c :: rest =>
      if c = q then
        if rest.any (fun d => d = q) then
          repl ++ subQuoteF q repl fuel ((rest.dropWhile (fun d => ¬ d = q)).tail)
        else c :: rest
      else c :: subQuoteF q repl fuel rest

def subPathF : Nat → List Char → List Char
  | _, [] => []
  | 0, l => l
  | fuel + 1, c :: rest =>
      if c = '/' then
        match rest with
        | [] => ['/']
        | d :: rest2 =>
            if isPathC d then
              '/' :: 'P' :: 'A' :: 'T' :: 'H' ::
                subPathF fuel ((d :: rest2).dropWhile isPathC)
            else '/' :: subPathF fuel (d :: rest2)
      else c :: subPathF fuel rest

def subUrlF : Nat → List Char → List Char
  | _, [] => []
  | 0, l => l
  | fuel + 1, c :: rest =>
      if ('h' :: 't' :: 't' :: 'p' :: 's' :: ':' :: '/' :: '/' :: []).isPrefixOf
          (c :: rest) then
        match (c :: rest).drop 8 with
        | [] => c :: subUrlF fuel rest
        | d :: after2 =>
            if isPySpace d then c :: subUrlF fuel rest
            else 'U' :: 'R' :: 'L' ::
              subUrlF fuel ((d :: after2).dropWhile (fun e => ! isPySpace e))
      else if ('h' :: 't' :: 't' :: 'p' :: ':' :: '/' :: '/' :: []).isPrefixOf
          (c :: rest) then
        match (c :: rest).drop 7 with
        | [] => c :: subUrlF fuel rest
        | d :: after2 =>
            if isPySpace d then c :: subUrlF fuel rest
            else 'U' :: 'R' :: 'L' ::
              subUrlF fuel ((d :: after2).dropWhile (fun e => ! isPySpace e))
      else c :: subUrlF fuel rest

theorem subNumsF_eq (p : Option Char) (l : List Char) :
    ∀ fuel, l.length ≤ fuel → subNumsF fuel p l = subNumsGo p l := by
  induction p, l using subNumsGo.induct with
  | case1 p =>
      intro fuel h
      cases fuel <;> simp [subNumsF, subNumsGo]
  | case2 prev c rest hcond rest' hnb ih =>
      intro fuel h
      match fuel with
      | 0 => simp at h
      | f + 1 =>
          have hc : isDigitC c = true := by
            have h2 := hcond
            simp only [Bool.and_eq_true] at h2
            exact h2.1
          have hlen : (List.dropWhile isDigitC (c :: rest)).length ≤ f := by
            rw [List.dropWhile_cons]
            simp only [hc, if_true]
            have h3 := dropWhile_length_le isDigitC rest
            simp only [List.length_cons] at h
            omega
          simp only [subNumsF, subNumsGo]
          rw [if_pos hcond, if_pos hcond]
          rw [if_pos hnb, if_pos hnb, ih f hlen]
  | case3 prev c rest hcond rest' hnb ih =>
      intro fuel h
      match fuel with
      | 0 => simp at h
      | f + 1 =>
          have hc : isDigitC c = true := by
            have h2 := hcond
            simp only [Bool.and_eq_true] at h2
            exact h2.1
          have hlen : (List.dropWhile isDigitC (c :: rest)).length ≤ f := by
            rw [List.dropWhile_cons]
            simp only [hc, if_true]
            have h3 := dropWhile_length_le isDigitC rest
            simp only [List.length_cons] at h
            omega
          simp only [subNumsF, subNumsGo]
          rw [if_pos hcond, if_pos hcond]
          rw [if_neg hnb, if_neg hnb, ih f hlen]
  | case4 prev c rest hcond ih =>
      intro fuel h
      match fuel with
      | 0 => simp at h
      | f + 1 =>
          simp only [List.length_cons] at h
          simp only [subNumsF, subNumsGo]
          rw [if_neg hcond, if_neg hcond, ih f (by omega)]

theorem subHexF_eq (l : List Char) :
    ∀ fuel, l.length ≤ fuel → subHexF fuel l = subHexGo l := by
  induction l using subHexGo.induct with
  | case1 =>
      intro fuel h
      cases fuel <;> simp [subHexF, subHexGo]
  | case2 =>
      intro fuel h
      match fuel with
      | 0 => simp at h
      | f + 1 => simp [subHexF, subHexGo]
  | case3 d tail hd ih =>
      intro fuel h
      match fuel with
      | 0 => simp at h
      | f + 1 =>
          have hlen : ((d :: tail).dropWhile isHexC).length ≤ f := by
            rw [List.dropWhile_cons]
            simp only [hd, if_true]
            have h3 := dropWhile_length_le isHexC tail
            simp only [List.length_cons] at h
            omega
          simp only [subHexF, subHexGo]
          rw [if_pos hd, if_pos hd, ih f hlen]
  | case4 d tail hd ih =>
      intro fuel h
      match fuel with
      | 0 => simp at h
      | f + 1 =>
          simp only [List.length_cons] at h
          simp only [subHexF, subHexGo]
          rw [if_neg hd, if_neg hd,
            ih f (by simp only [List.length_cons]; omega)]
  | case5 c rest hne ih =>
      intro fuel h
      match fuel with
      | 0 => simp at h
      | f + 1 =>
          simp only [List.length_cons] at h
          have hih := ih f (by omega)
          rcases rest with _ | ⟨r2, rest2⟩
          · by_cases hc : c = '0'
            · subst hc
              simp [subHexF, subHexGo]
            · simp [subHexF, subHexGo, hc]
          · by_cases hc : c = '0'
            · by_cases hr : r2 = 'x'
              · exact (hne rest2 hc (by rw [hr])).elim
              · subst hc
                simp [subHexF, subHexGo, hr, hih]
            · simp [subHexF, subHexGo, hc, hih]

theorem subPathF_eq (l : List Char) :
    ∀ fuel, l.length ≤ fuel → subPathF fuel l = subPathGo l := by
  induction l using subPathGo.induct with
  | case1 =>
      intro fuel h
      cases fuel <;> simp [subPathF, subPathGo]
  | case2 =>
      intro fuel h
      match fuel with
      | 0 => simp at h
      | f + 1 => simp [subPathF, subPathGo]
  | case3 d tail hd ih =>
      intro fuel h
      match fuel with
      | 0 => simp at h
      | f + 1 =>
          have hlen : ((d :: tail).dropWhile isPathC).length ≤ f := by
            rw [List.dropWhile_cons]
            simp only [hd, if_true]
            have h3 := dropWhile_length_le isPathC tail
            simp only [List.length_cons] at h
            omega
          have hih := ih f hlen
          simp only [List.dropWhile_cons, hd, if_true] at hih
          simp [subPathF, subPathGo, hd, hih]
  | case4 d tail hd ih =>
      intro fuel h
      match fuel with
      | 0 => simp at h
      | f + 1 =>
          simp only [List.length_cons] at h
          simp only [subPathF, subPathGo]
          rw [if_neg hd, if_neg hd,
            ih f (by simp only [List.length_cons]; omega)]
  | case5 d tail hd ih =>
      intro fuel h
      match fuel with
      | 0 => simp at h
      | f + 1 =>
          simp only [List.length_cons] at h
          have hih := ih f (by omega)
          rw [subPathGo.eq_def]
          simp [subPathF, hd, hih]

theorem subQuoteF_eq (q : Char) (repl : List Char) (l : List Char) :
    ∀ fuel, l.length ≤ fuel → subQuoteF q repl fuel l = subQuoteGo q repl l := by
  refine subQuoteGo.induct q repl
    (fun l => ∀ fuel, l.length ≤ fuel →
      subQuoteF q repl fuel l = subQuoteGo q repl l) ?_ ?_ ?_ ?_ l
  · intro fuel h
    cases fuel <;> simp [subQuoteF, subQuoteGo]
  · intro tail hany ih fuel h
    match fuel with
    | 0 => simp at h
    | f + 1 =>
        have hlen : ((tail.dropWhile (fun d => decide ¬ d = q)).tail).length
            ≤ f := by
          have h3 := dropWhile_length_le (fun d => decide ¬ d = q) tail
          have h4 : ((tail.dropWhile (fun d => decide ¬ d = q)).tail).length ≤
              (tail.dropWhile (fun d => decide ¬ d = q)).length := by
            cases tail.dropWhile (fun d => decide ¬ d = q) <;> simp
          simp only [List.length_cons] at h
          omega
        have hih := ih f hlen
        simp only [decide_not] at hih
        simp [subQuoteF, subQuoteGo, hany, hih]
  · intro tail hany fuel h
    match fuel with
    | 0 => simp at h
    | f + 1 => simp [subQuoteF, subQuoteGo, hany]
  · intro d tail hd ih fuel h
    match fuel with
    | 0 => simp at h
    | f + 1 =>
        simp only [List.length_cons] at h
        have hih := ih f (by omega)
        simp [subQuoteF, subQuoteGo, hd, hih]

/-- The double- and single-quote replacements `"STR"` and `'STR'`. -/
def dquoteRepl : List Char := ['"', 'S', 'T', 'R', '"']

def squoteRepl : List Char := ['\'', 'S', 'T', 'R', '\'']

/-- `ParsedError._normalize_message`: the six substitutions in source
order (numbers, hex, double-quoted, single-quoted, paths, URLs). -/
def pyNormalizeMessage (s : String) : String :=
  let t1 := subNumsF s.toList.length none s.toList
  let t2 := subHexF t1.length t1
  let t3 := subQuoteF '"' dquoteRepl t2.length t2
  let t4 := subQuoteF '\'' squoteRepl t3.length t3
  let t5 := subPathF t4.length t4
  ⟨subUrlF t5.length t5⟩

/-- The normalization pipeline in terms of the reference scanners. -/
def normStages (l : List Char) : List Char :=
  let t5 := subPathGo (subQuoteGo '\'' squoteRepl
    (subQuoteGo '"' dquoteRepl (subHexGo (subNumsGo none l))))
  subUrlF t5.length t5

theorem pyNormalizeMessage_eq (s : String) :
    pyNormalizeMessage s = ⟨normStages s.toList⟩ := by
  unfold pyNormalizeMessage normStages
  dsimp only
  rw [subNumsF_eq none s.toList _ le_rfl, subHexF_eq _ _ le_rfl,
    subQuoteF_eq '"' dquoteRepl _ _ le_rfl,
    subQuoteF_eq '\'' squoteRepl _ _ le_rfl, subPathF_eq _ _ le_rfl]

/-! ### SHA-256 (`hashlib.sha256(....encode()).hexdigest()`)

32-bit words are `Nat` values below `2^32`, reduced explicitly with
`w32`; `str.encode()` is UTF-8. -/

def w32 (n : Nat) : Nat := n % 4294967296

/-- Right-rotation of a 32-bit word by `k` (0 < k < 32). -/
def rotr32 (k n : Nat) : Nat := n / 2 ^ k + n % 2 ^ k * 2 ^ (32 - k)

def utf8Char (c : Char) : List Nat :=
  let n := c.toNat
  if n < 128 then [n]
  else if n < 2048 then [192 + n / 64, 128 + n % 64]
  else if n < 65536 then
    [224 + n / 4096, 128 + n / 64 % 64, 128 + n % 64]
  else
    [240 + n / 262144, 128 + n / 4096 % 64, 128 + n / 64 % 64, 128 + n % 64]

def utf8Bytes (s : String) : List Nat := s.toList.flatMap utf8Char

def sha256K : List Nat :=
  [1116352408, 1899447441, 3049323471, 3921009573,
   961987163, 1508970993, 2453635748, 2870763221,
   3624381080, 310598401, 607225278, 1426881987,
   1925078388, 2162078206, 2614888103, 3248222580,
   3835390401, 4022224774, 264347078, 604807628,
   770255983, 1249150122, 1555081692, 1996064986,
   2554220882, 2821834349, 2952996808, 3210313671,
   3336571891, 3584528711, 113926993, 338241895,
   666307205, 773529912, 1294757372, 1396182291,
   1695183700, 1986661051, 2177026350, 2456956037,
   2730485921, 2820302411, 3259730800, 3345764771,
   3516065817, 3600352804, 4094571909, 275423344,
   430227734, 506948616, 659060556, 883997877,
   958139571, 1322822218, 1537002063, 1747873779,
   1955562222, 2024104815, 2227730452, 2361852424,
   2428436474, 2756734187, 3204031479, 3329325298]

def sha256H0 : List Nat :=
  [1779033703, 3144134277, 1013904242, 2773480762,
   1359893119, 2600822924, 528734635, 1541459225]

/-- Message padding: a 0x80 byte, zeros to 56 mod 64, then the 64-bit
big-endian bit length. -/
def sha256Pad (msg : List Nat) : List Nat :=
  let len := msg.length
  let bitLen := len * 8
  let zeros := (120 - (len + 1) % 64) % 64
  msg ++ 128 :: List.replicate zeros 0 ++
    [bitLen / 2 ^ 56 % 256, bitLen / 2 ^ 48 % 256, bitLen / 2 ^ 40 % 256,
     bitLen / 2 ^ 32 % 256, bitLen / 2 ^ 24 % 256, bitLen / 2 ^ 16 % 256,
     bitLen / 2 ^ 8 % 256, bitLen % 256]

def bytesToWords : List Nat → List Nat
  | b0 :: b1 :: b2 :: b3 :: rest =>
      (((b0 * 256 + b1) * 256 + b2) * 256 + b3) :: bytesToWords rest
  | _ => []

/-- Split into 64-byte chunks (fuel = list length keeps the recursion
structural, so that digests reduce inside the kernel). -/
def chunks64F : Nat → List Nat → List (List Nat)
  | _, [] => []
  | 0, _ => []
  | f + 1, c :: rest => ((c :: rest).take 64) :: chunks64F f ((c :: rest).drop 64)

def smallSigma0 (x : Nat) : Nat :=
  Nat.xor (Nat.xor (rotr32 7 x) (rotr32 18 x)) (x / 2 ^ 3)

def smallSigma1 (x : Nat) : Nat :=
  Nat.xor (Nat.xor (rotr32 17 x) (rotr32 19 x)) (x / 2 ^ 10)

def bigSigma0 (x : Nat) : Nat :=
  Nat.xor (Nat.xor (rotr32 2 x) (rotr32 13 x)) (rotr32 22 x)

def bigSigma1 (x : Nat) : Nat :=
  Nat.xor (Nat.xor (rotr32 6 x) (rotr32 11 x)) (rotr32 25 x)

def chFn (x y z : Nat) : Nat :=
  Nat.xor (Nat.land x y) (Nat.land (Nat.xor x 4294967295) z)

def majFn (x y z : Nat) : Nat :=
  Nat.xor (Nat.xor (Nat.land x y) (Nat.land x z)) (Nat.land y z)

/-- Extend 16 words of a chunk to the 64-entry message schedule. -/
def msgSchedule (ws : List Nat) : List Nat :=
  (List.range 48).foldl (fun w _ =>
    let n := w.length
    w ++ [w32 (smallSigma1 (w.getD (n - 2) 0) + w.getD (n - 7) 0 +
      smallSigma0 (w.getD (n - 15) 0) + w.getD (n - 16) 0)]) ws

def sha256Compress (h : List Nat) (chunkWords : List Nat) : List Nat :=
  let w := msgSchedule chunkWords
  let st := (w.zip sha256K).foldl (fun st p =>
    let t1 := w32 (st.2.2.2.2.2.2.2 + bigSigma1 st.2.2.2.2.1 +
      chFn st.2.2.2.2.1 st.2.2.2.2.2.1 st.2.2.2.2.2.2.1 + p.2 + p.1)
    let t2 := w32 (bigSigma0 st.1 + majFn st.1 st.2.1 st.2.2.1)
    (w32 (t1 + t2), st.1, st.2.1, st.2.2.1, w32 (st.2.2.2.1 + t1),
     st.2.2.2.2.1, st.2.2.2.2.2.1, st.2.2.2.2.2.2.1))
    (h.getD 0 0, h.getD 1 0, h.getD 2 0, h.getD 3 0,
     h.getD 4 0, h.getD 5 0, h.getD 6 0, h.getD 7 0)
  [w32 (h.getD 0 0 + st.1), w32 (h.getD 1 0 + st.2.1),
   w32 (h.getD 2 0 + st.2.2.1), w32 (h.getD 3 0 + st.2.2.2.1),
   w32 (h.getD 4 0 + st.2.2.2.2.1), w32 (h.getD 5 0 + st.2.2.2.2.2.1),
   w32 (h.getD 6 0 + st.2.2.2.2.2.2.1), w32 (h.getD 7 0 + st.2.2.2.2.2.2.2)]

def hexDigit (n : Nat) : Char :=
  if n < 10 then Char.ofNat (48 + n) else Char.ofNat (87 + n)

def word32Hex (n : Nat) : List Char :=
  [hexDigit (n / 16 ^ 7 % 16), hexDigit (n / 16 ^ 6 % 16),
   hexDigit (n / 16 ^ 5 % 16), hexDigit (n / 16 ^ 4 % 16),
   hexDigit (n / 16 ^ 3 % 16), hexDigit (n / 16 ^ 2 % 16),
   hexDigit (n / 16 % 16), hexDigit (n % 16)]

/-- Lowercase SHA-256 hex digest of a byte list. -/
def sha256Hex (msg : List Nat) : String :=
  ⟨((chunks64F (sha256Pad msg).length (sha256Pad msg)).foldl
      (fun h chunk => sha256Compress h (bytesToWords chunk))
      sha256H0).flatMap word32Hex⟩

/-! ### `ParsedError.get_fingerprint`

Only the fields involved in fingerprinting are modelled (timestamps and
request metadata play no role in `get_fingerprint`).  Python truthiness
of the `if self.file_path and self.line_number` / `elif self.stack_trace`
guards makes `""`, `0` and `None` all falsy. -/

structure ParsedError where
  error_type : String
  error_message : String
  stack_trace : Option String := none
  file_path : Option String := none
  line_number : Option Nat := none
  function_name : Option String := none

def optStrTruthy : Option String → Bool
  | some s => decide (s ≠ "")
  | none => false

def optNatTruthy : Option Nat → Bool
  | some n => decide (n ≠ 0)
  | none => false

/-- `lit.isPrefixOf l`, returning the remainder on success. -/
def litPrefix (lit l : List Char) : Option (List Char) :=
  if lit.isPrefixOf l then some (l.drop lit.length) else none

/-- A nonempty greedy character-class run (`[c]+`), returning the run and
the remainder. -/
def takeWhile1 (p : Char → Bool) (l : List Char) :
    Option (List Char × List Char) :=
  let run := l.takeWhile p
  if run.isEmpty then none else some (run, l.dropWhile p)

def isWordDotC (c : Char) : Bool := isWordC c || decide (c = '.')

/-- Match `File "([^"]+)", line (\d+), in (\w+)` anchored at the head.
Each greedy run is followed by a character outside its class, so the
regex engine's backtracking never yields a different match. -/
def matchPyFrameAt (l : List Char) :
    Option (List Char × List Char × List Char) :=
  match litPrefix ('F' :: 'i' :: 'l' :: 'e' :: ' ' :: '"' :: []) l with
  | none => none
  | some r1 =>
      match takeWhile1 (fun c => decide (c ≠ '"')) r1 with
      | none => none
      | some (g1, r2) =>
          match litPrefix ('"' :: ',' :: ' ' :: 'l' :: 'i' :: 'n' :: 'e' ::
              ' ' :: []) r2 with
          | none => none
          | some r3 =>
              match takeWhile1 isDigitC r3 with
              | none => none
              | some (g2, r4) =>
                  match litPrefix (',' :: ' ' :: 'i' :: 'n' :: ' ' :: [])
                      r4 with
                  | none => none
                  | some r5 =>
                      match takeWhile1 isWordC r5 with
                      | none => none
                      | some (g3, _) => some (g1, g2, g3)

/-- Match `at ([\w.]+)\(([\w.]+):(\d+)` anchored at the head. -/
def matchJavaFrameAt (l : List Char) :
    Option (List Char × List Char × List Char) :=
  match litPrefix ('a' :: 't' :: ' ' :: []) l with
  | none => none
  | some r1 =>
      match takeWhile1 isWordDotC r1 with
      | none => none
      | some (g1, r2) =>
          match litPrefix ('(' :: []) r2 with
          | none => none
          | some r3 =>
              match takeWhile1 isWordDotC r3 with
              | none => none
              | some (g2, r4) =>
                  match litPrefix (':' :: []) r4 with
                  | none => none
                  | some r5 =>
                      match takeWhile1 isDigitC r5 with
                      | none => none
                      | some (g3, _) => some (g1, g2, g3)

/-- `re.search`: try each start position left to right. -/
def searchFrame (matchAt : List Char →
    Option (List Char × List Char × List Char)) :
    List Char → Option (List Char × List Char × List Char)
  | [] => matchAt []
  | c :: rest =>
      match matchAt (c :: rest) with
      | some g => some g
      | none => searchFrame matchAt rest

/-- `ParsedError._extract_first_frame`: the Python traceback pattern,
then the Java/JavaScript pattern; result is `file:line:function`. -/
def extractFirstFrame (stack_trace : String) : Option String :=
  match searchFrame matchPyFrameAt stack_trace.toList with
  | some (f, ln, fn) => some ⟨f ++ ':' :: ln ++ ':' :: fn⟩
  | none =>
      match searchFrame matchJavaFrameAt stack_trace.toList with
      | some (fn, f, ln) => some ⟨f ++ ':' :: ln ++ ':' :: fn⟩
      | none => none

/-! ### Message templates

Two messages "differ only in variable substrings" when they render from a
common skeleton: the same literal pieces around holes of the same kinds.
Hole contents vary; `wfSegs` states the delimiting side conditions under
which the normalizer provably erases every hole. -/

inductive Seg
  | lit (s : List Char)
  | intHole (ds : List Char)
  | hexHole (hs : List Char)
  | dquoteHole (cs : List Char)
  | squoteHole (cs : List Char)
  | pathHole (ps : List Char)

def Seg.render : Seg → List Char
  | .lit s => s
  | .intHole ds => ds
  | .hexHole hs => '0' :: 'x' :: hs
  | .dquoteHole cs => '"' :: cs ++ ['"']
  | .squoteHole cs => '\'' :: cs ++ ['\'']
  | .pathHole ps => '/' :: ps

/-- After the number substitution. -/
def Seg.render1 : Seg → List Char
  | .intHole _ => ['N']
  | .lit s => s
  | .hexHole hs => '0' :: 'x' :: hs
  | .dquoteHole cs => '"' :: cs ++ ['"']
  | .squoteHole cs => '\'' :: cs ++ ['\'']
  | .pathHole ps => '/' :: ps

/-- After the hex substitution. -/
def Seg.render2 : Seg → List Char
  | .intHole _ => ['N']
  | .hexHole _ => ['0', 'x', 'H', 'E', 'X']
  | .lit s => s
  | .dquoteHole cs => '"' :: cs ++ ['"']
  | .squoteHole cs => '\'' :: cs ++ ['\'']
  | .pathHole ps => '/' :: ps

/-- After the double-quote substitution. -/
def Seg.render3 : Seg → List Char
  | .intHole _ => ['N']
  | .hexHole _ => ['0', 'x', 'H', 'E', 'X']
  | .dquoteHole _ => dquoteRepl
  | .lit s => s
  | .squoteHole cs => '\'' :: cs ++ ['\'']
  | .pathHole ps => '/' :: ps

/-- After the single-quote substitution. -/
def Seg.render4 : Seg → List Char
  | .intHole _ => ['N']
  | .hexHole _ => ['0', 'x', 'H', 'E', 'X']
  | .dquoteHole _ => dquoteRepl
  | .squoteHole _ => squoteRepl
  | .lit s => s
  | .pathHole ps => '/' :: ps

/-- After the path substitution: the fully normalized form, independent
of every hole's content. -/
def Seg.norm : Seg → List Char
  | .intHole _ => ['N']
  | .hexHole _ => ['0', 'x', 'H', 'E', 'X']
  | .dquoteHole _ => dquoteRepl
  | .squoteHole _ => squoteRepl
  | .pathHole _ => ['/', 'P', 'A', 'T', 'H']
  | .lit s => s

def Seg.headChar : Seg → Char
  | .lit s => s.headD ' '
  | .intHole ds => ds.headD '0'
  | .hexHole _ => '0'
  | .dquoteHole _ => '"'
  | .squoteHole _ => '\''
  | .pathHole _ => '/'

def Seg.lastChar : Seg → Char
  | .lit s => s.getLastD ' '
  | .intHole ds => ds.getLastD '0'
  | .hexHole hs => hs.getLastD 'x'
  | .dquoteHole _ => '"'
  | .squoteHole _ => '\''
  | .pathHole ps => ps.getLastD '/'

/-- First character of the fully normalized rendering. -/
def Seg.head5Char : Seg → Char
  | .lit s => s.headD ' '
  | .intHole _ => 'N'
  | .hexHole _ => '0'
  | .dquoteHole _ => '"'
  | .squoteHole _ => '\''
  | .pathHole _ => '/'

def Seg.isIntH : Seg → Bool
  | .intHole _ => true
  | _ => false

def Seg.isHexH : Seg → Bool
  | .hexHole _ => true
  | _ => false

def Seg.isPathH : Seg → Bool
  | .pathHole _ => true
  | _ => false

/-- Literal characters: no digits (the number pass), no quotes (pairing),
no slashes (the path pass). -/
def litOKC (c : Char) : Bool :=
  !isDigitC c && !decide (c = '"') && !decide (c = '\'') && !decide (c = '/')

/-- Quoted-hole content: free of both quote characters and digits. -/
def quoteOKC (c : Char) : Bool :=
  !isDigitC c && !decide (c = '"') && !decide (c = '\'')

def Seg.ok : Seg → Bool
  | .lit s => !s.isEmpty && s.all litOKC
  | .intHole ds => !ds.isEmpty && ds.all isDigitC
  | .hexHole hs => !hs.isEmpty && hs.all isHexC
  | .dquoteHole cs => cs.all quoteOKC
  | .squoteHole cs => cs.all quoteOKC
  | .pathHole ps => !ps.isEmpty && ps.all (fun c => isPathC c && !isDigitC c)

/-- Delimiting conditions between adjacent segments: an integer hole
needs word boundaries on both sides; a hex hole must not be followed by a
hex digit; a path hole must not be followed by a path character. -/
def pairOK (a b : Seg) : Bool :=
  (!b.isIntH || !isWordC a.lastChar) &&
  (!a.isIntH || !isWordC b.headChar) &&
  (!a.isHexH || !isHexC b.headChar) &&
  (!a.isPathH || !isPathC b.head5Char)

def wfSegs : List Seg → Bool
  | [] => true
  | [a] => a.ok
  | a :: b :: t => a.ok && pairOK a b && wfSegs (b :: t)

def Seg.skelEq : Seg → Seg → Bool
  | .lit s, .lit t => decide (s = t)
  | .intHole _, .intHole _ => true
  | .hexHole _, .hexHole _ => true
  | .dquoteHole _, .dquoteHole _ => true
  | .squoteHole _, .squoteHole _ => true
  | .pathHole _, .pathHole _ => true
  | _, _ => false

def sameSkeleton : List Seg → List Seg → Bool
  | [], [] => true
  | a :: as, b :: bs => a.skelEq b && sameSkeleton as bs
  | _, _ => false

def renderT (segs : List Seg) : List Char := segs.flatMap Seg.render

def renderNorm (segs : List Seg) : List Char := segs.flatMap Seg.norm

/-- `ParsedError.get_fingerprint`. -/
def get_fingerprint (e : ParsedError) : String :=
  let normalized_message := pyNormalizeMessage e.error_message
  let base := [e.error_type, normalized_message]
  let parts :=
    if optStrTruthy e.file_path && optNatTruthy e.line_number then
      base ++ [(e.file_path.getD "") ++ ":" ++ toString (e.line_number.getD 0)]
    else if optStrTruthy e.stack_trace then
      match extractFirstFrame (e.stack_trace.getD "") with
      | some frame => base ++ [frame]
      | none => base
    else base
  sha256Hex (utf8Bytes (String.intercalate "|" parts))

/-! ### Scanner decomposition lemmas -/

theorem takeWhile_append_all {α : Type} (p : α → Bool) (a b : List α)
    (ha : ∀ c ∈ a, p c = true) (hb : ∀ c, b.head? = some c → p c = false) :
    (a ++ b).takeWhile p = a := by
  induction a with
  | nil =>
      simp only [List.nil_append]
      cases b with
      | nil => rfl
      | cons x xs => simp [List.takeWhile_cons, hb x rfl]
  | cons x xs ih =>
      simp only [List.cons_append, List.takeWhile_cons,
        ha x (List.mem_cons_self x xs), if_true]
      rw [ih (fun c hc => ha c (List.mem_cons_of_mem x hc))]

theorem dropWhile_append_all {α : Type} (p : α → Bool) (a b : List α)
    (ha : ∀ c ∈ a, p c = true) (hb : ∀ c, b.head? = some c → p c = false) :
    (a ++ b).dropWhile p = b := by
  induction a with
  | nil =>
      simp only [List.nil_append]
      cases b with
      | nil => rfl
      | cons x xs => simp [List.dropWhile_cons, hb x rfl]
  | cons x xs ih =>
      simp only [List.cons_append, List.dropWhile_cons,
        ha x (List.mem_cons_self x xs), if_true]
      exact ih (fun c hc => ha c (List.mem_cons_of_mem x hc))

/-- The scan context after processing `l`: its last character, or the
incoming context when `l` is empty. -/
def chainPrev (p : Option Char) (l : List Char) : Option Char :=
  match l.getLast? with
  | some c => some c
  | none => p

theorem chainPrev_cons (p : Option Char) (c : Char) (l : List Char) :
    chainPrev p (c :: l) = chainPrev (some c) l := by
  cases l with
  | nil => rfl
  | cons d t =>
      simp only [chainPrev, List.getLast?_cons_cons]
      cases h : (d :: t).getLast? with
      | none => simp at h
      | some e => rfl

theorem chainPrev_getLast (p : Option Char) (l : List Char) (c : Char)
    (h : l.getLast? = some c) : chainPrev p l = some c := by
  simp [chainPrev, h]

theorem digit_word (c : Char) (h : isDigitC c = true) : isWordC c = true := by
  simp [isWordC, h]

theorem hex_word (c : Char) (h : isHexC c = true) : isWordC c = true := by
  simp only [isHexC, Bool.or_eq_true, Bool.and_eq_true] at h
  rcases h with (h | h) | h
  · exact digit_word c h
  · simp only [isWordC, Bool.or_eq_true, Bool.and_eq_true]
    exact Or.inl (Or.inl (Or.inl ⟨h.1, by
      exact decide_eq_true (le_trans (of_decide_eq_true h.2) (by decide))⟩))
  · simp only [isWordC, Bool.or_eq_true, Bool.and_eq_true]
    exact Or.inl (Or.inl (Or.inr ⟨h.1, by
      exact decide_eq_true (le_trans (of_decide_eq_true h.2) (by decide))⟩))

/-- `subNumsGo` looks at its context only through `prevBoundary`. -/
theorem subNumsGo_prev_congr (p1 p2 : Option Char) (l : List Char)
    (h : prevBoundary p1 = prevBoundary p2) :
    subNumsGo p1 l = subNumsGo p2 l := by
  cases l with
  | nil => simp [subNumsGo]
  | cons c rest => simp only [subNumsGo, h]

/-- A digit-free prefix passes through the number scanner unchanged. -/
theorem subNumsGo_append_inert (a : List Char) :
    ∀ (p : Option Char) (b : List Char),
      (∀ c ∈ a, isDigitC c = false) →
      subNumsGo p (a ++ b) = a ++ subNumsGo (chainPrev p a) b := by
  induction a with
  | nil => intro p b _; simp [chainPrev]
  | cons c a' ih =>
      intro p b ha
      have hc : isDigitC c = false := ha c (List.mem_cons_self c a')
      rw [List.cons_append]
      simp only [subNumsGo]
      rw [if_neg (by simp [hc])]
      rw [ih (some c) b (fun d hd => ha d (List.mem_cons_of_mem c hd)),
        chainPrev_cons, List.cons_append]

/-- An all-word prefix in a non-boundary context passes through the
number scanner unchanged (no digit run inside it can start a match). -/
theorem subNumsGo_append_word (a : List Char) :
    ∀ (p : Option Char) (b : List Char),
      (∀ c ∈ a, isWordC c = true) → prevBoundary p = false →
      subNumsGo p (a ++ b) = a ++ subNumsGo (chainPrev p a) b := by
  induction a with
  | nil => intro p b _ _; simp [chainPrev]
  | cons c a' ih =>
      intro p b ha hp
      rw [List.cons_append]
      simp only [subNumsGo]
      rw [if_neg (by simp [hp])]
      rw [ih (some c) b (fun d hd => ha d (List.mem_cons_of_mem c hd))
          (by simp [prevBoundary, ha c (List.mem_cons_self c a')]),
        chainPrev_cons, List.cons_append]

/-- A nonempty digit run flanked by word boundaries becomes `N`. -/
theorem subNumsGo_consume (p : Option Char) (d : Char) (ds b : List Char)
    (hall : ∀ c ∈ d :: ds, isDigitC c = true)
    (hp : prevBoundary p = true) (hb : nextBoundary b = true) :
    subNumsGo p ((d :: ds) ++ b) = 'N' :: subNumsGo (some d) b := by
  have hbhead : ∀ c, b.head? = some c → isDigitC c = false := by
    intro c hc
    cases b with
    | nil => simp at hc
    | cons x xs =>
        simp only [List.head?_cons, Option.some.injEq] at hc
        subst hc
        simp only [nextBoundary, Bool.not_eq_true'] at hb
        cases hd : isDigitC x
        · rfl
        · exact absurd (digit_word x hd) (by simp [hb])
  have hdw : (d :: (ds ++ b)).dropWhile isDigitC = b := by
    rw [← List.cons_append]
    exact dropWhile_append_all isDigitC (d :: ds) b hall hbhead
  rw [List.cons_append]
  simp only [subNumsGo]
  rw [if_pos (by simp [hall d (List.mem_cons_self d ds), hp])]
  rw [hdw, if_pos hb]

/-- A hex-literal rendering `0x…` passes through the number scanner
unchanged: each digit run inside it touches a word character. -/
theorem subNumsGo_hex_inert (p : Option Char) (hs b : List Char)
    (hall : ∀ c ∈ hs, isHexC c = true) :
    subNumsGo p (('0' :: 'x' :: hs) ++ b) =
      '0' :: 'x' :: (hs ++ subNumsGo (chainPrev (some 'x') hs) b) := by
  have hword : ∀ c ∈ hs, isWordC c = true := fun c hc => hex_word c (hall c hc)
  have hall3 : ∀ c ∈ ('0' :: 'x' :: hs), isWordC c = true := by
    intro c hc
    simp only [List.mem_cons] at hc
    rcases hc with rfl | rfl | hc
    · decide
    · decide
    · exact hword c hc
  have h0 : isDigitC '0' = true := by decide
  have hx : isDigitC 'x' = false := by decide
  cases hp : prevBoundary p with
  | false =>
      have h2 := subNumsGo_append_word ('0' :: 'x' :: hs) p b hall3 hp
      rw [h2, chainPrev_cons, chainPrev_cons]
      simp
  | true =>
      have hdw : List.dropWhile isDigitC ('0' :: ('x' :: (hs ++ b))) =
          'x' :: (hs ++ b) := by
        rw [List.dropWhile_cons, if_pos h0, List.dropWhile_cons,
          if_neg (by simp [hx])]
      have htk : List.takeWhile isDigitC ('0' :: ('x' :: (hs ++ b))) =
          ['0'] := by
        rw [List.takeWhile_cons, if_pos h0, List.takeWhile_cons,
          if_neg (by simp [hx])]
      have hnb : nextBoundary ('x' :: (hs ++ b)) = false := by rfl
      rw [List.cons_append, List.cons_append]
      simp only [subNumsGo]
      rw [if_pos (by rw [h0, hp]; rfl)]
      rw [hdw, htk, if_neg (by simp [hnb])]
      simp only [List.cons_append, List.nil_append]
      simp only [subNumsGo]
      rw [if_neg (by simp [hx])]
      rw [subNumsGo_append_word hs (some 'x') b hword (by decide)]

theorem subHexGo_cons_ne (c : Char) (l : List Char) (hc : c ≠ '0') :
    subHexGo (c :: l) = c :: subHexGo l := by
  cases l with
  | nil => simp [subHexGo, hc]
  | cons d l' =>
      by_cases hd : d = 'x'
      · subst hd
        simp [subHexGo, hc]
      · simp [subHexGo, hc, hd]

/-- A `0`-free prefix passes through the hex scanner unchanged. -/
theorem subHexGo_append_inert (a : List Char) :
    ∀ b, (∀ c ∈ a, c ≠ '0') → subHexGo (a ++ b) = a ++ subHexGo b := by
  induction a with
  | nil => intro b _; simp
  | cons c a' ih =>
      intro b ha
      rw [List.cons_append,
        subHexGo_cons_ne c (a' ++ b) (ha c (List.mem_cons_self c a')),
        ih b (fun d hd => ha d (List.mem_cons_of_mem c hd)), List.cons_append]

/-- `0x` followed by a maximal nonempty hex run becomes `0xHEX`. -/
theorem subHexGo_consume (h0 : Char) (hs b : List Char)
    (hall : ∀ c ∈ h0 :: hs, isHexC c = true)
    (hb : ∀ c, b.head? = some c → isHexC c = false) :
    subHexGo (('0' :: 'x' :: h0 :: hs) ++ b) =
      '0' :: 'x' :: 'H' :: 'E' :: 'X' :: subHexGo b := by
  have hdw : ((h0 :: hs) ++ b).dropWhile isHexC = b :=
    dropWhile_append_all isHexC (h0 :: hs) b hall hb
  simp only [List.cons_append]
  simp only [subHexGo]
  rw [if_pos (hall h0 (List.mem_cons_self h0 hs))]
  rw [← List.cons_append, hdw]

/-- A `q`-free prefix passes through the quote scanner unchanged. -/
theorem subQuoteGo_append_inert (q : Char) (r : List Char) (a : List Char) :
    ∀ b, (∀ c ∈ a, c ≠ q) →
      subQuoteGo q r (a ++ b) = a ++ subQuoteGo q r b := by
  induction a with
  | nil => intro b _; simp
  | cons c a' ih =>
      intro b ha
      rw [List.cons_append]
      simp only [subQuoteGo]
      rw [if_neg (ha c (List.mem_cons_self c a'))]
      rw [ih b (fun d hd => ha d (List.mem_cons_of_mem c hd)),
        List.cons_append]

/-- A quote pair with `q`-free contents becomes the replacement. -/
theorem subQuoteGo_consume (q : Char) (r : List Char) (cs b : List Char)
    (hcs : ∀ c ∈ cs, c ≠ q) :
    subQuoteGo q r ((q :: cs ++ [q]) ++ b) = r ++ subQuoteGo q r b := by
  have hshape : (q :: cs ++ [q]) ++ b = q :: (cs ++ (q :: b)) := by simp
  rw [hshape]
  simp only [subQuoteGo]
  rw [if_pos trivial]
  have hany : ((cs ++ (q :: b)).any (fun d => d = q)) = true := by
    simp
  rw [if_pos hany]
  have hdrop : (cs ++ (q :: b)).dropWhile (fun d => ¬ d = q) = q :: b :=
    dropWhile_append_all _ cs (q :: b)
      (fun c hc => by simp [hcs c hc])
      (fun c hc => by
        simp only [List.head?_cons, Option.some.injEq] at hc
        subst hc
        simp)
  rw [hdrop]
  simp

theorem subPathGo_cons_ne (c : Char) (l : List Char) (hc : c ≠ '/') :
    subPathGo (c :: l) = c :: subPathGo l := by
  cases l with
  | nil => simp [subPathGo, hc]
  | cons d l' => simp [subPathGo, hc]

/-- A slash-free prefix passes through the path scanner unchanged. -/
theorem subPathGo_append_inert (a : List Char) :
    ∀ b, (∀ c ∈ a, c ≠ '/') → subPathGo (a ++ b) = a ++ subPathGo b := by
  induction a with
  | nil => intro b _; simp
  | cons c a' ih =>
      intro b ha
      rw [List.cons_append,
        subPathGo_cons_ne c (a' ++ b) (ha c (List.mem_cons_self c a')),
        ih b (fun d hd => ha d (List.mem_cons_of_mem c hd)), List.cons_append]

/-- A slash followed by a maximal nonempty path-character run becomes
`/PATH`. -/
theorem subPathGo_consume (p0 : Char) (ps b : List Char)
    (hall : ∀ c ∈ p0 :: ps, isPathC c = true)
    (hb : ∀ c, b.head? = some c → isPathC c = false) :
    subPathGo (('/' :: p0 :: ps) ++ b) =
      '/' :: 'P' :: 'A' :: 'T' :: 'H' :: subPathGo b := by
  have hdw : ((p0 :: ps) ++ b).dropWhile isPathC = b :=
    dropWhile_append_all isPathC (p0 :: ps) b hall hb
  have hdw2 : List.dropWhile isPathC (p0 :: (ps ++ b)) = b := by
    rw [← List.cons_append]
    exact hdw
  simp only [List.cons_append]
  simp only [subPathGo]
  rw [if_pos trivial]
  rw [if_pos (hall p0 (List.mem_cons_self p0 ps))]
  rw [hdw2]

/-- No two adjacent slashes: under this condition the URL pattern
`https?://` can match nowhere, so the URL pass is the identity. -/
def noDSlash : List Char → Bool
  | a :: b :: t => !(decide (a = '/') && decide (b = '/')) && noDSlash (b :: t)
  | _ => true

theorem noDSlash_tail (c : Char) (l : List Char)
    (h : noDSlash (c :: l) = true) : noDSlash l = true := by
  cases l with
  | nil => rfl
  | cons d t =>
      simp only [noDSlash, Bool.and_eq_true] at h
      exact h.2

theorem noDSlash_not_https (c : Char) (rest : List Char)
    (h : noDSlash (c :: rest) = true) :
    ('h' :: 't' :: 't' :: 'p' :: 's' :: ':' :: '/' :: '/' :: []).isPrefixOf
      (c :: rest) = false := by
  cases hp : ('h' :: 't' :: 't' :: 'p' :: 's' :: ':' :: '/' :: '/' ::
      []).isPrefixOf (c :: rest)
  · rfl
  · exfalso
    obtain ⟨t, ht⟩ := List.isPrefixOf_iff_prefix.mp hp
    rw [← ht] at h
    simp [noDSlash] at h

theorem noDSlash_not_http (c : Char) (rest : List Char)
    (h : noDSlash (c :: rest) = true) :
    ('h' :: 't' :: 't' :: 'p' :: ':' :: '/' :: '/' :: []).isPrefixOf
      (c :: rest) = false := by
  cases hp : ('h' :: 't' :: 't' :: 'p' :: ':' :: '/' :: '/' ::
      []).isPrefixOf (c :: rest)
  · rfl
  · exfalso
    obtain ⟨t, ht⟩ := List.isPrefixOf_iff_prefix.mp hp
    rw [← ht] at h
    simp [noDSlash] at h

theorem subUrlF_id : ∀ (fuel : Nat) (l : List Char),
    noDSlash l = true → subUrlF fuel l = l := by
  intro fuel
  induction fuel with
  | zero =>
      intro l _
      cases l <;> rfl
  | succ f ih =>
      intro l h
      cases l with
      | nil => rfl
      | cons c rest =>
          have h1 := noDSlash_not_https c rest h
          have h2 := noDSlash_not_http c rest h
          simp only [subUrlF]
          rw [if_neg (by simp [h1]), if_neg (by simp [h2])]
          rw [ih rest (noDSlash_tail c rest h)]

theorem noDSlash_of_no_slash (l : List Char) :
    (∀ c ∈ l, c ≠ '/') → noDSlash l = true := by
  induction l with
  | nil => intro _; rfl
  | cons a t ih =>
      intro h
      cases t with
      | nil => rfl
      | cons b t2 =>
          simp only [noDSlash, Bool.and_eq_true]
          refine ⟨?_, ih (fun c hc => h c (List.mem_cons_of_mem a hc))⟩
          simp [h a (List.mem_cons_self a (b :: t2))]

theorem noDSlash_append (x : List Char) :
    ∀ y, noDSlash x = true → noDSlash y = true →
      (x.getLast? = some '/' → y.head? ≠ some '/') →
      noDSlash (x ++ y) = true := by
  induction x with
  | nil => intro y _ hy _; simpa using hy
  | cons a x' ih =>
      intro y hx hy hlast
      cases x' with
      | nil =>
          cases y with
          | nil => rfl
          | cons b t =>
              simp only [List.cons_append, List.nil_append]
              simp only [noDSlash, Bool.and_eq_true]
              refine ⟨?_, hy⟩
              by_cases ha : a = '/'
              · have hb := hlast (by simp [ha])
                simp only [List.head?_cons, ne_eq, Option.some.injEq] at hb
                simp [ha, hb]
              · simp [ha]
      | cons a2 x'' =>
          simp only [List.cons_append]
          simp only [noDSlash, Bool.and_eq_true] at hx ⊢
          refine ⟨hx.1, ?_⟩
          have h2 := ih y hx.2 hy
            (by
              intro hl
              exact hlast (by rw [List.getLast?_cons_cons]; exact hl))
          simpa using h2

/-! ### Per-segment facts -/

theorem litOKC_spec (c : Char) (h : litOKC c = true) :
    isDigitC c = false ∧ c ≠ '"' ∧ c ≠ '\'' ∧ c ≠ '/' := by
  simp only [litOKC, Bool.and_eq_true, Bool.not_eq_true',
    decide_eq_false_iff_not] at h
  exact ⟨h.1.1.1, h.1.1.2, h.1.2, h.2⟩

theorem quoteOKC_spec (c : Char) (h : quoteOKC c = true) :
    isDigitC c = false ∧ c ≠ '"' ∧ c ≠ '\'' := by
  simp only [quoteOKC, Bool.and_eq_true, Bool.not_eq_true',
    decide_eq_false_iff_not] at h
  exact ⟨h.1.1, h.1.2, h.2⟩

theorem wfSegs_cons (a : Seg) (rest : List Seg)
    (h : wfSegs (a :: rest) = true) :
    a.ok = true ∧ wfSegs rest = true ∧
      (∀ b t, rest = b :: t → pairOK a b = true) := by
  cases rest with
  | nil =>
      refine ⟨h, rfl, ?_⟩
      intro b t ht
      simp at ht
  | cons b t =>
      simp only [wfSegs, Bool.and_eq_true] at h
      refine ⟨h.1.1, ?_, ?_⟩
      · exact h.2
      · intro b' t' ht
        injection ht with h1 _
        rw [← h1]
        exact h.1.2

theorem pairOK_spec (a b : Seg) (h : pairOK a b = true) :
    (b.isIntH = true → isWordC a.lastChar = false) ∧
    (a.isIntH = true → isWordC b.headChar = false) ∧
    (a.isHexH = true → isHexC b.headChar = false) ∧
    (a.isPathH = true → isPathC b.head5Char = false) := by
  simp only [pairOK, Bool.and_eq_true, Bool.or_eq_true,
    Bool.not_eq_true'] at h
  obtain ⟨⟨⟨h1, h2⟩, h3⟩, h4⟩ := h
  refine ⟨fun hb => ?_, fun ha => ?_, fun ha => ?_, fun ha => ?_⟩
  · rcases h1 with h1 | h1
    · rw [hb] at h1; exact absurd h1 (by simp)
    · exact h1
  · rcases h2 with h2 | h2
    · rw [ha] at h2; exact absurd h2 (by simp)
    · exact h2
  · rcases h3 with h3 | h3
    · rw [ha] at h3; exact absurd h3 (by simp)
    · exact h3
  · rcases h4 with h4 | h4
    · rw [ha] at h4; exact absurd h4 (by simp)
    · exact h4

theorem getLast?_eq_getLastD (l : List Char) (hne : l ≠ []) (d : Char) :
    l.getLast? = some (l.getLastD d) := by
  cases hl : l.getLast? with
  | none => exact absurd (List.getLast?_eq_none_iff.mp hl) hne
  | some c => rw [List.getLastD_eq_getLast?, hl]; rfl

theorem head?_eq_headD (l : List Char) (hne : l ≠ []) (d : Char) :
    l.head? = some (l.headD d) := by
  cases l with
  | nil => exact absurd rfl hne
  | cons c t => rfl

theorem Seg.ok_lit_ne_nil {s : List Char} (h : (Seg.lit s).ok = true) :
    s ≠ [] := by
  simp only [Seg.ok, Bool.and_eq_true, Bool.not_eq_true'] at h
  intro hs
  rw [hs] at h
  simp at h

theorem render_head (a : Seg) (h : a.ok = true) :
    a.render.head? = some a.headChar := by
  cases a with
  | lit s =>
      have hne := Seg.ok_lit_ne_nil h
      exact head?_eq_headD s hne ' '
  | intHole ds =>
      cases ds with
      | nil => simp [Seg.ok] at h
      | cons c t => rfl
  | hexHole hs => rfl
  | dquoteHole cs => rfl
  | squoteHole cs => rfl
  | pathHole ps => rfl

theorem render_getLast (a : Seg) (h : a.ok = true) :
    a.render.getLast? = some a.lastChar := by
  cases a with
  | lit s => exact getLast?_eq_getLastD s (Seg.ok_lit_ne_nil h) ' '
  | intHole ds =>
      cases ds with
      | nil => simp [Seg.ok] at h
      | cons c t =>
          exact getLast?_eq_getLastD (c :: t) (by simp) '0'
  | hexHole hs =>
      cases hs with
      | nil => simp [Seg.ok] at h
      | cons c t =>
          show (['0', 'x'] ++ (c :: t)).getLast? = _
          rw [List.getLast?_append_of_ne_nil _ (by simp)]
          exact getLast?_eq_getLastD (c :: t) (by simp) 'x'
  | dquoteHole cs =>
      show (('"' :: cs) ++ ['"']).getLast? = _
      rw [List.getLast?_concat]
      rfl
  | squoteHole cs =>
      show (('\'' :: cs) ++ ['\'']).getLast? = _
      rw [List.getLast?_concat]
      rfl
  | pathHole ps =>
      cases ps with
      | nil => simp [Seg.ok] at h
      | cons c t =>
          show (['/'] ++ (c :: t)).getLast? = _
          rw [List.getLast?_append_of_ne_nil _ (by simp)]
          exact getLast?_eq_getLastD (c :: t) (by simp) '/'

/-- At the stage before the path pass every segment's rendering starts
with its fully-normalized head character. -/
theorem render4_head (a : Seg) (h : a.ok = true) :
    a.render4.head? = some a.head5Char := by
  cases a with
  | lit s => exact head?_eq_headD s (Seg.ok_lit_ne_nil h) ' '
  | intHole ds => rfl
  | hexHole hs => rfl
  | dquoteHole cs => rfl
  | squoteHole cs => rfl
  | pathHole ps => rfl

theorem nextBoundary_eq_of_head (l : List Char) (c : Char)
    (h : l.head? = some c) : nextBoundary l = ! isWordC c := by
  cases l with
  | nil => simp at h
  | cons d t =>
      simp only [List.head?_cons, Option.some.injEq] at h
      rw [← h]
      rfl

theorem flatMap_head_of (f : Seg → List Char) (b : Seg) (t : List Seg)
    (c : Char) (hf : (f b).head? = some c) :
    ((b :: t).flatMap f).head? = some c := by
  rw [List.flatMap_cons]
  cases hfb : f b with
  | nil => rw [hfb] at hf; simp at hf
  | cons x xs =>
      rw [hfb] at hf
      simp only [List.head?_cons, Option.some.injEq] at hf
      simp [hf]

theorem chainPrev_some (d : Char) (l : List Char) :
    chainPrev (some d) l = some (l.getLastD d) := by
  cases hl : l.getLast? with
  | none =>
      have he := List.getLast?_eq_none_iff.mp hl
      subst he
      rfl
  | some c =>
      rw [chainPrev_getLast (some d) l c hl, List.getLastD_eq_getLast?, hl]
      rfl

theorem ok_lit_all {s : List Char} (h : (Seg.lit s).ok = true) :
    s ≠ [] ∧ ∀ c ∈ s, litOKC c = true := by
  simp only [Seg.ok, Bool.and_eq_true, List.all_eq_true] at h
  exact ⟨fun hs => by rw [hs] at h; simp at h, h.2⟩

theorem ok_int_all {ds : List Char} (h : (Seg.intHole ds).ok = true) :
    ds ≠ [] ∧ ∀ c ∈ ds, isDigitC c = true := by
  simp only [Seg.ok, Bool.and_eq_true, List.all_eq_true] at h
  exact ⟨fun hs => by rw [hs] at h; simp at h, h.2⟩

theorem ok_hex_all {hs : List Char} (h : (Seg.hexHole hs).ok = true) :
    hs ≠ [] ∧ ∀ c ∈ hs, isHexC c = true := by
  simp only [Seg.ok, Bool.and_eq_true, List.all_eq_true] at h
  exact ⟨fun h2 => by rw [h2] at h; simp at h, h.2⟩

theorem ok_dq_all {cs : List Char} (h : (Seg.dquoteHole cs).ok = true) :
    ∀ c ∈ cs, quoteOKC c = true := by
  simp only [Seg.ok, List.all_eq_true] at h
  exact h

theorem ok_sq_all {cs : List Char} (h : (Seg.squoteHole cs).ok = true) :
    ∀ c ∈ cs, quoteOKC c = true := by
  simp only [Seg.ok, List.all_eq_true] at h
  exact h

theorem ok_path_all {ps : List Char} (h : (Seg.pathHole ps).ok = true) :
    ps ≠ [] ∧ ∀ c ∈ ps, isPathC c = true ∧ isDigitC c = false := by
  simp only [Seg.ok, Bool.and_eq_true, List.all_eq_true,
    Bool.not_eq_true'] at h
  exact ⟨fun h2 => by rw [h2] at h; simp at h,
    fun c hc => (h.2 c hc).imp id id⟩

/-- If the next segment is an integer hole, the context after the
current segment is a word boundary. -/
theorem stage_next_int (a : Seg) (rest : List Seg)
    (hpair : ∀ b t, rest = b :: t → pairOK a b = true) :
    ∀ ds' rest', rest = Seg.intHole ds' :: rest' →
      prevBoundary (some a.lastChar) = true := by
  intro ds' rest' hr
  have hs := (pairOK_spec a _ (hpair _ _ hr)).1 rfl
  simp [prevBoundary, hs]

/-! ### The normalization stages on a rendered template -/

/-- The number pass turns each integer hole into `N` and leaves every
other segment's rendering unchanged. -/
theorem stage1 : ∀ (segs : List Seg) (p : Option Char),
    wfSegs segs = true →
    (∀ ds rest, segs = Seg.intHole ds :: rest → prevBoundary p = true) →
    subNumsGo p (segs.flatMap Seg.render) = segs.flatMap Seg.render1 := by
  intro segs
  induction segs with
  | nil =>
      intro p _ _
      simp [subNumsGo]
  | cons a rest ih =>
      intro p hwf hp
      obtain ⟨hok, hwfr, hpair⟩ := wfSegs_cons a rest hwf
      rw [List.flatMap_cons, List.flatMap_cons]
      cases a with
      | lit s =>
          have hdf : ∀ c ∈ s, isDigitC c = false :=
            fun c hc => (litOKC_spec c ((ok_lit_all hok).2 c hc)).1
          show subNumsGo p (s ++ _) = s ++ _
          rw [subNumsGo_append_inert s p _ hdf]
          congr 1
          rw [chainPrev_getLast p s _ (render_getLast (Seg.lit s) hok)]
          exact ih _ hwfr (stage_next_int (Seg.lit s) rest hpair)
      | intHole ds =>
          cases ds with
          | nil => simp [Seg.ok] at hok
          | cons d ds' =>
              have hall := (ok_int_all hok).2
              have hpb : prevBoundary p = true := hp (d :: ds') rest rfl
              have hnb : nextBoundary (rest.flatMap Seg.render) = true := by
                cases rest with
                | nil => rfl
                | cons b t =>
                    have hokb := (wfSegs_cons b t hwfr).1
                    have hhead := flatMap_head_of Seg.render b t _
                      (render_head b hokb)
                    rw [nextBoundary_eq_of_head _ _ hhead]
                    have hw := (pairOK_spec _ _ (hpair b t rfl)).2.1 rfl
                    simp [hw]
              show subNumsGo p ((d :: ds') ++ _) = ['N'] ++ _
              rw [subNumsGo_consume p d ds' _ hall hpb hnb]
              show 'N' :: _ = 'N' :: _
              congr 1
              refine ih (some d) hwfr ?_
              intro ds2 rest2 hr
              exfalso
              have hs := (pairOK_spec _ _ (hpair _ _ hr)).1 rfl
              have hmem : (d :: ds').getLastD '0' ∈ d :: ds' :=
                getLast?_mem (d :: ds') _
                  (getLast?_eq_getLastD (d :: ds') (by simp) '0')
              have hw := digit_word _ (hall _ hmem)
              simp only [Seg.lastChar] at hs
              rw [hw] at hs
              simp at hs
      | hexHole hs =>
          have hall := (ok_hex_all hok).2
          show subNumsGo p (('0' :: 'x' :: hs) ++ _) =
            ('0' :: 'x' :: hs) ++ _
          rw [subNumsGo_hex_inert p hs _ hall]
          simp only [List.cons_append]
          congr 3
          rw [chainPrev_some 'x' hs]
          exact ih _ hwfr (stage_next_int (Seg.hexHole hs) rest hpair)
      | dquoteHole cs =>
          have hdf : ∀ c ∈ ('"' :: cs ++ ['"']), isDigitC c = false := by
            intro c hc
            simp only [List.cons_append, List.mem_cons, List.mem_append,
              List.mem_singleton] at hc
            rcases hc with rfl | hc | rfl | h0
            · decide
            · exact (quoteOKC_spec c (ok_dq_all hok c hc)).1
            · decide
            · simp at h0
          show subNumsGo p (('"' :: cs ++ ['"']) ++ _) =
            ('"' :: cs ++ ['"']) ++ _
          rw [subNumsGo_append_inert _ p _ hdf]
          congr 1
          rw [chainPrev_getLast p ('\"' :: cs ++ ['\"']) _
            (render_getLast (Seg.dquoteHole cs) hok)]
          exact ih _ hwfr (stage_next_int (Seg.dquoteHole cs) rest hpair)
      | squoteHole cs =>
          have hdf : ∀ c ∈ ('\'' :: cs ++ ['\'']), isDigitC c = false := by
            intro c hc
            simp only [List.cons_append, List.mem_cons, List.mem_append,
              List.mem_singleton] at hc
            rcases hc with rfl | hc | rfl | h0
            · decide
            · exact (quoteOKC_spec c (ok_sq_all hok c hc)).1
            · decide
            · simp at h0
          show subNumsGo p (('\'' :: cs ++ ['\'']) ++ _) =
            ('\'' :: cs ++ ['\'']) ++ _
          rw [subNumsGo_append_inert _ p _ hdf]
          congr 1
          rw [chainPrev_getLast p ('\'' :: cs ++ ['\'']) _
            (render_getLast (Seg.squoteHole cs) hok)]
          exact ih _ hwfr (stage_next_int (Seg.squoteHole cs) rest hpair)
      | pathHole ps =>
          have hdf : ∀ c ∈ ('/' :: ps), isDigitC c = false := by
            intro c hc
            rcases List.mem_cons.mp hc with rfl | hc
            · decide
            · exact ((ok_path_all hok).2 c hc).2
          show subNumsGo p (('/' :: ps) ++ _) = ('/' :: ps) ++ _
          rw [subNumsGo_append_inert _ p _ hdf]
          congr 1
          rw [chainPrev_getLast p ('/' :: ps) _
            (render_getLast (Seg.pathHole ps) hok)]
          exact ih _ hwfr (stage_next_int (Seg.pathHole ps) rest hpair)

theorem ne_zero_of_not_digit (c : Char) (h : isDigitC c = false) :
    c ≠ '0' := by
  intro hc
  rw [hc] at h
  exact absurd h (by decide)

/-- After a hex hole, the remaining stage-1 text starts with a non-hex
character. -/
theorem stage2_barrier (a : Seg) (rest : List Seg)
    (hwfr : wfSegs rest = true)
    (hpair : ∀ b t, rest = b :: t → pairOK a b = true)
    (ha : a.isHexH = true) :
    ∀ c, (rest.flatMap Seg.render1).head? = some c → isHexC c = false := by
  intro c hc
  cases rest with
  | nil => simp at hc
  | cons b t =>
      have hokb := (wfSegs_cons b t hwfr).1
      have harm := (pairOK_spec a b (hpair b t rfl)).2.2.1 ha
      cases b with
      | intHole ds2 =>
          rw [flatMap_head_of Seg.render1 (Seg.intHole ds2) t 'N' rfl] at hc
          injection hc with hc
          rw [← hc]
          decide
      | lit s2 =>
          rw [flatMap_head_of Seg.render1 (Seg.lit s2) t _
            (head?_eq_headD s2 (Seg.ok_lit_ne_nil hokb) ' ')] at hc
          injection hc with hc
          rw [← hc]
          exact harm
      | hexHole hs2 =>
          have h2 : isHexC (Seg.hexHole hs2).headChar = true := rfl
          rw [h2] at harm
          simp at harm
      | dquoteHole cs2 =>
          rw [flatMap_head_of Seg.render1 (Seg.dquoteHole cs2) t '"' rfl] at hc
          injection hc with hc
          rw [← hc]
          decide
      | squoteHole cs2 =>
          rw [flatMap_head_of Seg.render1 (Seg.squoteHole cs2) t '\'' rfl]
            at hc
          injection hc with hc
          rw [← hc]
          decide
      | pathHole ps2 =>
          rw [flatMap_head_of Seg.render1 (Seg.pathHole ps2) t '/' rfl] at hc
          injection hc with hc
          rw [← hc]
          decide

/-- The hex pass turns each hex hole into `0xHEX` and leaves every other
stage-1 segment unchanged. -/
theorem stage2 : ∀ (segs : List Seg), wfSegs segs = true →
    subHexGo (segs.flatMap Seg.render1) = segs.flatMap Seg.render2 := by
  intro segs
  induction segs with
  | nil =>
      intro _
      simp [subHexGo]
  | cons a rest ih =>
      intro hwf
      obtain ⟨hok, hwfr, hpair⟩ := wfSegs_cons a rest hwf
      rw [List.flatMap_cons, List.flatMap_cons]
      cases a with
      | lit s =>
          have h0 : ∀ c ∈ s, c ≠ '0' := fun c hc =>
            ne_zero_of_not_digit c (litOKC_spec c ((ok_lit_all hok).2 c hc)).1
          show subHexGo (s ++ _) = s ++ _
          rw [subHexGo_append_inert s _ h0, ih hwfr]
      | intHole ds =>
          show subHexGo (['N'] ++ _) = ['N'] ++ _
          rw [subHexGo_append_inert ['N'] _
            (by intro c hc; simp only [List.mem_singleton] at hc
                rw [hc]; decide),
            ih hwfr]
      | hexHole hs =>
          cases hs with
          | nil => simp [Seg.ok] at hok
          | cons h0 hs' =>
              have hall := (ok_hex_all hok).2
              have hb := stage2_barrier (Seg.hexHole (h0 :: hs')) rest hwfr
                hpair rfl
              show subHexGo (('0' :: 'x' :: h0 :: hs') ++ _) =
                (['0', 'x', 'H', 'E', 'X']) ++ _
              rw [subHexGo_consume h0 hs' _ hall hb, ih hwfr]
              rfl
      | dquoteHole cs =>
          have h0 : ∀ c ∈ ('"' :: cs ++ ['"']), c ≠ '0' := by
            intro c hc
            simp only [List.cons_append, List.mem_cons, List.mem_append,
              List.mem_singleton] at hc
            rcases hc with rfl | hc | rfl | h2
            · decide
            · exact ne_zero_of_not_digit c
                (quoteOKC_spec c (ok_dq_all hok c hc)).1
            · decide
            · simp at h2
          show subHexGo (('"' :: cs ++ ['"']) ++ _) =
            ('"' :: cs ++ ['"']) ++ _
          rw [subHexGo_append_inert _ _ h0, ih hwfr]
      | squoteHole cs =>
          have h0 : ∀ c ∈ ('\'' :: cs ++ ['\'']), c ≠ '0' := by
            intro c hc
            simp only [List.cons_append, List.mem_cons, List.mem_append,
              List.mem_singleton] at hc
            rcases hc with rfl | hc | rfl | h2
            · decide
            · exact ne_zero_of_not_digit c
                (quoteOKC_spec c (ok_sq_all hok c hc)).1
            · decide
            · simp at h2
          show subHexGo (('\'' :: cs ++ ['\'']) ++ _) =
            ('\'' :: cs ++ ['\'']) ++ _
          rw [subHexGo_append_inert _ _ h0, ih hwfr]
      | pathHole ps =>
          have h0 : ∀ c ∈ ('/' :: ps), c ≠ '0' := by
            intro c hc
            rcases List.mem_cons.mp hc with rfl | hc
            · decide
            · exact ne_zero_of_not_digit c ((ok_path_all hok).2 c hc).2
          show subHexGo (('/' :: ps) ++ _) = ('/' :: ps) ++ _
          rw [subHexGo_append_inert _ _ h0, ih hwfr]

theorem pathC_ne_dq (c : Char) (h : isPathC c = true) : c ≠ '"' := by
  intro hc
  rw [hc] at h
  exact absurd h (by decide)

theorem pathC_ne_sq (c : Char) (h : isPathC c = true) : c ≠ '\'' := by
  intro hc
  rw [hc] at h
  exact absurd h (by decide)

/-- The double-quote pass replaces each double-quote hole with `"STR"`
and leaves every other stage-2 segment unchanged. -/
theorem stage3 : ∀ (segs : List Seg), wfSegs segs = true →
    subQuoteGo '"' dquoteRepl (segs.flatMap Seg.render2) =
      segs.flatMap Seg.render3 := by
  intro segs
  induction segs with
  | nil =>
      intro _
      simp [subQuoteGo]
  | cons a rest ih =>
      intro hwf
      obtain ⟨hok, hwfr, hpair⟩ := wfSegs_cons a rest hwf
      rw [List.flatMap_cons, List.flatMap_cons]
      cases a with
      | lit s =>
          have h0 : ∀ c ∈ s, c ≠ '"' := fun c hc =>
            (litOKC_spec c ((ok_lit_all hok).2 c hc)).2.1
          show subQuoteGo '"' dquoteRepl (s ++ _) = s ++ _
          rw [subQuoteGo_append_inert '"' dquoteRepl s _ h0, ih hwfr]
      | intHole ds =>
          show subQuoteGo '"' dquoteRepl (['N'] ++ _) = ['N'] ++ _
          rw [subQuoteGo_append_inert '"' dquoteRepl ['N'] _
            (by intro c hc
                simp only [List.mem_singleton] at hc
                rw [hc]; decide),
            ih hwfr]
      | hexHole hs =>
          show subQuoteGo '"' dquoteRepl (['0', 'x', 'H', 'E', 'X'] ++ _) =
            ['0', 'x', 'H', 'E', 'X'] ++ _
          rw [subQuoteGo_append_inert '"' dquoteRepl _ _
            (by intro c hc
                simp only [List.mem_cons, List.mem_singleton] at hc
                rcases hc with rfl | rfl | rfl | rfl | rfl | h2 <;>
                  first | decide | simp at h2),
            ih hwfr]
      | dquoteHole cs =>
          have h0 : ∀ c ∈ cs, c ≠ '"' := fun c hc =>
            (quoteOKC_spec c (ok_dq_all hok c hc)).2.1
          show subQuoteGo '"' dquoteRepl (('"' :: cs ++ ['"']) ++ _) =
            dquoteRepl ++ _
          rw [subQuoteGo_consume '"' dquoteRepl cs _ h0, ih hwfr]
      | squoteHole cs =>
          have h0 : ∀ c ∈ ('\'' :: cs ++ ['\'']), c ≠ '"' := by
            intro c hc
            simp only [List.cons_append, List.mem_cons, List.mem_append,
              List.mem_singleton] at hc
            rcases hc with rfl | hc | rfl | h2
            · decide
            · exact (quoteOKC_spec c (ok_sq_all hok c hc)).2.1
            · decide
            · simp at h2
          show subQuoteGo '"' dquoteRepl (('\'' :: cs ++ ['\'']) ++ _) =
            ('\'' :: cs ++ ['\'']) ++ _
          rw [subQuoteGo_append_inert '"' dquoteRepl _ _ h0, ih hwfr]
      | pathHole ps =>
          have h0 : ∀ c ∈ ('/' :: ps), c ≠ '"' := by
            intro c hc
            rcases List.mem_cons.mp hc with rfl | hc
            · decide
            · exact pathC_ne_dq c ((ok_path_all hok).2 c hc).1
          show subQuoteGo '"' dquoteRepl (('/' :: ps) ++ _) =
            ('/' :: ps) ++ _
          rw [subQuoteGo_append_inert '"' dquoteRepl _ _ h0, ih hwfr]

/-- The single-quote pass replaces each single-quote hole with `'STR'`
and leaves every other stage-3 segment unchanged. -/
theorem stage4 : ∀ (segs : List Seg), wfSegs segs = true →
    subQuoteGo '\'' squoteRepl (segs.flatMap Seg.render3) =
      segs.flatMap Seg.render4 := by
  intro segs
  induction segs with
  | nil =>
      intro _
      simp [subQuoteGo]
  | cons a rest ih =>
      intro hwf
      obtain ⟨hok, hwfr, hpair⟩ := wfSegs_cons a rest hwf
      rw [List.flatMap_cons, List.flatMap_cons]
      cases a with
      | lit s =>
          have h0 : ∀ c ∈ s, c ≠ '\'' := fun c hc =>
            (litOKC_spec c ((ok_lit_all hok).2 c hc)).2.2.1
          show subQuoteGo '\'' squoteRepl (s ++ _) = s ++ _
          rw [subQuoteGo_append_inert '\'' squoteRepl s _ h0, ih hwfr]
      | intHole ds =>
          show subQuoteGo '\'' squoteRepl (['N'] ++ _) = ['N'] ++ _
          rw [subQuoteGo_append_inert '\'' squoteRepl ['N'] _
            (by intro c hc
                simp only [List.mem_singleton] at hc
                rw [hc]; decide),
            ih hwfr]
      | hexHole hs =>
          show subQuoteGo '\'' squoteRepl (['0', 'x', 'H', 'E', 'X'] ++ _) =
            ['0', 'x', 'H', 'E', 'X'] ++ _
          rw [subQuoteGo_append_inert '\'' squoteRepl _ _
            (by intro c hc
                simp only [List.mem_cons, List.mem_singleton] at hc
                rcases hc with rfl | rfl | rfl | rfl | rfl | h2 <;>
                  first | decide | simp at h2),
            ih hwfr]
      | dquoteHole cs =>
          show subQuoteGo '\'' squoteRepl (dquoteRepl ++ _) =
            dquoteRepl ++ _
          rw [subQuoteGo_append_inert '\'' squoteRepl dquoteRepl _
            (by intro c hc
                simp only [dquoteRepl, List.mem_cons, List.mem_singleton]
                  at hc
                rcases hc with rfl | rfl | rfl | rfl | rfl | h2 <;>
                  first | decide | simp at h2),
            ih hwfr]
      | squoteHole cs =>
          have h0 : ∀ c ∈ cs, c ≠ '\'' := fun c hc =>
            (quoteOKC_spec c (ok_sq_all hok c hc)).2.2
          show subQuoteGo '\'' squoteRepl (('\'' :: cs ++ ['\'']) ++ _) =
            squoteRepl ++ _
          rw [subQuoteGo_consume '\'' squoteRepl cs _ h0, ih hwfr]
      | pathHole ps =>
          have h0 : ∀ c ∈ ('/' :: ps), c ≠ '\'' := by
            intro c hc
            rcases List.mem_cons.mp hc with rfl | hc
            · decide
            · exact pathC_ne_sq c ((ok_path_all hok).2 c hc).1
          show subQuoteGo '\'' squoteRepl (('/' :: ps) ++ _) =
            ('/' :: ps) ++ _
          rw [subQuoteGo_append_inert '\'' squoteRepl _ _ h0, ih hwfr]

/-- After a path hole, the remaining stage-4 text starts with a
non-path character. -/
theorem stage5_barrier (a : Seg) (rest : List Seg)
    (hwfr : wfSegs rest = true)
    (hpair : ∀ b t, rest = b :: t → pairOK a b = true)
    (ha : a.isPathH = true) :
    ∀ c, (rest.flatMap Seg.render4).head? = some c →
      isPathC c = false := by
  intro c hc
  cases rest with
  | nil => simp at hc
  | cons b t =>
      have hokb := (wfSegs_cons b t hwfr).1
      rw [flatMap_head_of Seg.render4 b t _ (render4_head b hokb)] at hc
      injection hc with hc
      rw [← hc]
      exact (pairOK_spec a b (hpair b t rfl)).2.2.2 ha

/-- The path pass replaces each path hole with `/PATH` and leaves every
other stage-4 segment unchanged. -/
theorem stage5 : ∀ (segs : List Seg), wfSegs segs = true →
    subPathGo (segs.flatMap Seg.render4) = segs.flatMap Seg.norm := by
  intro segs
  induction segs with
  | nil =>
      intro _
      simp [subPathGo]
  | cons a rest ih =>
      intro hwf
      obtain ⟨hok, hwfr, hpair⟩ := wfSegs_cons a rest hwf
      rw [List.flatMap_cons, List.flatMap_cons]
      cases a with
      | lit s =>
          have h0 : ∀ c ∈ s, c ≠ '/' := fun c hc =>
            (litOKC_spec c ((ok_lit_all hok).2 c hc)).2.2.2
          show subPathGo (s ++ _) = s ++ _
          rw [subPathGo_append_inert s _ h0, ih hwfr]
      | intHole ds =>
          show subPathGo (['N'] ++ _) = ['N'] ++ _
          rw [subPathGo_append_inert ['N'] _
            (by intro c hc
                simp only [List.mem_singleton] at hc
                rw [hc]; decide),
            ih hwfr]
      | hexHole hs =>
          show subPathGo (['0', 'x', 'H', 'E', 'X'] ++ _) =
            ['0', 'x', 'H', 'E', 'X'] ++ _
          rw [subPathGo_append_inert _ _
            (by intro c hc
                simp only [List.mem_cons, List.mem_singleton] at hc
                rcases hc with rfl | rfl | rfl | rfl | rfl | h2 <;>
                  first | decide | simp at h2),
            ih hwfr]
      | dquoteHole cs =>
          show subPathGo (dquoteRepl ++ _) = dquoteRepl ++ _
          rw [subPathGo_append_inert dquoteRepl _
            (by intro c hc
                simp only [dquoteRepl, List.mem_cons, List.mem_singleton]
                  at hc
                rcases hc with rfl | rfl | rfl | rfl | rfl | h2 <;>
                  first | decide | simp at h2),
            ih hwfr]
      | squoteHole cs =>
          show subPathGo (squoteRepl ++ _) = squoteRepl ++ _
          rw [subPathGo_append_inert squoteRepl _
            (by intro c hc
                simp only [squoteRepl, List.mem_cons, List.mem_singleton]
                  at hc
                rcases hc with rfl | rfl | rfl | rfl | rfl | h2 <;>
                  first | decide | simp at h2),
            ih hwfr]
      | pathHole ps =>
          cases ps with
          | nil => simp [Seg.ok] at hok
          | cons p0 ps' =>
              have hall : ∀ c ∈ p0 :: ps', isPathC c = true :=
                fun c hc => ((ok_path_all hok).2 c hc).1
              have hb := stage5_barrier (Seg.pathHole (p0 :: ps')) rest hwfr
                hpair rfl
              show subPathGo (('/' :: p0 :: ps') ++ _) =
                (['/', 'P', 'A', 'T', 'H']) ++ _
              rw [subPathGo_consume p0 ps' _ hall hb, ih hwfr]
              rfl

theorem norm_no_slash_mem (a : Seg) (h : a.ok = true) :
    noDSlash a.norm = true := by
  cases a with
  | lit s =>
      exact noDSlash_of_no_slash s (fun c hc =>
        (litOKC_spec c ((ok_lit_all h).2 c hc)).2.2.2)
  | intHole ds => rfl
  | hexHole hs => rfl
  | dquoteHole cs => rfl
  | squoteHole cs => rfl
  | pathHole ps => rfl

theorem norm_getLast_ne_slash (a : Seg) (h : a.ok = true) :
    a.norm.getLast? ≠ some '/' := by
  cases a with
  | lit s =>
      have hg := getLast?_eq_getLastD s (ok_lit_all h).1 ' '
      rw [show (Seg.lit s).norm = s from rfl, hg]
      intro hc
      injection hc with hc
      exact (litOKC_spec _
        ((ok_lit_all h).2 _ (getLast?_mem s _ hg))).2.2.2 hc
  | intHole ds =>
      show (['N'] : List Char).getLast? ≠ some '/'
      decide
  | hexHole hs =>
      show (['0', 'x', 'H', 'E', 'X'] : List Char).getLast? ≠ some '/'
      decide
  | dquoteHole cs =>
      show dquoteRepl.getLast? ≠ some '/'
      decide
  | squoteHole cs =>
      show squoteRepl.getLast? ≠ some '/'
      decide
  | pathHole ps =>
      show (['/', 'P', 'A', 'T', 'H'] : List Char).getLast? ≠ some '/'
      decide

theorem noDSlash_renderNorm : ∀ (segs : List Seg), wfSegs segs = true →
    noDSlash (renderNorm segs) = true := by
  intro segs
  induction segs with
  | nil => intro _; rfl
  | cons a rest ih =>
      intro hwf
      obtain ⟨hok, hwfr, _⟩ := wfSegs_cons a rest hwf
      show noDSlash (a.norm ++ rest.flatMap Seg.norm) = true
      exact noDSlash_append a.norm (rest.flatMap Seg.norm)
        (norm_no_slash_mem a hok) (ih hwfr)
        (fun hl => absurd hl (norm_getLast_ne_slash a hok))

/-- The full pipeline erases every hole of a well-formed template. -/
theorem normStages_renderT (segs : List Seg) (h : wfSegs segs = true) :
    normStages (renderT segs) = renderNorm segs := by
  unfold normStages renderT renderNorm
  dsimp only
  rw [stage1 segs none h (fun _ _ _ => rfl), stage2 segs h, stage3 segs h,
    stage4 segs h, stage5 segs h]
  exact subUrlF_id _ _ (noDSlash_renderNorm segs h)

theorem skelEq_norm (a b : Seg) (h : a.skelEq b = true) :
    a.norm = b.norm := by
  cases a <;> cases b <;> simp [Seg.skelEq] at h <;> simp [Seg.norm, h]

theorem renderNorm_skel : ∀ (s1 s2 : List Seg),
    sameSkeleton s1 s2 = true → renderNorm s1 = renderNorm s2 := by
  intro s1
  induction s1 with
  | nil =>
      intro s2 h
      cases s2 with
      | nil => rfl
      | cons b t => simp [sameSkeleton] at h
  | cons a t ih =>
      intro s2 h
      cases s2 with
      | nil => simp [sameSkeleton] at h
      | cons b t2 =>
          simp only [sameSkeleton, Bool.and_eq_true] at h
          show a.norm ++ t.flatMap Seg.norm = b.norm ++ t2.flatMap Seg.norm
          rw [skelEq_norm a b h.1]
          have h2 := ih t2 h.2
          unfold renderNorm at h2
          rw [h2]

/-- The fingerprint formula stated from the specification's words:
error_type, then the normalized message, then `file:line` when both are
known (truthy), otherwise the first parseable stack frame when a stack
trace is present; the digest is SHA-256 of the UTF-8 bytes of the
`|`-join, in lowercase hex. -/
def specFingerprintParts (e : ParsedError) : List String :=
  [e.error_type, pyNormalizeMessage e.error_message] ++
    (if optStrTruthy e.file_path && optNatTruthy e.line_number then
      [(e.file_path.getD "") ++ ":" ++ toString (e.line_number.getD 0)]
    else if optStrTruthy e.stack_trace then
      (extractFirstFrame (e.stack_trace.getD "")).toList
    else [])

theorem get_fingerprint_formula (e : ParsedError) :
    get_fingerprint e =
      sha256Hex (utf8Bytes (String.intercalate "|"
        (specFingerprintParts e))) := by
  unfold get_fingerprint specFingerprintParts
  dsimp only
  split_ifs with h1 h2
  · rfl
  · cases hf : extractFirstFrame (e.stack_trace.getD "")
    · simp [hf]
    · simp [hf]
  · rfl

/-- A full match of `https?://\S+`. -/
def isUrlToken (u : List Char) : Bool :=
  (('h' :: 't' :: 't' :: 'p' :: 's' :: ':' :: '/' :: '/' :: []).isPrefixOf u
      && decide (8 < u.length) ||
    ('h' :: 't' :: 't' :: 'p' :: ':' :: '/' :: '/' :: []).isPrefixOf u
      && decide (7 < u.length)) &&
  u.all (fun c => ! isPySpace c)

/-- C5: counterexample to the URL clause of fingerprint stability.  Two
records identical except for their messages, which differ only in a URL
substring (each a full `https?://\S+` match), get different
fingerprints: the path substitution runs before the URL substitution and
consumes the `//`, so the query strings survive normalization. -/
theorem get_fingerprint_url_counterexample :
    isUrlToken "https://a.com/p?q=x".toList = true ∧
    isUrlToken "https://b.org/r?s=y".toList = true ∧
    get_fingerprint (ParsedError.mk "TypeError"
        ("see " ++ "https://a.com/p?q=x") none none none none) ≠
      get_fingerprint (ParsedError.mk "TypeError"
        ("see " ++ "https://b.org/r?s=y") none none none none) :=
  ⟨by decide, by decide, by decide⟩

/-- C5 (amended): (1) two error records with equal error_type,
file_path, line_number and stack_trace whose messages render from a
common well-formed skeleton — differing only in standalone integer
substrings, `0x`-hex substrings, double- or single-quoted contents, or
absolute-path substrings — have equal fingerprints; (2) every
fingerprint is the lowercase SHA-256 hex digest of the UTF-8 bytes of
error_type joined by `|` with the normalized message and, when known
(truthy), `file:line`, else the first parseable stack frame. -/
theorem get_fingerprint_stable_amended :
    (∀ (segs1 segs2 : List Seg) (e1 e2 : ParsedError),
      wfSegs segs1 = true → wfSegs segs2 = true →
      sameSkeleton segs1 segs2 = true →
      e1.error_type = e2.error_type →
      e1.file_path = e2.file_path →
      e1.line_number = e2.line_number →
      e1.stack_trace = e2.stack_trace →
      e1.error_message = ⟨renderT segs1⟩ →
      e2.error_message = ⟨renderT segs2⟩ →
      get_fingerprint e1 = get_fingerprint e2) ∧
    (∀ e : ParsedError, get_fingerprint e =
      sha256Hex (utf8Bytes (String.intercalate "|"
        (specFingerprintParts e)))) := by
  constructor
  · intro segs1 segs2 e1 e2 hw1 hw2 hsk het hfp hln hst hm1 hm2
    have hn : pyNormalizeMessage e1.error_message =
        pyNormalizeMessage e2.error_message := by
      rw [hm1, hm2, pyNormalizeMessage_eq, pyNormalizeMessage_eq]
      rw [show (String.mk (renderT segs1)).toList = renderT segs1 from rfl,
        show (String.mk (renderT segs2)).toList = renderT segs2 from rfl]
      rw [normStages_renderT segs1 hw1, normStages_renderT segs2 hw2,
        renderNorm_skel segs1 segs2 hsk]
    unfold get_fingerprint
    dsimp only
    rw [het, hfp, hln, hst, hn]
  · exact get_fingerprint_formula

def c5segsA : List Seg :=
  [Seg.lit "open ".toList, Seg.dquoteHole "cfg A".toList,
   Seg.lit " err ".toList, Seg.intHole "42".toList,
   Seg.lit " code ".toList, Seg.hexHole "1f".toList,
   Seg.lit " at ".toList, Seg.pathHole "var/log/app.py".toList,
   Seg.lit " u ".toList, Seg.squoteHole "x y".toList]

def c5segsB : List Seg :=
  [Seg.lit "open ".toList, Seg.dquoteHole "cfg B".toList,
   Seg.lit " err ".toList, Seg.intHole "7".toList,
   Seg.lit " code ".toList, Seg.hexHole "2ab4".toList,
   Seg.lit " at ".toList, Seg.pathHole "tmp/app.py".toList,
   Seg.lit " u ".toList, Seg.squoteHole "z".toList]

def c5err1 : ParsedError :=
  { error_type := "ValueError",
    error_message := ⟨renderT c5segsA⟩,
    file_path := some "/app/m.py", line_number := some 3 }

def c5err2 : ParsedError :=
  { error_type := "ValueError",
    error_message := ⟨renderT c5segsB⟩,
    file_path := some "/app/m.py", line_number := some 3 }

/-- Witness for the amended C5 theorem: two concrete records whose
messages share a skeleton with integer, hex, quoted and path holes. -/
theorem get_fingerprint_stable_amended_witness :
    wfSegs c5segsA = true ∧ wfSegs c5segsB = true ∧
    sameSkeleton c5segsA c5segsB = true ∧
    get_fingerprint c5err1 = get_fingerprint c5err2 :=
  ⟨by decide, by decide, by decide,
    get_fingerprint_stable_amended.1 c5segsA c5segsB c5err1 c5err2
      (by decide) (by decide) (by decide) rfl rfl rfl rfl rfl rfl⟩

end Logamizer
